import Mathlib

/-!
# gobencode: a shallow embedding of `decoder.go` and `encoder.go`

The two Go files are embedded as pure functions on byte lists.

* A byte is a natural number and `Bytes` a list of them; every theorem below
  holds for all naturals and hence for the values `0 … 255` a Go byte takes.
* The `bufio.Reader` wrapped around the input is its unread remainder, a
  `Bytes`; every read returns the new remainder.  The source is taken to be
  a finite byte sequence that reports end of input on a read of its own (as
  `bytes.Reader` does), wrapped by `bufio.NewReader` with its default buffer of
  4096 bytes.
* A Go `(value, error)` result is a `Res`: `ok` carries the value and the
  remainder (`err == nil`), `err` the error.  Next to a non-nil error
  `readIntUntil`, `readList`, `readDictionary` and `Decode` return nil
  (`return nil, err`) and `readString` the empty or the partly filled string;
  every caller in `decoder.go` tests `err != nil` before it looks at the value,
  so `Res` does not keep the value next to an error.  The readers are embedded
  a second time with that value, as a `Ret`, under the names `Pair.readString`
  … `Pair.Decode`, and shown to agree with the first embedding.
* A call that panics does not return: its result is `Res.panicked`, and so is
  the result of every caller, none of which recovers.
* The recursive readers take a fuel argument; `Res.oof` says the fuel ran out.
  `Decode` supplies `2 * len(input)`, which is shown never to run out.
* The Go program is taken to run on a 64-bit platform (`int` has 64 bits), where
  `make([]byte, n)` panics with `makeslice: len out of range` for `n` above
  `runtime.maxAlloc = 2^48`.  Memory is taken to be there for an allocation
  within that bound, and for the stack of the nested calls.
-/

namespace Gobencode

/-- A sequence of bytes: an input, an output, or a Go `string`. -/
abbrev Bytes := List Nat

/-- The dynamically typed Go value (`interface{}`) the codec works on.
`int` stands for the types `int`, `int8` … `int64`, `uint` for `uint`,
`uint8` … `uint64`; `dict` lists the entries of a `map[string]interface{}` in
an arbitrary order (a Go map has none); `nil` is the nil interface value and
`foreign t` a value of any other dynamic type. -/
inductive Value where
  | int (n : Int)
  | uint (n : Nat)
  | str (s : Bytes)
  | list (xs : List Value)
  | dict (kvs : List (Bytes × Value))
  | nil
  | foreign (tag : Nat)

/-- The entries of a `map[string]interface{}`. -/
abbrev Dict := List (Bytes × Value)

/-- The errors the decoder can return. -/
inductive DecodeError where
  /-- The error `io.EOF`. -/
  | eof
  /-- The error `io.ErrUnexpectedEOF`. -/
  | unexpectedEOF
  /-- The error `bufio.ErrBufferFull`. -/
  | bufferFull
  /-- The error "string length may not exceed the size of int64". -/
  | lengthNotInt64
  /-- The error "string length may not be a negative number". -/
  | negativeLength
  /-- The error "bencode data must begin with a dictionary". -/
  | notDictionary
  deriving DecidableEq

/-- The `(value, error)` result of a read, with the reader's remainder: `ok` is a
value with a nil error, `err` a non-nil error (the value next to it is nil or
unused, see above), `panicked` a run-time panic, after which nothing is
returned, and `oof` the end of the fuel. -/
inductive Res (α : Type) where
  | ok (v : α) (rest : Bytes)
  | err (e : DecodeError)
  | panicked
  | oof

/-- The result is a value with a nil error. -/
def Res.isOk {α : Type} : Res α → Bool
  | .ok _ _ => true
  | _ => false

/-- The result is a non-nil error. -/
def Res.isErr {α : Type} : Res α → Bool
  | .err _ => true
  | _ => false

/-- The error is one of the two end-of-input errors, `io.EOF` and
`io.ErrUnexpectedEOF`. -/
def DecodeError.isEndOfInput : DecodeError → Bool
  | .eof => true
  | .unexpectedEOF => true
  | _ => false

/-- The result is an end-of-input error. -/
def Res.isEndOfInput {α : Type} : Res α → Bool
  | .err e => e.isEndOfInput
  | _ => false

/-- The value of a successful result, converted. -/
def Res.map {α β : Type} (f : α → β) : Res α → Res β
  | .ok v rest => .ok (f v) rest
  | .err e => .err e
  | .oof => .oof
  | .panicked => .panicked

/-! ## `strconv` -/

/-- The byte is an ASCII digit. -/
def isDigit (c : Nat) : Bool := 48 ≤ c && c ≤ 57

/-- The value of a run of decimal digits, most significant first. -/
def digitsValue (s : Bytes) : Nat := s.foldl (fun acc c => 10 * acc + (c - 48)) 0

/-- Go's `strconv.ParseUint(s, 10, 64)`: a non-empty run of digits, without
sign, whose value is at most `2^64 - 1`; `none` is a non-nil error. -/
def ParseUint (s : Bytes) : Option Nat :=
  if s = [] then none
  else if s.all isDigit then
    if digitsValue s < 2 ^ 64 then some (digitsValue s) else none
  else none

/-- Go's `strconv.ParseInt(s, 10, 64)`: an optional `+` or `-`, then a non-empty
run of digits, the value within `-2^63 … 2^63 - 1`; `none` is a non-nil error. -/
def ParseInt (s : Bytes) : Option Int :=
  match s with
  | [] => none
  | c :: t =>
    let neg := decide (c = 45)
    let body := if c = 43 ∨ c = 45 then t else s
    if body ≠ [] ∧ body.all isDigit = true then
      let un := digitsValue body
      if neg then (if un ≤ 2 ^ 63 then some (-(un : Int)) else none)
      else (if un < 2 ^ 63 then some (un : Int) else none)
    else none

/-- The loop of `strconv.FormatUint(n, 10)`: the digits of `n`, least
significant first, put in front of `acc`. -/
def formatLoop : Nat → Nat → Bytes → Bytes
  | 0, _, acc => acc
  | fuel + 1, n, acc =>
    if n < 10 then (48 + n) :: acc
    else formatLoop fuel (n / 10) ((48 + n % 10) :: acc)

/-- Go's `strconv.FormatUint(n, 10)`. -/
def FormatUint (n : Nat) : Bytes := formatLoop (n + 1) n []

/-- Go's `strconv.FormatInt(n, 10)`. -/
def FormatInt (n : Int) : Bytes :=
  if n < 0 then 45 :: FormatUint n.natAbs else FormatUint n.natAbs

/-- Go's `strconv.Itoa(n)`. -/
def Itoa (n : Int) : Bytes := FormatInt n

/-! ## `bufio.Reader` and `io.ReadFull` -/

/-- The size of the buffer `bufio.NewReader` allocates. -/
def defaultBufSize : Nat := 4096

/-- Go's `runtime.maxAlloc` on a 64-bit platform: `make([]byte, n)` panics with
`makeslice: len out of range` when `n` is greater. -/
def maxAlloc : Nat := 2 ^ 48

/-- Go's `bytes.IndexByte`: the index of the first `delim`. -/
def indexByte (delim : Nat) : Bytes → Option Nat
  | [] => none
  | b :: r => if b = delim then some 0 else (indexByte delim r).map (· + 1)

/-- Go's `bufio.Reader.ReadByte`. -/
def ReadByte (input : Bytes) : Res Nat :=
  match input with
  | [] => .err .eof
  | b :: rest => .ok b rest

/-- Go's `bufio.Reader.ReadSlice(delim)`: the bytes up to and including the
first `delim`, which has to show up among the bytes the buffer can hold;
otherwise `io.EOF` when the input ends first, `bufio.ErrBufferFull` when the
buffer fills up. -/
def ReadSlice (delim : Nat) (input : Bytes) : Res Bytes :=
  match indexByte delim (input.take defaultBufSize) with
  | some i => .ok (input.take (i + 1)) (input.drop (i + 1))
  | none => if input.length < defaultBufSize then .err .eof else .err .bufferFull

/-- Go's `io.ReadFull(decoder, buffer)` with `len(buffer) = n`: exactly `n`
bytes, `io.EOF` when there is none to read, `io.ErrUnexpectedEOF` when there
are fewer than `n`. -/
def ReadFull (n : Nat) (input : Bytes) : Res Bytes :=
  if n ≤ input.length then .ok (input.take n) (input.drop n)
  else if input = [] then .err .eof
  else .err .unexpectedEOF

/-! ## `decoder.go` -/

/-- The function `decoder.readIntUntil`.  When both parses fail the Go code
returns `nil, err` with the `err` of `ReadSlice`, the two `err` of the `if`
statements being out of scope; that `err` is nil there, so the result is the nil
value with a nil error. -/
def readIntUntil (untilByte : Nat) (input : Bytes) : Res Value :=
  match ReadSlice untilByte input with
  | .ok res rest =>
    let str := res.dropLast
    match ParseInt str with
    | some value => .ok (.int value) rest
    | none =>
      match ParseUint str with
      | some value => .ok (.uint value) rest
      | none => .ok .nil rest
  | .err e => .err e
  | .oof => .oof
  | .panicked => .panicked

/-- The function `decoder.readInt`. -/
def readInt (input : Bytes) : Res Value := readIntUntil 101 input

/-- The function `decoder.readString`.  Only `stringLength < 0` is tested before
`make([]byte, stringLength)`, which panics for a length above `maxAlloc`. -/
def readString (input : Bytes) : Res Bytes :=
  match readIntUntil 58 input with
  | .ok len rest =>
    match len with
    | .int stringLength =>
      if stringLength < 0 then .err .negativeLength
      else if maxAlloc < stringLength.toNat then .panicked
      else ReadFull stringLength.toNat rest
    | _ => .err .lengthNotInt64
  | .err e => .err e
  | .oof => .oof
  | .panicked => .panicked

/-- The assignment `dict[key] = item`: the entry of `key` is replaced when
there is one and added otherwise. -/
def Dict.set : Dict → Bytes → Value → Dict
  | [], key, item => [(key, item)]
  | (k, v) :: rest, key, item =>
    if k = key then (key, item) :: rest else (k, v) :: Dict.set rest key item

/-- The lookup `v, ok := d[key]`. -/
def Dict.get? : Dict → Bytes → Option Value
  | [], _ => none
  | (k, v) :: rest, key => if k = key then some v else Dict.get? rest key

/-- The lookup `d[key]`, which is the nil value when `key` is not in the
map. -/
def Dict.get : Dict → Bytes → Value
  | [], _ => .nil
  | (k, v) :: rest, key => if k = key then v else Dict.get rest key

/-- The keys of a map, in the order of its entries. -/
def Dict.keys (d : Dict) : List Bytes := d.map Prod.fst

mutual
/-- The function `decoder.readByType`.  The `default` case puts the identifier
back (`UnreadByte` after `ReadByte` cannot fail) and reads a string. -/
def readByType : Nat → Nat → Bytes → Res Value
  | 0, _, _ => .oof
  | fuel + 1, identifyer, input =>
    if identifyer = 105 then readInt input
    else if identifyer = 108 then (readListLoop fuel [] input).map Value.list
    else if identifyer = 100 then (readDictionaryLoop fuel [] input).map Value.dict
    else (readString (identifyer :: input)).map Value.str
/-- The `for` loop of `decoder.readList`, `list` being the items read so
far. -/
def readListLoop : Nat → List Value → Bytes → Res (List Value)
  | 0, _, _ => .oof
  | fuel + 1, list, input =>
    match ReadByte input with
    | .ok ch rest =>
      if ch = 101 then .ok list rest
      else
        match readByType fuel ch rest with
        | .ok item rest2 => readListLoop fuel (list ++ [item]) rest2
        | .err e => .err e
        | .oof => .oof
        | .panicked => .panicked
    | .err e => .err e
    | .oof => .oof
    | .panicked => .panicked
/-- The `for` loop of `decoder.readDictionary`, `dict` being the map built so
far.  When the byte after an entry is not `e` it is put back. -/
def readDictionaryLoop : Nat → Dict → Bytes → Res Dict
  | 0, _, _ => .oof
  | fuel + 1, dict, input =>
    match readString input with
    | .ok key rest =>
      match ReadByte rest with
      | .ok ch rest2 =>
        match readByType fuel ch rest2 with
        | .ok item rest3 =>
          match ReadByte rest3 with
          | .ok nextByte rest4 =>
            if nextByte = 101 then .ok (Dict.set dict key item) rest4
            else readDictionaryLoop fuel (Dict.set dict key item) (nextByte :: rest4)
          | .err e => .err e
          | .oof => .oof
          | .panicked => .panicked
        | .err e => .err e
        | .oof => .oof
        | .panicked => .panicked
      | .err e => .err e
      | .oof => .oof
      | .panicked => .panicked
    | .err e => .err e
    | .oof => .oof
    | .panicked => .panicked
end

/-- The function `decoder.readList`. -/
def readList (fuel : Nat) (input : Bytes) : Res (List Value) :=
  readListLoop fuel [] input

/-- The function `decoder.readDictionary`. -/
def readDictionary (fuel : Nat) (input : Bytes) : Res Dict :=
  readDictionaryLoop fuel [] input

/-- The function `Decode`.  The result carries, next to the map, the bytes the
decoder has not read. -/
def Decode (input : Bytes) : Res Dict :=
  match ReadByte input with
  | .ok firstByte rest =>
    if firstByte ≠ 100 then .err .notDictionary
    else readDictionary (2 * input.length) rest
  | _ => .ok [] []

/-! ## `encoder.go` -/

/-- The function `encoder.writeString`. -/
def writeString (str : Bytes) : Bytes :=
  Itoa (str.length : Int) ++ 58 :: str

/-- The function `encoder.writeInt`. -/
def writeInt (value : Int) : Bytes :=
  105 :: FormatInt value ++ [101]

/-- The function `encoder.writeUInt`. -/
def writeUInt (value : Nat) : Bytes :=
  105 :: FormatUint value ++ [101]

/-- The comparison `a < b` of two Go strings: byte-wise lexicographic. -/
def strLess : Bytes → Bytes → Bool
  | [], [] => false
  | [], _ :: _ => true
  | _ :: _, [] => false
  | a :: as, b :: bs => if a < b then true else if b < a then false else strLess as bs

/-- The order `sort.StringSlice` sorts by: `a` is not after `b`. -/
def strLE (a b : Bytes) : Prop := strLess b a = false

instance strLE.decidable : DecidableRel strLE := fun a b =>
  inferInstanceAs (Decidable (strLess b a = false))

/-- The call `keyList.Sort()`.  The keys of a map are distinct, and a list of
distinct keys has one ascending arrangement only, which every sorting
algorithm returns. -/
def sortKeys (keyList : List Bytes) : List Bytes :=
  keyList.insertionSort strLE

/-- The bytes written for `d[key]`, looked up among the bytes written for the
values of `d`; a key that is not in the map has the nil value, for which
nothing is written. -/
def lookupBytes : List (Bytes × Bytes) → Bytes → Bytes
  | [], _ => []
  | (k, bs) :: rest, key => if k = key then bs else lookupBytes rest key

/-- The second loop of `encoder.writeDict`: for every key of `keyList`, the key
and then its value. -/
def writeEntries (keyList : List Bytes) (values : List (Bytes × Bytes)) :
    Bytes :=
  match keyList with
  | [] => []
  | key :: ks => writeString key ++ lookupBytes values key ++ writeEntries ks values

mutual
/-- The function `encoder.writeByType`, with `writeList` and `writeDict` unfolded
in place. -/
def writeByType : Value → Bytes
  | .str v => writeString v
  | .int v => writeInt v
  | .uint v => writeUInt v
  | .list v => 108 :: writeItems v ++ [101]
  | .dict d => 100 :: writeEntries (sortKeys (Dict.keys d)) (writeValues d) ++ [101]
  | .nil => []
  | .foreign _ => []
/-- The loop of `encoder.writeList`. -/
def writeItems : List Value → Bytes
  | [] => []
  | v :: vs => writeByType v ++ writeItems vs
/-- The bytes `writeByType` writes for each value of a map. -/
def writeValues : Dict → List (Bytes × Bytes)
  | [] => []
  | (k, v) :: rest => (k, writeByType v) :: writeValues rest
end

/-- The function `encoder.writeList`. -/
def writeList (list : List Value) : Bytes :=
  108 :: writeItems list ++ [101]

/-- The function `encoder.writeDict`. -/
def writeDict (d : Dict) : Bytes :=
  100 :: writeEntries (sortKeys (Dict.keys d)) (writeValues d) ++ [101]

/-- The function `Encode`. -/
def Encode (value : Value) : Bytes := writeByType value

/-! ## The notions the properties are stated with -/

mutual
/-- Structural equality of two values in which the order of the entries of a
map does not count: two maps are equal when they have as many entries and
every key of the first has an equal value in the second; everything else,
the variant included, has to agree exactly. -/
def Value.eqv : Value → Value → Bool
  | .int a, .int b => decide (a = b)
  | .uint a, .uint b => decide (a = b)
  | .str a, .str b => decide (a = b)
  | .list xs, .list ys => Value.eqvList xs ys
  | .dict d, .dict e => decide (d.length = e.length) && Value.eqvEntries d e
  | .nil, .nil => true
  | .foreign a, .foreign b => decide (a = b)
  | _, _ => false
/-- Element-wise equality, in order, of two lists of values. -/
def Value.eqvList : List Value → List Value → Bool
  | [], [] => true
  | x :: xs, y :: ys => Value.eqv x y && Value.eqvList xs ys
  | _, _ => false
/-- Every entry of the first map has an equal value under its key in the
second. -/
def Value.eqvEntries : Dict → Dict → Bool
  | [], _ => true
  | (k, v) :: rest, e =>
    (match Dict.get? e k with
      | some w => Value.eqv v w
      | none => false) && Value.eqvEntries rest e
end

mutual
/-- The keys of every map in the value, at any depth, are distinct, as the
keys of a Go map are. -/
def Value.keysUnique : Value → Bool
  | .list xs => Value.keysUniqueList xs
  | .dict d => decide (Dict.keys d).Nodup && Value.keysUniqueEntries d
  | _ => true
/-- All values of the list have distinct keys in every map. -/
def Value.keysUniqueList : List Value → Bool
  | [] => true
  | x :: xs => Value.keysUnique x && Value.keysUniqueList xs
/-- All values of the map have distinct keys in every map. -/
def Value.keysUniqueEntries : Dict → Bool
  | [] => true
  | (_, v) :: rest => Value.keysUnique v && Value.keysUniqueEntries rest
end

mutual
/-- The value is one the decoder gives back as it is: it is built from the four
variants only, every integer within `-2^63 … 2^63 - 1` is signed and every
unsigned integer lies within `2^63 … 2^64 - 1`, every string and key has at
most `maxAlloc` bytes (as every Go string has), and every map, at any depth, has
distinct keys and at least one entry. -/
def Value.plain : Value → Bool
  | .int n => decide (-2 ^ 63 ≤ n) && decide (n < 2 ^ 63)
  | .uint n => decide (2 ^ 63 ≤ n) && decide (n < 2 ^ 64)
  | .str s => decide (s.length ≤ maxAlloc)
  | .list xs => Value.plainList xs
  | .dict d => !d.isEmpty && decide (Dict.keys d).Nodup && Value.plainEntries d
  | .nil => false
  | .foreign _ => false
/-- All values of the list are plain. -/
def Value.plainList : List Value → Bool
  | [] => true
  | x :: xs => Value.plain x && Value.plainList xs
/-- All keys of the map have at most `maxAlloc` bytes and all its values are
plain. -/
def Value.plainEntries : Dict → Bool
  | [] => true
  | (k, v) :: rest => decide (k.length ≤ maxAlloc) && Value.plain v && Value.plainEntries rest
end

mutual
/-- The value with the entries of every map put in ascending order of their
keys. -/
def Value.canon : Value → Value
  | .list xs => .list (Value.canonList xs)
  | .dict d =>
    .dict ((sortKeys (Dict.keys d)).map fun k => (k, Dict.get (Value.canonEntries d) k))
  | v => v
/-- The values of the list, each with its maps in ascending key order. -/
def Value.canonList : List Value → List Value
  | [] => []
  | x :: xs => Value.canon x :: Value.canonList xs
/-- The entries of the map, each value with its maps in ascending key order. -/
def Value.canonEntries : Dict → Dict
  | [] => []
  | (k, v) :: rest => (k, Value.canon v) :: Value.canonEntries rest
end

mutual
/-- Every unsigned integer in the value, at any depth, is at least `2^63`. -/
def Value.unsignedHigh : Value → Bool
  | .uint n => decide (2 ^ 63 ≤ n)
  | .list xs => Value.unsignedHighList xs
  | .dict d => Value.unsignedHighEntries d
  | _ => true
/-- Every unsigned integer in the values of the list is at least `2^63`. -/
def Value.unsignedHighList : List Value → Bool
  | [] => true
  | x :: xs => Value.unsignedHigh x && Value.unsignedHighList xs
/-- Every unsigned integer in the values of the map is at least `2^63`. -/
def Value.unsignedHighEntries : Dict → Bool
  | [] => true
  | (_, v) :: rest => Value.unsignedHigh v && Value.unsignedHighEntries rest
end

/-- The result with the bytes `s` added to what is left unread. -/
def Res.extend {α : Type} (s : Bytes) : Res α → Res α
  | .ok v rest => .ok v (rest ++ s)
  | .err e => .err e
  | .oof => .oof
  | .panicked => .panicked

/-- Reading `v` back from the bytes written for it stops right behind them:
when `readByType`, given the first byte of the encoding of `v`, returns a
value, it has read the encoding and nothing more. -/
def ReadsExactly (v : Value) : Prop :=
  ∀ (c : Nat) (t : Bytes), writeByType v = c :: t →
    ∀ (fuel : Nat) (rest : Bytes) (item : Value) (r : Bytes),
      readByType fuel c (t ++ rest) = .ok item r → r = rest

/-- Reading `v` back gives `v` with its maps in key order: the encoding of `v`
is not empty, and `readByType`, given its first byte and enough fuel, reads it
up to its end and returns `Value.canon v`. -/
def ReadsBack (v : Value) : Prop :=
  ∃ (c : Nat) (t : Bytes), writeByType v = c :: t ∧
    ∀ (rest : Bytes) (fuel : Nat), 2 * (t ++ rest).length + 2 ≤ fuel →
      readByType fuel c (t ++ rest) = .ok (Value.canon v) rest

/-- The value is outside the four variants: the nil value, or a value of a
dynamic type `encoder.writeByType` has no case for. -/
def Value.outside : Value → Bool
  | .nil => true
  | .foreign _ => true
  | _ => false

/-- The entries of a dictionary in the order in which they stand in the input:
the loop of `decoder.readDictionary` with `entries = append(entries, (key,
item))` in the place of `dict[key] = item`. -/
def readEntriesLoop : Nat → List (Bytes × Value) → Bytes → Res (List (Bytes × Value))
  | 0, _, _ => .oof
  | fuel + 1, entries, input =>
    match readString input with
    | .ok key rest =>
      match ReadByte rest with
      | .ok ch rest2 =>
        match readByType fuel ch rest2 with
        | .ok item rest3 =>
          match ReadByte rest3 with
          | .ok nextByte rest4 =>
            if nextByte = 101 then .ok (entries ++ [(key, item)]) rest4
            else readEntriesLoop fuel (entries ++ [(key, item)]) (nextByte :: rest4)
          | .err e => .err e
          | .oof => .oof
          | .panicked => .panicked
        | .err e => .err e
        | .oof => .oof
        | .panicked => .panicked
      | .err e => .err e
      | .oof => .oof
      | .panicked => .panicked
    | .err e => .err e
    | .oof => .oof
    | .panicked => .panicked

/-- The map built by assigning the entries one after the other, starting from
`dict`. -/
def Dict.assign (dict : Dict) (entries : List (Bytes × Value)) : Dict :=
  entries.foldl (fun d kv => Dict.set d kv.1 kv.2) dict

/-! ## The places of a decode -/

/-- A call made in the course of a decode: `value` is `readByType(identifyer)`
with `input` still unread, the place where a value is expected; `list` is the
loop of `readList` at the start of an iteration; `dict` is the loop of
`readDictionary` at the start of an iteration, the place where a key is expected
at the head of `input`. -/
inductive Call where
  | value (fuel : Nat) (identifyer : Nat) (input : Bytes)
  | list (fuel : Nat) (list : List Value) (input : Bytes)
  | dict (fuel : Nat) (dict : Dict) (input : Bytes)

/-- The result of a call, without the value. -/
def Call.run : Call → Res Unit
  | .value fuel identifyer input => (readByType fuel identifyer input).map (fun _ => ())
  | .list fuel items input => (readListLoop fuel items input).map (fun _ => ())
  | .dict fuel entries input => (readDictionaryLoop fuel entries input).map (fun _ => ())

/-- The calls a call makes itself, as they stand in `decoder.go`: `readByType`
calls `readList` behind `l` and `readDictionary` behind `d`; an iteration of
`readList` that has not read `e` calls `readByType` for the item and, when that
returns an item, goes on to the next iteration; an iteration of `readDictionary`
that has read its key calls `readByType` for the value and, when that returns a
value and the next byte is not `e`, goes on to the next iteration. -/
inductive Calls : Call → Call → Prop where
  | value_list (fuel : Nat) (input : Bytes) :
      Calls (.value (fuel + 1) 108 input) (.list fuel [] input)
  | value_dict (fuel : Nat) (input : Bytes) :
      Calls (.value (fuel + 1) 100 input) (.dict fuel [] input)
  | list_item (fuel : Nat) (list : List Value) (ch : Nat) (rest : Bytes) :
      ch ≠ 101 → Calls (.list (fuel + 1) list (ch :: rest)) (.value fuel ch rest)
  | list_next (fuel : Nat) (list : List Value) (ch : Nat) (rest : Bytes) (item : Value)
      (rest2 : Bytes) :
      ch ≠ 101 → readByType fuel ch rest = .ok item rest2 →
      Calls (.list (fuel + 1) list (ch :: rest)) (.list fuel (list ++ [item]) rest2)
  | dict_value (fuel : Nat) (dict : Dict) (input key : Bytes) (ch : Nat) (rest2 : Bytes) :
      readString input = .ok key (ch :: rest2) →
      Calls (.dict (fuel + 1) dict input) (.value fuel ch rest2)
  | dict_next (fuel : Nat) (dict : Dict) (input key : Bytes) (ch : Nat) (rest2 : Bytes)
      (item : Value) (nextByte : Nat) (rest4 : Bytes) :
      readString input = .ok key (ch :: rest2) →
      readByType fuel ch rest2 = .ok item (nextByte :: rest4) → nextByte ≠ 101 →
      Calls (.dict (fuel + 1) dict input)
        (.dict fuel (Dict.set dict key item) (nextByte :: rest4))

/-- The calls made in the course of a call, itself included. -/
inductive Reaches : Call → Call → Prop where
  | here (c : Call) : Reaches c c
  | next {c c2 c3 : Call} : Calls c c2 → Reaches c2 c3 → Reaches c c3

/-- The call of the loop of `readDictionary` that `Decode` makes behind the
opening `d`, `input` being the bytes behind it. -/
def Decode.call (input : Bytes) : Call :=
  .dict (2 * (input.length + 1)) [] input

/-! ## The value beside an error -/

/-- The `(value, error)` pair a function of `decoder.go` returns, with the value
that stands beside a non-nil error: `ok v rest` is `return v, nil`, `err v e` is a
return with the non-nil error `e` and, beside it, the value `v`, `none` being
`nil`; `panicked` and `oof` are as in `Res`. -/
inductive Ret (α : Type) where
  | ok (v : α) (rest : Bytes)
  | err (v : Option α) (e : DecodeError)
  | panicked
  | oof

/-- The pair without the value beside the error. -/
def Ret.toRes {α : Type} : Ret α → Res α
  | .ok v rest => .ok v rest
  | .err _ e => .err e
  | .panicked => .panicked
  | .oof => .oof

/-- The assignment `item, err = ...` of `readByType`, which makes an
`interface{}` of the value returned: `f` of the value, and beside an error `f` of
what was returned there, the nil slice or map being the empty one `zero`. -/
def Ret.item {α : Type} (f : α → Value) (zero : α) : Ret α → Ret Value
  | .ok v rest => .ok (f v) rest
  | .err v e => .err (some (f (v.getD zero))) e
  | .panicked => .panicked
  | .oof => .oof

/-- The function `decoder.readIntUntil`, with the `nil` of line 20 beside the
error of `ReadSlice`. -/
def Pair.readIntUntil (untilByte : Nat) (input : Bytes) : Ret Value :=
  match ReadSlice untilByte input with
  | .ok res rest =>
    let str := res.dropLast
    match ParseInt str with
    | some value => .ok (.int value) rest
    | none =>
      match ParseUint str with
      | some value => .ok (.uint value) rest
      | none => .ok .nil rest
  | .err e => .err none e
  | .oof => .oof
  | .panicked => .panicked

/-- The function `decoder.readInt`, with the value beside the error. -/
def Pair.readInt (input : Bytes) : Ret Value := Pair.readIntUntil 101 input

/-- The function `decoder.readString`, with the value beside the error: the
empty string of lines 78, 84 and 88, and at line 93 `string(buffer)` beside the
error of `io.ReadFull`, the buffer holding the bytes that were left to read and
zeros behind them. -/
def Pair.readString (input : Bytes) : Ret Bytes :=
  match Pair.readIntUntil 58 input with
  | .ok len rest =>
    match len with
    | .int stringLength =>
      if stringLength < 0 then .err (some []) .negativeLength
      else if maxAlloc < stringLength.toNat then .panicked
      else
        match ReadFull stringLength.toNat rest with
        | .ok buffer rest2 => .ok buffer rest2
        | .err e =>
          .err (some (rest ++ List.replicate (stringLength.toNat - rest.length) 0)) e
        | .oof => .oof
        | .panicked => .panicked
    | _ => .err (some []) .lengthNotInt64
  | .err _ e => .err (some []) e
  | .oof => .oof
  | .panicked => .panicked

mutual
/-- The function `decoder.readByType`, with the value beside the error: it
returns `item, err` as the function it called returned them. -/
def Pair.readByType : Nat → Nat → Bytes → Ret Value
  | 0, _, _ => .oof
  | fuel + 1, identifyer, input =>
    if identifyer = 105 then Pair.readInt input
    else if identifyer = 108 then (Pair.readListLoop fuel [] input).item Value.list []
    else if identifyer = 100 then (Pair.readDictionaryLoop fuel [] input).item Value.dict []
    else (Pair.readString (identifyer :: input)).item Value.str []
/-- The `for` loop of `decoder.readList`, with the value beside the error:
`return nil, err` at lines 59 and 68. -/
def Pair.readListLoop : Nat → List Value → Bytes → Ret (List Value)
  | 0, _, _ => .oof
  | fuel + 1, list, input =>
    match ReadByte input with
    | .ok ch rest =>
      if ch = 101 then .ok list rest
      else
        match Pair.readByType fuel ch rest with
        | .ok item rest2 => Pair.readListLoop fuel (list ++ [item]) rest2
        | .err _ e => .err none e
        | .oof => .oof
        | .panicked => .panicked
    | .err e => .err none e
    | .oof => .oof
    | .panicked => .panicked
/-- The `for` loop of `decoder.readDictionary`, with the value beside the error:
`return nil, err` at lines 101, 106, 111 and 118 (`UnreadByte` at line 123 does
not fail behind `ReadByte`). -/
def Pair.readDictionaryLoop : Nat → Dict → Bytes → Ret Dict
  | 0, _, _ => .oof
  | fuel + 1, dict, input =>
    match Pair.readString input with
    | .ok key rest =>
      match ReadByte rest with
      | .ok ch rest2 =>
        match Pair.readByType fuel ch rest2 with
        | .ok item rest3 =>
          match ReadByte rest3 with
          | .ok nextByte rest4 =>
            if nextByte = 101 then .ok (Dict.set dict key item) rest4
            else Pair.readDictionaryLoop fuel (Dict.set dict key item) (nextByte :: rest4)
          | .err e => .err none e
          | .oof => .oof
          | .panicked => .panicked
        | .err _ e => .err none e
        | .oof => .oof
        | .panicked => .panicked
      | .err e => .err none e
      | .oof => .oof
      | .panicked => .panicked
    | .err _ e => .err none e
    | .oof => .oof
    | .panicked => .panicked
end

/-- The function `decoder.readDictionary`, with the value beside the error. -/
def Pair.readDictionary (fuel : Nat) (input : Bytes) : Ret Dict :=
  Pair.readDictionaryLoop fuel [] input

/-- The function `Decode`, with the value beside the error: `nil` beside the
error of line 137, the map of `make` with a nil error at line 135, and otherwise
what `readDictionary` returns. -/
def Pair.Decode (input : Bytes) : Ret Dict :=
  match ReadByte input with
  | .ok firstByte rest =>
    if firstByte ≠ 100 then .err none .notDictionary
    else Pair.readDictionary (2 * input.length) rest
  | _ => .ok [] []

/-! # Theorems -/

/-! ## Decimal digits -/

theorem formatLoop_acc (fuel : Nat) : ∀ (n : Nat) (acc : Bytes),
    formatLoop fuel n acc = formatLoop fuel n [] ++ acc := by
  induction fuel with
  | zero => intro n acc; simp [formatLoop]
  | succ f ih =>
    intro n acc
    simp only [formatLoop]
    split
    · simp
    · rw [ih (n / 10) ((48 + n % 10) :: acc), ih (n / 10) [48 + n % 10]]
      simp

theorem formatLoop_digits (fuel : Nat) : ∀ (n : Nat), ∀ c ∈ formatLoop fuel n [], isDigit c = true := by
  induction fuel with
  | zero => intro n c hc; simp [formatLoop] at hc
  | succ f ih =>
    intro n c hc
    simp only [formatLoop] at hc
    split at hc
    · simp at hc
      subst hc
      simp [isDigit]; omega
    · rw [formatLoop_acc] at hc
      simp at hc
      rcases hc with hc | hc
      · exact ih _ c hc
      · subst hc
        simp [isDigit]; omega

theorem formatLoop_ne_nil (fuel n : Nat) : formatLoop (fuel + 1) n [] ≠ [] := by
  simp only [formatLoop]
  split
  · simp
  · rw [formatLoop_acc]; simp

theorem digitsValue_snoc (s : Bytes) (c : Nat) :
    digitsValue (s ++ [c]) = 10 * digitsValue s + (c - 48) := by
  simp [digitsValue, List.foldl_append]

theorem digitsValue_formatLoop (fuel : Nat) : ∀ (n : Nat), n < fuel →
    digitsValue (formatLoop fuel n []) = n := by
  induction fuel with
  | zero => intro n h; omega
  | succ f ih =>
    intro n h
    simp only [formatLoop]
    split
    · simp [digitsValue]
    · rw [formatLoop_acc, digitsValue_snoc, ih (n / 10) (by omega)]
      omega

theorem formatLoop_length (fuel : Nat) : ∀ (n k : Nat), n < 10 ^ (k + 1) →
    (formatLoop fuel n []).length ≤ k + 1 := by
  induction fuel with
  | zero => intro n k _; simp [formatLoop]
  | succ f ih =>
    intro n k h
    simp only [formatLoop]
    split
    · simp
    · rw [formatLoop_acc]
      cases k with
      | zero => omega
      | succ k =>
        have := ih (n / 10) k (by rw [pow_succ] at h; omega)
        simp; omega

theorem FormatUint_digits (n : Nat) : ∀ c ∈ FormatUint n, isDigit c = true :=
  formatLoop_digits _ n

theorem FormatUint_ne_nil (n : Nat) : FormatUint n ≠ [] := formatLoop_ne_nil _ _

theorem digitsValue_FormatUint (n : Nat) : digitsValue (FormatUint n) = n :=
  digitsValue_formatLoop _ n (Nat.lt_succ_self n)

theorem FormatUint_length (n : Nat) (h : n < 2 ^ 64) : (FormatUint n).length ≤ 20 :=
  formatLoop_length _ n 19 (by omega)

theorem FormatUint_all (n : Nat) : (FormatUint n).all isDigit = true := by
  rw [List.all_eq_true]; exact FormatUint_digits n

theorem ParseUint_FormatUint (n : Nat) (h : n < 2 ^ 64) : ParseUint (FormatUint n) = some n := by
  simp only [ParseUint, FormatUint_ne_nil, FormatUint_all, digitsValue_FormatUint, if_true,
    if_false, h]

/-! ## Reading from the buffer -/

theorem indexByte_none {delim : Nat} : ∀ {l : Bytes}, indexByte delim l = none ↔ delim ∉ l := by
  intro l
  induction l with
  | nil => simp [indexByte]
  | cons b r ih =>
    simp only [indexByte]
    split
    · rename_i h; simp [h]
    · rename_i h
      simp [ih, Ne.symm h]

theorem indexByte_some {delim : Nat} : ∀ {l : Bytes} {i : Nat}, indexByte delim l = some i →
    ∃ pre post, l = pre ++ delim :: post ∧ pre.length = i ∧ delim ∉ pre := by
  intro l
  induction l with
  | nil => intro i h; simp [indexByte] at h
  | cons b r ih =>
    intro i h
    simp only [indexByte] at h
    split at h
    · rename_i hb
      simp at h
      exact ⟨[], r, by simp [hb], by simp [h], by simp⟩
    · rename_i hb
      cases hr : indexByte delim r with
      | none => simp [hr] at h
      | some j =>
        simp [hr] at h
        obtain ⟨pre, post, h1, h2, h3⟩ := ih hr
        exact ⟨b :: pre, post, by simp [h1], by simp [h2, h], by simp [h3, Ne.symm hb]⟩

theorem indexByte_append {delim : Nat} : ∀ (pre post : Bytes), delim ∉ pre →
    indexByte delim (pre ++ delim :: post) = some pre.length := by
  intro pre
  induction pre with
  | nil => intro post _; simp [indexByte]
  | cons b r ih =>
    intro post h
    simp at h
    simp [indexByte, Ne.symm h.1, ih post h.2]

theorem ReadSlice_found (delim : Nat) (pre rest : Bytes) (h : delim ∉ pre)
    (hlen : pre.length < defaultBufSize) :
    ReadSlice delim (pre ++ delim :: rest) = .ok (pre ++ [delim]) rest := by
  have h1 : (pre ++ delim :: rest).take defaultBufSize
      = pre ++ delim :: rest.take (defaultBufSize - pre.length - 1) := by
    rw [List.take_append_eq_append_take, List.take_of_length_le (by omega)]
    obtain ⟨k, hk⟩ : ∃ k, defaultBufSize - pre.length = k + 1 := ⟨defaultBufSize - pre.length - 1, by omega⟩
    rw [hk]; simp
  simp only [ReadSlice, h1, indexByte_append _ _ h]
  congr 1
  · rw [List.take_append_eq_append_take, List.take_of_length_le (by omega)]
    simp
  · rw [List.drop_append_eq_append_drop, List.drop_of_length_le (by omega)]
    simp

theorem ReadSlice_ok {delim : Nat} {input line rest : Bytes}
    (h : ReadSlice delim input = .ok line rest) :
    ∃ pre, line = pre ++ [delim] ∧ input = pre ++ delim :: rest ∧ delim ∉ pre ∧
      pre.length < defaultBufSize := by
  simp only [ReadSlice] at h
  split at h
  · rename_i i hi
    obtain ⟨pre, post, h1, h2, h3⟩ := indexByte_some hi
    have hlt : pre.length < defaultBufSize := by
      have := congrArg List.length h1
      simp at this
      omega
    have h4 : input = pre ++ delim :: (post ++ input.drop defaultBufSize) := by
      conv_lhs => rw [← List.take_append_drop defaultBufSize input, h1]
      simp
    refine ⟨pre, ?_, ?_, h3, hlt⟩
    · have := ReadSlice_found delim pre (post ++ input.drop defaultBufSize) h3 hlt
      rw [← h4] at this
      simp only [ReadSlice, hi] at this
      cases h; injection this
    · have := ReadSlice_found delim pre (post ++ input.drop defaultBufSize) h3 hlt
      rw [← h4] at this
      simp only [ReadSlice, hi] at this
      cases h; injection this with e1 e2
      rw [e2]; exact h4
  · split at h <;> cases h

theorem ReadSlice_ne_oof (delim : Nat) (input : Bytes) : ReadSlice delim input ≠ .oof := by
  simp only [ReadSlice]
  split
  · simp
  · split <;> simp

theorem ReadSlice_ne_panicked (delim : Nat) (input : Bytes) :
    ReadSlice delim input ≠ .panicked := by
  simp only [ReadSlice]
  split
  · simp
  · split <;> simp

theorem maxAlloc_lt : maxAlloc < 2 ^ 63 := by decide

/-! ## Parsing what was formatted -/

theorem isDigit_not_sign {c : Nat} (h : isDigit c = true) : ¬ (c = 43 ∨ c = 45) := by
  simp [isDigit] at h; omega

theorem ParseInt_digits (s : Bytes) (hne : s ≠ []) (hall : s.all isDigit = true) :
    ParseInt s = if digitsValue s < 2 ^ 63 then some (digitsValue s : Int) else none := by
  cases s with
  | nil => exact absurd rfl hne
  | cons c t =>
    have hc : isDigit c = true := by
      rw [List.all_eq_true] at hall; exact hall c (by simp)
    have h1 := isDigit_not_sign hc
    have h2 : c ≠ 45 := fun h => h1 (Or.inr h)
    have h3 : c ≠ 43 := fun h => h1 (Or.inl h)
    simp [ParseInt, h2, h3, hall]

theorem ParseInt_minus (t : Bytes) (hne : t ≠ []) (hall : t.all isDigit = true) :
    ParseInt (45 :: t) = if digitsValue t ≤ 2 ^ 63 then some (-(digitsValue t : Int)) else none := by
  simp [ParseInt, hne, hall]

theorem ParseInt_FormatUint (n : Nat) :
    ParseInt (FormatUint n) = if n < 2 ^ 63 then some (n : Int) else none := by
  rw [ParseInt_digits _ (FormatUint_ne_nil n) (FormatUint_all n), digitsValue_FormatUint]

theorem ParseInt_FormatInt (n : Int) (h1 : -2 ^ 63 ≤ n) (h2 : n < 2 ^ 63) :
    ParseInt (FormatInt n) = some n := by
  unfold FormatInt
  split
  · rw [ParseInt_minus _ (FormatUint_ne_nil _) (FormatUint_all _), digitsValue_FormatUint]
    have : n.natAbs ≤ 2 ^ 63 := by omega
    simp only [this, if_true]
    congr 1; omega
  · rw [ParseInt_FormatUint]
    have : n.natAbs < 2 ^ 63 := by omega
    simp only [this, if_true]
    congr 1; omega

theorem FormatInt_ofNat (n : Nat) : FormatInt (n : Int) = FormatUint n := by
  unfold FormatInt
  have : ¬ ((n : Int) < 0) := by omega
  simp [this]

theorem FormatInt_no_delim (n : Int) (d : Nat) (hd : isDigit d = false) (hm : d ≠ 45) :
    d ∉ FormatInt n := by
  intro hmem
  unfold FormatInt at hmem
  split at hmem
  · simp at hmem
    rcases hmem with h | h
    · exact hm h
    · rw [FormatUint_digits _ _ h] at hd; cases hd
  · rw [FormatUint_digits _ _ hmem] at hd; cases hd

theorem FormatInt_length (n : Int) (h1 : -2 ^ 63 ≤ n) (h2 : n < 2 ^ 64) :
    (FormatInt n).length ≤ 21 := by
  unfold FormatInt
  split
  · have := FormatUint_length n.natAbs (by omega)
    simp; omega
  · have := FormatUint_length n.natAbs (by omega)
    omega

theorem readIntUntil_found (delim : Nat) (pre rest : Bytes) (h : delim ∉ pre)
    (hlen : pre.length < defaultBufSize) :
    readIntUntil delim (pre ++ delim :: rest) =
      match ParseInt pre with
      | some value => .ok (.int value) rest
      | none =>
        match ParseUint pre with
        | some value => .ok (.uint value) rest
        | none => .ok .nil rest := by
  simp only [readIntUntil, ReadSlice_found delim pre rest h hlen, List.dropLast_concat]

theorem readIntUntil_FormatInt (delim : Nat) (n : Int) (rest : Bytes)
    (hd : isDigit delim = false) (hm : delim ≠ 45)
    (h1 : -2 ^ 63 ≤ n) (h2 : n < 2 ^ 63) :
    readIntUntil delim (FormatInt n ++ delim :: rest) = .ok (.int n) rest := by
  rw [readIntUntil_found delim _ rest (FormatInt_no_delim n delim hd hm)
    (by have := FormatInt_length n h1 (by omega); simp [defaultBufSize]; omega)]
  simp [ParseInt_FormatInt n h1 h2]

theorem readIntUntil_FormatUint (delim : Nat) (n : Nat) (rest : Bytes)
    (hd : isDigit delim = false)
    (h1 : 2 ^ 63 ≤ n) (h2 : n < 2 ^ 64) :
    readIntUntil delim (FormatUint n ++ delim :: rest) = .ok (.uint n) rest := by
  have hmem : delim ∉ FormatUint n := by
    intro hmem; rw [FormatUint_digits _ _ hmem] at hd; cases hd
  rw [readIntUntil_found delim _ rest hmem
    (by have := FormatUint_length n h2; simp [defaultBufSize]; omega)]
  have : ¬ n < 2 ^ 63 := by omega
  rw [ParseInt_FormatUint, if_neg this, ParseUint_FormatUint n h2]

theorem ReadFull_exact (s rest : Bytes) : ReadFull s.length (s ++ rest) = .ok s rest := by
  simp [ReadFull]

theorem readString_writeString (s rest : Bytes) (h : s.length ≤ maxAlloc) :
    readString (writeString s ++ rest) = .ok s rest := by
  have h0 : isDigit 58 = false := by decide
  simp only [writeString, Itoa, List.append_assoc, List.cons_append, readString]
  have hm := maxAlloc_lt
  rw [readIntUntil_FormatInt 58 _ _ h0 (by decide) (by omega) (by omega)]
  simp [ReadFull_exact, Nat.not_lt.2 h]

/-! ## What a read consumes -/

theorem ReadSlice_length {delim : Nat} {input line rest : Bytes}
    (h : ReadSlice delim input = .ok line rest) : rest.length < input.length := by
  obtain ⟨pre, _, h2, _, _⟩ := ReadSlice_ok h
  rw [h2]; simp; omega

theorem readIntUntil_length {delim : Nat} {input : Bytes} {v : Value} {rest : Bytes}
    (h : readIntUntil delim input = .ok v rest) : rest.length < input.length := by
  simp only [readIntUntil] at h
  cases hs : ReadSlice delim input with
  | oof => simp [hs] at h
  | panicked => simp [hs] at h
  | err e => simp [hs] at h
  | ok line r =>
    have hl := ReadSlice_length hs
    simp only [hs] at h
    split at h
    · cases h; exact hl
    · split at h <;> (cases h; exact hl)

theorem ReadFull_length {n : Nat} {input s rest : Bytes}
    (h : ReadFull n input = .ok s rest) : rest.length ≤ input.length := by
  simp only [ReadFull] at h
  split at h
  · cases h; simp
  · split at h <;> cases h

theorem readString_length {input s rest : Bytes}
    (h : readString input = .ok s rest) : rest.length < input.length := by
  simp only [readString] at h
  cases hs : readIntUntil 58 input with
  | oof => simp [hs] at h
  | panicked => simp [hs] at h
  | err e => simp [hs] at h
  | ok len r =>
    have hl := readIntUntil_length hs
    simp only [hs] at h
    cases len with
    | int n =>
      simp only at h
      split at h
      · cases h
      · split at h
        · cases h
        · have := ReadFull_length h; omega
    | _ => cases h

theorem read_length (fuel : Nat) :
    (∀ b input v rest, readByType fuel b input = .ok v rest → rest.length ≤ input.length) ∧
    (∀ acc input v rest, readListLoop fuel acc input = .ok v rest →
      rest.length < input.length) ∧
    (∀ acc input v rest, readDictionaryLoop fuel acc input = .ok v rest →
      rest.length < input.length) := by
  induction fuel with
  | zero => simp [readByType, readListLoop, readDictionaryLoop]
  | succ f ih =>
    obtain ⟨ih1, ih2, ih3⟩ := ih
    refine ⟨?_, ?_, ?_⟩
    · intro b input v rest h
      simp only [readByType] at h
      split at h
      · have := readIntUntil_length h; omega
      · split at h
        · cases hl : readListLoop f [] input with
          | ok l r => rw [hl] at h; cases h; have := ih2 _ _ _ _ hl; omega
          | err e => rw [hl] at h; cases h
          | oof => rw [hl] at h; cases h
          | panicked => rw [hl] at h; cases h
        · split at h
          · cases hl : readDictionaryLoop f [] input with
            | ok l r => rw [hl] at h; cases h; have := ih3 _ _ _ _ hl; omega
            | err e => rw [hl] at h; cases h
            | oof => rw [hl] at h; cases h
            | panicked => rw [hl] at h; cases h
          · cases hl : readString (b :: input) with
            | ok l r => rw [hl] at h; cases h; have := readString_length hl; simp at this; omega
            | err e => rw [hl] at h; cases h
            | oof => rw [hl] at h; cases h
            | panicked => rw [hl] at h; cases h
    · intro acc input v rest h
      simp only [readListLoop] at h
      cases input with
      | nil => simp [ReadByte] at h
      | cons ch r =>
        simp only [ReadByte] at h
        split at h
        · cases h; simp
        · cases hb : readByType f ch r with
          | ok item r2 =>
            simp only [hb] at h
            have := ih1 _ _ _ _ hb
            have := ih2 _ _ _ _ h
            simp; omega
          | err e => simp [hb] at h
          | oof => simp [hb] at h
          | panicked => simp [hb] at h
    · intro acc input v rest h
      simp only [readDictionaryLoop] at h
      cases hs : readString input with
      | oof => simp [hs] at h
      | panicked => simp [hs] at h
      | err e => simp [hs] at h
      | ok key r1 =>
        have h1 := readString_length hs
        simp only [hs] at h
        cases r1 with
        | nil => simp [ReadByte] at h
        | cons ch r2 =>
          simp only [ReadByte] at h
          cases hb : readByType f ch r2 with
          | oof => simp [hb] at h
          | panicked => simp [hb] at h
          | err e => simp [hb] at h
          | ok item r3 =>
            have h3 := ih1 _ _ _ _ hb
            simp only [hb] at h
            cases r3 with
            | nil => simp at h
            | cons nb r4 =>
              simp only at h
              split at h
              · cases h; simp at h1 h3 ⊢; omega
              · have := ih3 _ _ _ _ h
                simp at h1 h3 this ⊢; omega

/-! ## Fuel -/

theorem readIntUntil_ne_oof (delim : Nat) (input : Bytes) : readIntUntil delim input ≠ .oof := by
  simp only [readIntUntil]
  cases hs : ReadSlice delim input with
  | oof => exact absurd hs (ReadSlice_ne_oof _ _)
  | panicked => exact absurd hs (ReadSlice_ne_panicked _ _)
  | err e => simp
  | ok line r =>
    simp only
    split
    · simp
    · split <;> simp

theorem readIntUntil_ne_panicked (delim : Nat) (input : Bytes) :
    readIntUntil delim input ≠ .panicked := by
  simp only [readIntUntil]
  cases hs : ReadSlice delim input with
  | oof => exact absurd hs (ReadSlice_ne_oof _ _)
  | panicked => exact absurd hs (ReadSlice_ne_panicked _ _)
  | err e => simp
  | ok line r =>
    simp only
    split
    · simp
    · split <;> simp

theorem ReadFull_ne_oof (n : Nat) (input : Bytes) : ReadFull n input ≠ .oof := by
  simp only [ReadFull]
  split
  · simp
  · split <;> simp

theorem ReadFull_ne_panicked (n : Nat) (input : Bytes) : ReadFull n input ≠ .panicked := by
  simp only [ReadFull]
  split
  · simp
  · split <;> simp

theorem readString_ne_oof (input : Bytes) : readString input ≠ .oof := by
  simp only [readString]
  cases hs : readIntUntil 58 input with
  | oof => exact absurd hs (readIntUntil_ne_oof _ _)
  | panicked => exact absurd hs (readIntUntil_ne_panicked _ _)
  | err e => simp
  | ok len r =>
    cases len with
    | int n =>
      simp only
      split
      · simp
      · split
        · simp
        · exact ReadFull_ne_oof _ _
    | _ => simp

theorem Res.map_ne_oof {α β : Type} (f : α → β) (r : Res α) (h : r ≠ .oof) : r.map f ≠ .oof := by
  cases r <;> simp [Res.map] at h ⊢

theorem read_ne_oof (fuel : Nat) :
    (∀ b input, 2 * input.length + 2 ≤ fuel → readByType fuel b input ≠ .oof) ∧
    (∀ acc input, 2 * input.length + 1 ≤ fuel → readListLoop fuel acc input ≠ .oof) ∧
    (∀ acc input, 2 * input.length + 1 ≤ fuel → readDictionaryLoop fuel acc input ≠ .oof) := by
  induction fuel with
  | zero => refine ⟨?_, ?_, ?_⟩ <;> (intros; omega)
  | succ f ih =>
    obtain ⟨ih1, ih2, ih3⟩ := ih
    refine ⟨?_, ?_, ?_⟩
    · intro b input hf
      simp only [readByType]
      split
      · exact readIntUntil_ne_oof _ _
      · split
        · exact Res.map_ne_oof _ _ (ih2 _ _ (by omega))
        · split
          · exact Res.map_ne_oof _ _ (ih3 _ _ (by omega))
          · exact Res.map_ne_oof _ _ (readString_ne_oof _)
    · intro acc input hf
      simp only [readListLoop]
      cases input with
      | nil => simp [ReadByte]
      | cons ch r =>
        simp only [ReadByte]
        simp only [List.length_cons] at hf
        split
        · simp
        · cases hb : readByType f ch r with
          | ok item r2 =>
            have := (read_length f).1 _ _ _ _ hb
            exact ih2 _ _ (by omega)
          | err e => simp
          | oof => exact absurd hb (ih1 _ _ (by omega))
          | panicked => simp
    · intro acc input hf
      simp only [readDictionaryLoop]
      cases hs : readString input with
      | oof => exact absurd hs (readString_ne_oof _)
      | panicked => simp
      | err e => simp
      | ok key r1 =>
        have h1 := readString_length hs
        cases r1 with
        | nil => simp [ReadByte]
        | cons ch r2 =>
          simp only [ReadByte]
          simp only [List.length_cons] at h1
          cases hb : readByType f ch r2 with
          | oof => exact absurd hb (ih1 _ _ (by omega))
          | panicked => simp
          | err e => simp
          | ok item r3 =>
            have h3 := (read_length f).1 _ _ _ _ hb
            cases r3 with
            | nil => simp
            | cons nb r4 =>
              simp only
              simp only [List.length_cons] at h3
              split
              · simp
              · exact ih3 _ _ (by simp only [List.length_cons]; omega)

theorem read_fuel_succ (fuel : Nat) :
    (∀ b input, readByType fuel b input ≠ .oof →
      readByType (fuel + 1) b input = readByType fuel b input) ∧
    (∀ acc input, readListLoop fuel acc input ≠ .oof →
      readListLoop (fuel + 1) acc input = readListLoop fuel acc input) ∧
    (∀ acc input, readDictionaryLoop fuel acc input ≠ .oof →
      readDictionaryLoop (fuel + 1) acc input = readDictionaryLoop fuel acc input) := by
  induction fuel with
  | zero => simp [readByType, readListLoop, readDictionaryLoop]
  | succ f ih =>
    obtain ⟨ih1, ih2, ih3⟩ := ih
    refine ⟨?_, ?_, ?_⟩
    · intro b input h
      simp only [readByType] at h ⊢
      by_cases h1 : b = 105
      · simp only [h1, if_true]
      · simp only [h1, if_false] at h ⊢
        by_cases h2 : b = 108
        · simp only [h2, if_true] at h ⊢
          rw [ih2]
          intro hc; rw [hc] at h; exact h rfl
        · simp only [h2, if_false] at h ⊢
          by_cases h3 : b = 100
          · simp only [h3, if_true] at h ⊢
            rw [ih3]
            intro hc; rw [hc] at h; exact h rfl
          · simp only [h3, if_false]
    · intro acc input h
      simp only [readListLoop] at h ⊢
      cases input with
      | nil => rfl
      | cons ch r =>
        simp only [ReadByte] at h ⊢
        by_cases h1 : ch = 101
        · simp only [h1, if_true]
        · simp only [h1, if_false] at h ⊢
          cases hb : readByType f ch r with
          | ok item r2 =>
            simp only [hb] at h
            rw [ih1 _ _ (by rw [hb]; simp), hb]
            exact ih2 _ _ h
          | err e => rw [ih1 _ _ (by rw [hb]; simp), hb]
          | oof => simp [hb] at h
          | panicked => rw [ih1 _ _ (by rw [hb]; simp), hb]
    · intro acc input h
      simp only [readDictionaryLoop] at h ⊢
      cases hs : readString input with
      | oof => rfl
      | panicked => rfl
      | err e => rfl
      | ok key r1 =>
        simp only [hs] at h ⊢
        cases r1 with
        | nil => rfl
        | cons ch r2 =>
          simp only [ReadByte] at h ⊢
          cases hb : readByType f ch r2 with
          | oof => simp [hb] at h
          | panicked => rw [ih1 _ _ (by rw [hb]; simp), hb]
          | err e => rw [ih1 _ _ (by rw [hb]; simp), hb]
          | ok item r3 =>
            simp only [hb] at h
            rw [ih1 _ _ (by rw [hb]; simp), hb]
            cases r3 with
            | nil => rfl
            | cons nb r4 =>
              simp only at h ⊢
              by_cases h1 : nb = 101
              · simp only [h1, if_true]
              · simp only [h1, if_false] at h ⊢
                exact ih3 _ _ h

theorem readByType_fuel_le {fuel fuel2 : Nat} (hle : fuel ≤ fuel2) (b : Nat) (input : Bytes)
    (h : readByType fuel b input ≠ .oof) :
    readByType fuel2 b input = readByType fuel b input := by
  induction hle with
  | refl => rfl
  | step _ ih => rw [(read_fuel_succ _).1 _ _ (by rw [ih]; exact h), ih]

theorem readListLoop_fuel_le {fuel fuel2 : Nat} (hle : fuel ≤ fuel2) (acc : List Value)
    (input : Bytes) (h : readListLoop fuel acc input ≠ .oof) :
    readListLoop fuel2 acc input = readListLoop fuel acc input := by
  induction hle with
  | refl => rfl
  | step _ ih => rw [(read_fuel_succ _).2.1 _ _ (by rw [ih]; exact h), ih]

theorem readDictionaryLoop_fuel_le {fuel fuel2 : Nat} (hle : fuel ≤ fuel2) (acc : Dict)
    (input : Bytes) (h : readDictionaryLoop fuel acc input ≠ .oof) :
    readDictionaryLoop fuel2 acc input = readDictionaryLoop fuel acc input := by
  induction hle with
  | refl => rfl
  | step _ ih => rw [(read_fuel_succ _).2.2 _ _ (by rw [ih]; exact h), ih]

/-! ## `Decode` always returns -/

theorem Decode_cons (b : Nat) (rest : Bytes) :
    Decode (b :: rest) =
      if b ≠ 100 then .err .notDictionary
      else readDictionaryLoop (2 * (rest.length + 1)) [] rest := rfl

theorem Decode_ne_oof (input : Bytes) : Decode input ≠ .oof := by
  cases input with
  | nil => simp [Decode, ReadByte]
  | cons b rest =>
    rw [Decode_cons]
    split
    · simp
    · exact (read_ne_oof _).2.2 _ _ (by omega)

/-- C4: the decoder rejects the empty dictionary, at the top level (`de`) and
as a value (`d1:kdee`), with `io.EOF`, while the encoder writes `de` for an
empty map and the list reader accepts `le` (here in `d1:klee`). -/
theorem C4_empty_dictionary_rejected :
    Decode [100, 101] = .err .eof ∧
    Decode [100, 49, 58, 107, 100, 101, 101] = .err .eof ∧
    Encode (.dict []) = [100, 101] ∧
    Decode [100, 49, 58, 107, 108, 101, 101] = .ok [([107], .list [])] [] :=
  ⟨rfl, rfl, rfl, rfl⟩

/-- C5: an invalid integer in value position is not rejected: for the
non-numeric run `x` (`d1:kixee`), the empty run (`d1:kiee`) and the run
`18446744073709551616` above `2^64 - 1`, `Decode` returns a dictionary that
holds the nil value under `k`, with a nil error. -/
theorem C5_invalid_integer_accepted :
    Decode [100, 49, 58, 107, 105, 120, 101, 101] = .ok [([107], .nil)] [] ∧
    Decode [100, 49, 58, 107, 105, 101, 101] = .ok [([107], .nil)] [] ∧
    Decode [100, 49, 58, 107, 105, 49, 56, 52, 52, 54, 55, 52, 52, 48, 55, 51, 55, 48, 57,
      53, 53, 49, 54, 49, 54, 101, 101] = .ok [([107], .nil)] [] :=
  ⟨rfl, rfl, rfl⟩

/-! ## One step of the loops -/

theorem readDictionaryLoop_err_key {input : Bytes} {e : DecodeError} (fuel : Nat) (dict : Dict)
    (h : readString input = .err e) :
    readDictionaryLoop (fuel + 1) dict input = .err e := by
  simp only [readDictionaryLoop, h]

theorem readDictionaryLoop_err_value {input key rest2 : Bytes} {ch : Nat} {e : DecodeError}
    {fuel : Nat} (dict : Dict)
    (h : readString input = .ok key (ch :: rest2)) (hv : readByType fuel ch rest2 = .err e) :
    readDictionaryLoop (fuel + 1) dict input = .err e := by
  simp only [readDictionaryLoop, h, ReadByte, hv]

theorem readDictionaryLoop_last {input key rest2 rest4 : Bytes} {ch : Nat} {item : Value}
    {fuel : Nat} (dict : Dict)
    (h : readString input = .ok key (ch :: rest2))
    (hv : readByType fuel ch rest2 = .ok item (101 :: rest4)) :
    readDictionaryLoop (fuel + 1) dict input = .ok (Dict.set dict key item) rest4 := by
  simp only [readDictionaryLoop, h, ReadByte, hv, if_true]

theorem readDictionaryLoop_more {input key rest2 rest4 : Bytes} {ch nb : Nat} {item : Value}
    {fuel : Nat} (dict : Dict)
    (h : readString input = .ok key (ch :: rest2))
    (hv : readByType fuel ch rest2 = .ok item (nb :: rest4)) (hnb : nb ≠ 101) :
    readDictionaryLoop (fuel + 1) dict input =
      readDictionaryLoop fuel (Dict.set dict key item) (nb :: rest4) := by
  simp only [readDictionaryLoop, h, ReadByte, hv, hnb, if_false]

theorem readListLoop_end (fuel : Nat) (list : List Value) (rest : Bytes) :
    readListLoop (fuel + 1) list (101 :: rest) = .ok list rest := by
  simp only [readListLoop, ReadByte, if_true]

theorem readListLoop_item {ch : Nat} {rest rest2 : Bytes} {item : Value} {fuel : Nat}
    (list : List Value) (hch : ch ≠ 101) (hv : readByType fuel ch rest = .ok item rest2) :
    readListLoop (fuel + 1) list (ch :: rest) = readListLoop fuel (list ++ [item]) rest2 := by
  simp only [readListLoop, ReadByte, hch, if_false, hv]

theorem readListLoop_err_item {ch : Nat} {rest : Bytes} {e : DecodeError} {fuel : Nat}
    (list : List Value) (hch : ch ≠ 101) (hv : readByType fuel ch rest = .err e) :
    readListLoop (fuel + 1) list (ch :: rest) = .err e := by
  simp only [readListLoop, ReadByte, hch, if_false, hv]

theorem readByType_string {b : Nat} (fuel : Nat) (input : Bytes)
    (hi : b ≠ 105) (hl : b ≠ 108) (hd : b ≠ 100) :
    readByType (fuel + 1) b input = (readString (b :: input)).map Value.str := by
  simp only [readByType, hi, hl, hd, if_false]

theorem readByType_digit {b : Nat} (fuel : Nat) (input : Bytes) (h : isDigit b = true) :
    readByType (fuel + 1) b input = (readString (b :: input)).map Value.str := by
  simp [isDigit] at h
  exact readByType_string fuel input (by omega) (by omega) (by omega)

/-! ## A byte that starts no length -/

theorem ParseInt_bad_head (b : Nat) (t : Bytes) (hdig : isDigit b = false) (hp : b ≠ 43)
    (hm : b ≠ 45) : ParseInt (b :: t) = none := by
  simp [ParseInt, hp, hm, hdig]

theorem ParseUint_bad_head (b : Nat) (t : Bytes) (hdig : isDigit b = false) :
    ParseUint (b :: t) = none := by
  simp [ParseUint, hdig]

theorem readString_bad_head (b : Nat) (rest : Bytes) (hdig : isDigit b = false) (hp : b ≠ 43)
    (hm : b ≠ 45) : ∃ e, readString (b :: rest) = .err e := by
  simp only [readString, readIntUntil]
  cases hs : ReadSlice 58 (b :: rest) with
  | oof => exact absurd hs (ReadSlice_ne_oof _ _)
  | panicked => exact absurd hs (ReadSlice_ne_panicked _ _)
  | err e => exact ⟨e, rfl⟩
  | ok line r =>
    obtain ⟨pre, h1, h2, _, _⟩ := ReadSlice_ok hs
    subst h1
    simp only [List.dropLast_concat]
    cases pre with
    | nil => exact ⟨.lengthNotInt64, rfl⟩
    | cons c t =>
      simp only [List.cons_append, List.cons.injEq] at h2
      rw [← h2.1, ParseInt_bad_head b t hdig hp hm, ParseUint_bad_head b t hdig]
      exact ⟨.lengthNotInt64, rfl⟩

/-- C9, the claim as stated fails: the byte `+` is none of `i`, `l`, `d` and no
digit, and `readByType` reads `+3:abc` as the string `abc`, so `d1:k+3:abce`
decodes without error. -/
theorem C9_counterexample_plus_sign :
    ((43 : Nat) ≠ 105 ∧ (43 : Nat) ≠ 108 ∧ (43 : Nat) ≠ 100 ∧ isDigit 43 = false) ∧
    readByType 1 43 [51, 58, 97, 98, 99] = .ok (.str [97, 98, 99]) [] ∧
    Decode [100, 49, 58, 107, 43, 51, 58, 97, 98, 99, 101] = .ok [([107], .str [97, 98, 99])] [] :=
  ⟨by decide, rfl, rfl⟩

/-! ## Reading a string behind its length -/

theorem ReadSlice_full (delim : Nat) (pre x : Bytes) (h : delim ∉ pre)
    (hlen : defaultBufSize ≤ pre.length) :
    ReadSlice delim (pre ++ x) = .err .bufferFull := by
  have h1 : (pre ++ x).take defaultBufSize = pre.take defaultBufSize := by
    rw [List.take_append_eq_append_take]
    have : defaultBufSize - pre.length = 0 := by omega
    simp [this]
  have h2 : indexByte delim (pre.take defaultBufSize) = none :=
    indexByte_none.2 (fun hm => h (List.mem_of_mem_take hm))
  have h3 : ¬ (pre ++ x).length < defaultBufSize := by simp; omega
  simp only [ReadSlice, h1, h2, h3, if_false]

theorem ParseInt_FormatInt_eq (n : Int) :
    ParseInt (FormatInt n) = if -2 ^ 63 ≤ n ∧ n < 2 ^ 63 then some n else none := by
  by_cases h : -2 ^ 63 ≤ n ∧ n < 2 ^ 63
  · rw [if_pos h]; exact ParseInt_FormatInt n h.1 h.2
  · rw [if_neg h]
    unfold FormatInt
    split
    · rw [ParseInt_minus _ (FormatUint_ne_nil _) (FormatUint_all _), digitsValue_FormatUint]
      have : ¬ n.natAbs ≤ 2 ^ 63 := by omega
      rw [if_neg this]
    · rw [ParseInt_FormatUint]
      have : ¬ n.natAbs < 2 ^ 63 := by omega
      rw [if_neg this]

theorem readString_FormatInt_err (L : Int) (rest : Bytes) (h : L < 0 ∨ 2 ^ 63 - 1 < L) :
    ∃ e, readString (FormatInt L ++ 58 :: rest) = .err e := by
  have hmem : (58 : Nat) ∉ FormatInt L := FormatInt_no_delim L 58 (by decide) (by decide)
  by_cases hlen : (FormatInt L).length < defaultBufSize
  · simp only [readString, readIntUntil, ReadSlice_found 58 _ rest hmem hlen,
      List.dropLast_concat, ParseInt_FormatInt_eq]
    by_cases hr : -2 ^ 63 ≤ L ∧ L < 2 ^ 63
    · have hneg : L < 0 := by omega
      simp only [hr, and_self, if_true, hneg]
      exact ⟨_, rfl⟩
    · simp only [hr, if_false]
      cases ParseUint (FormatInt L) <;> exact ⟨_, rfl⟩
  · simp only [readString, readIntUntil, ReadSlice_full 58 _ (58 :: rest) hmem (by omega)]
    exact ⟨_, rfl⟩

theorem readString_FormatInt_make (L : Int) (rest : Bytes) (h0 : 0 ≤ L)
    (h1 : L ≤ 2 ^ 63 - 1) :
    readString (FormatInt L ++ 58 :: rest) =
      if maxAlloc < L.toNat then .panicked else ReadFull L.toNat rest := by
  have hmem : (58 : Nat) ∉ FormatInt L := FormatInt_no_delim L 58 (by decide) (by decide)
  have hlen : (FormatInt L).length < defaultBufSize := by
    have := FormatInt_length L (by omega) (by omega)
    simp only [defaultBufSize]; omega
  have hr : -2 ^ 63 ≤ L ∧ L < 2 ^ 63 := by omega
  have hneg : ¬ L < 0 := by omega
  simp only [readString, readIntUntil, ReadSlice_found 58 _ rest hmem hlen,
    List.dropLast_concat, ParseInt_FormatInt_eq, hr, and_self, if_true, hneg, if_false]

theorem readString_FormatInt_ok (L : Int) (rest : Bytes) (h0 : 0 ≤ L)
    (h1 : L ≤ (maxAlloc : Int)) :
    readString (FormatInt L ++ 58 :: rest) = ReadFull L.toNat rest := by
  have hm := maxAlloc_lt
  rw [readString_FormatInt_make L rest h0 (by omega), if_neg (by omega)]

theorem readString_FormatInt_panicked (L : Int) (rest : Bytes) (h0 : (maxAlloc : Int) < L)
    (h1 : L ≤ 2 ^ 63 - 1) :
    readString (FormatInt L ++ 58 :: rest) = .panicked := by
  rw [readString_FormatInt_make L rest (by omega) h1, if_pos (by omega)]

theorem Value.induct {P : Value → Prop}
    (hint : ∀ n, P (.int n)) (huint : ∀ n, P (.uint n)) (hstr : ∀ s, P (.str s))
    (hlist : ∀ xs, (∀ x ∈ xs, P x) → P (.list xs))
    (hdict : ∀ d : Dict, (∀ kv ∈ d, P kv.2) → P (.dict d))
    (hnil : P .nil) (hforeign : ∀ t, P (.foreign t)) : ∀ v, P v := by
  intro v
  refine Value.rec (motive_1 := P) (motive_2 := fun xs => ∀ x ∈ xs, P x)
    (motive_3 := fun d => ∀ kv ∈ d, P kv.2) (motive_4 := fun kv => P kv.2)
    hint huint hstr (fun xs ih => hlist xs ih) (fun d ih => hdict d ih) hnil hforeign
    ?_ ?_ ?_ ?_ ?_ v
  · intro x hx; cases hx
  · intro head tail h1 h2 x hx
    rcases List.mem_cons.1 hx with h | h
    · rw [h]; exact h1
    · exact h2 x h
  · intro kv hkv; cases hkv
  · intro head tail h1 h2 kv hkv
    rcases List.mem_cons.1 hkv with h | h
    · rw [h]; exact h1
    · exact h2 kv h
  · intro k v h; exact h
/-! ## The order of the keys -/

theorem strLess_iff_lex : ∀ (a b : Bytes), strLess a b = true ↔ List.Lex (· < ·) a b := by
  intro a
  induction a with
  | nil =>
    intro b
    cases b with
    | nil => simp [strLess, List.Lex.not_nil_right]
    | cons y ys => simp [strLess, List.Lex.nil]
  | cons x xs ih =>
    intro b
    cases b with
    | nil => simp [strLess, List.Lex.not_nil_right]
    | cons y ys =>
      simp only [strLess]
      by_cases h1 : x < y
      · simp only [h1, if_true, true_iff]; exact List.Lex.rel h1
      · simp only [h1, if_false]
        by_cases h2 : y < x
        · simp only [h2, if_true, Bool.false_eq_true, false_iff]
          intro hl
          cases hl with
          | cons h => omega
          | rel h => omega
        · simp only [h2, if_false]
          have hxy : x = y := by omega
          subst hxy
          rw [ih ys]
          exact (List.Lex.cons_iff).symm

theorem strLE_iff (a b : Bytes) : strLE a b ↔ ¬ List.Lex (· < ·) b a := by
  unfold strLE
  rw [← strLess_iff_lex]; simp

theorem strLE_total : IsTotal Bytes strLE :=
  ⟨fun a b => by
    rw [strLE_iff, strLE_iff]
    by_contra h
    push_neg at h
    exact (List.Lex.isAsymm (· < ·)).asymm _ _ h.1 h.2⟩

theorem strLE_trans : IsTrans Bytes strLE :=
  ⟨fun a b c hab hbc => by
    rw [strLE_iff] at *
    intro hca
    rcases (List.Lex.isOrderConnected (· < ·)).conn c b a hca with h | h
    · exact hbc h
    · exact hab h⟩

theorem strLE_antisymm : IsAntisymm Bytes strLE :=
  ⟨fun a b hab hba => by
    rw [strLE_iff] at *
    rcases (List.Lex.isTrichotomous (· < ·)).trichotomous a b with h | h | h
    · exact absurd h hba
    · exact h
    · exact absurd h hab⟩

theorem sortKeys_perm (ks : List Bytes) : (sortKeys ks).Perm ks :=
  List.perm_insertionSort _ ks

theorem sortKeys_sorted (ks : List Bytes) : (sortKeys ks).Sorted strLE :=
  haveI := strLE_total
  haveI := strLE_trans
  List.sorted_insertionSort _ ks

theorem sortKeys_eq_of_perm {ks1 ks2 : List Bytes} (h : ks1.Perm ks2) :
    sortKeys ks1 = sortKeys ks2 :=
  haveI := strLE_antisymm
  List.eq_of_perm_of_sorted ((sortKeys_perm ks1).trans (h.trans (sortKeys_perm ks2).symm))
    (sortKeys_sorted ks1) (sortKeys_sorted ks2)

theorem mem_sortKeys {ks : List Bytes} {k : Bytes} : k ∈ sortKeys ks ↔ k ∈ ks :=
  (sortKeys_perm ks).mem_iff

theorem sortKeys_nodup {ks : List Bytes} (h : ks.Nodup) : (sortKeys ks).Nodup :=
  (sortKeys_perm ks).nodup_iff.2 h

theorem sortKeys_strict {ks : List Bytes} (h : ks.Nodup) :
    (sortKeys ks).Pairwise (fun a b => List.Lex (· < ·) a b) := by
  have h1 : (sortKeys ks).Pairwise strLE := sortKeys_sorted ks
  have h2 : (sortKeys ks).Pairwise (· ≠ ·) := sortKeys_nodup h
  refine (h1.and h2).imp ?_
  intro a b hab
  obtain ⟨hle, hne⟩ := hab
  rw [strLE_iff] at hle
  rcases (List.Lex.isTrichotomous (· < ·)).trichotomous a b with h | h | h
  · exact h
  · exact absurd h hne
  · exact absurd h hle

/-! ## What the encoder writes for a map -/

theorem Dict.get_eq_getD (d : Dict) (k : Bytes) : Dict.get d k = (Dict.get? d k).getD .nil := by
  induction d with
  | nil => rfl
  | cons kv rest ih =>
    obtain ⟨k0, v0⟩ := kv
    simp only [Dict.get, Dict.get?]
    split
    · rfl
    · exact ih

theorem lookupBytes_writeValues (d : Dict) (k : Bytes) :
    lookupBytes (writeValues d) k = writeByType (Dict.get d k) := by
  induction d with
  | nil => simp [writeValues, lookupBytes, Dict.get, writeByType]
  | cons kv rest ih =>
    obtain ⟨k0, v0⟩ := kv
    simp only [writeValues, lookupBytes, Dict.get]
    split
    · rfl
    · exact ih

theorem writeEntries_eq (ks : List Bytes) (d : Dict) :
    writeEntries ks (writeValues d) =
      ks.flatMap (fun k => writeString k ++ writeByType (Dict.get d k)) := by
  induction ks with
  | nil => rfl
  | cons k ks ih =>
    simp only [writeEntries, List.flatMap_cons, ih, lookupBytes_writeValues, List.append_assoc]

theorem Encode_dict (d : Dict) :
    Encode (.dict d) =
      100 :: ((sortKeys (Dict.keys d)).flatMap
        (fun k => writeString k ++ Encode (Dict.get d k)) ++ [101]) := by
  simp only [Encode, writeByType, writeEntries_eq, List.cons_append]

/-- C3: for every dictionary `d` (a map, its keys distinct) `Encode(d)` is the
byte `d`, then for each key of a list `ks` the length-prefixed key followed by
the encoding of its value `d[key]`, then the byte `e`, where `ks` holds every
key of `d` exactly once and is in strictly ascending byte-wise lexicographic
order. -/
theorem C3_dictionary_keys_sorted (d : Dict) (hd : (Dict.keys d).Nodup) :
    ∃ ks : List Bytes, ks.Perm (Dict.keys d) ∧ ks.Nodup ∧
      ks.Pairwise (fun a b => List.Lex (· < ·) a b) ∧
      Encode (.dict d) =
        100 :: (ks.flatMap (fun k => writeString k ++ Encode (Dict.get d k)) ++ [101]) :=
  ⟨sortKeys (Dict.keys d), sortKeys_perm _, sortKeys_nodup hd, sortKeys_strict hd,
    Encode_dict d⟩

/-- C3 at the map `{b: 5, a: "xy"}`, which is written as `d1:a2:xy1:bi5ee`. -/
theorem C3_dictionary_keys_sorted_witness :
    ∃ ks : List Bytes, ks.Perm (Dict.keys [([98], .int 5), ([97], .str [120, 121])]) ∧
      ks.Nodup ∧ ks.Pairwise (fun a b => List.Lex (· < ·) a b) ∧
      Encode (.dict [([98], .int 5), ([97], .str [120, 121])]) =
        100 :: (ks.flatMap (fun k => writeString k ++
          Encode (Dict.get [([98], .int 5), ([97], .str [120, 121])] k)) ++ [101]) :=
  C3_dictionary_keys_sorted [([98], .int 5), ([97], .str [120, 121])] (by decide)

/-! ## Looking up in a map -/

theorem Dict.get?_mem {d : Dict} {k : Bytes} {v : Value} (h : Dict.get? d k = some v) :
    (k, v) ∈ d := by
  induction d with
  | nil => simp [Dict.get?] at h
  | cons kv rest ih =>
    obtain ⟨k0, v0⟩ := kv
    simp only [Dict.get?] at h
    split at h
    · rename_i hk
      cases h; subst hk
      exact List.mem_cons_self _ _
    · exact List.mem_cons_of_mem _ (ih h)

theorem Dict.get?_eq_none {d : Dict} {k : Bytes} : Dict.get? d k = none ↔ k ∉ Dict.keys d := by
  induction d with
  | nil => simp [Dict.get?, Dict.keys]
  | cons kv rest ih =>
    obtain ⟨k0, v0⟩ := kv
    simp only [Dict.get?, Dict.keys, List.map_cons, List.mem_cons, not_or]
    split
    · rename_i hk; simp [hk]
    · rename_i hk
      rw [ih]
      simp only [Dict.keys]
      constructor
      · intro h; exact ⟨fun h2 => hk h2.symm, h⟩
      · intro h; exact h.2

theorem Dict.mem_keys {d : Dict} {k : Bytes} {v : Value} (h : (k, v) ∈ d) : k ∈ Dict.keys d :=
  List.mem_map.2 ⟨(k, v), h, rfl⟩

theorem Dict.get?_of_mem {d : Dict} {k : Bytes} {v : Value} (hd : (Dict.keys d).Nodup)
    (h : (k, v) ∈ d) : Dict.get? d k = some v := by
  induction d with
  | nil => cases h
  | cons kv rest ih =>
    obtain ⟨k0, v0⟩ := kv
    simp only [Dict.keys, List.map_cons, List.nodup_cons] at hd
    simp only [Dict.get?]
    rcases List.mem_cons.1 h with h1 | h1
    · cases h1; simp
    · have hne : k0 ≠ k := by
        intro hk; subst hk
        exact hd.1 (Dict.mem_keys h1)
      simp only [hne, if_false]
      exact ih hd.2 h1

theorem Dict.get_mem {d : Dict} {k : Bytes} (h : k ∈ Dict.keys d) : (k, Dict.get d k) ∈ d := by
  cases hg : Dict.get? d k with
  | none => exact absurd h (Dict.get?_eq_none.1 hg)
  | some v =>
    rw [Dict.get_eq_getD, hg]
    exact Dict.get?_mem hg

theorem Dict.get?_perm {d1 d2 : Dict} (h : d1.Perm d2) (hd : (Dict.keys d1).Nodup)
    (k : Bytes) : Dict.get? d1 k = Dict.get? d2 k := by
  have hk : (Dict.keys d1).Perm (Dict.keys d2) := h.map _
  cases hg : Dict.get? d1 k with
  | none =>
    have := Dict.get?_eq_none.1 hg
    exact (Dict.get?_eq_none.2 (fun hm => this (hk.mem_iff.2 hm))).symm
  | some v =>
    exact (Dict.get?_of_mem (hk.nodup_iff.1 hd) (h.mem_iff.1 (Dict.get?_mem hg))).symm

theorem flatMap_congr_mem {α : Type} (ks : List α) (f g : α → Bytes)
    (h : ∀ k ∈ ks, f k = g k) : ks.flatMap f = ks.flatMap g := by
  induction ks with
  | nil => rfl
  | cons k ks ih =>
    simp only [List.flatMap_cons]
    rw [h k (List.mem_cons_self _ _), ih (fun x hx => h x (List.mem_cons_of_mem _ hx))]

theorem Encode_dict_perm {d1 d2 : Dict} (h : d1.Perm d2) (hd : (Dict.keys d1).Nodup) :
    Encode (.dict d1) = Encode (.dict d2) := by
  have hk : (Dict.keys d1).Perm (Dict.keys d2) := h.map _
  rw [Encode_dict, Encode_dict, sortKeys_eq_of_perm hk]
  congr 2
  apply flatMap_congr_mem
  intro k _
  rw [Dict.get_eq_getD, Dict.get_eq_getD, Dict.get?_perm h hd]

/-! ## Equality up to the order of the entries -/

theorem Value.eqvEntries_spec {d e : Dict} (h : Value.eqvEntries d e = true) :
    ∀ kv ∈ d, ∃ y, Dict.get? e kv.1 = some y ∧ Value.eqv kv.2 y = true := by
  induction d with
  | nil => intro kv hkv; cases hkv
  | cons kv0 rest ih =>
    obtain ⟨k0, v0⟩ := kv0
    simp only [Value.eqvEntries, Bool.and_eq_true] at h
    intro kv hkv
    rcases List.mem_cons.1 hkv with h1 | h1
    · subst h1
      cases hg : Dict.get? e k0 with
      | none => rw [hg] at h; simp at h
      | some y => rw [hg] at h; exact ⟨y, rfl, h.1⟩
    · exact ih h.2 kv h1

theorem Value.keysUniqueEntries_spec {d : Dict} (h : Value.keysUniqueEntries d = true) :
    ∀ kv ∈ d, Value.keysUnique kv.2 = true := by
  induction d with
  | nil => intro kv hkv; cases hkv
  | cons kv0 rest ih =>
    obtain ⟨k0, v0⟩ := kv0
    simp only [Value.keysUniqueEntries, Bool.and_eq_true] at h
    intro kv hkv
    rcases List.mem_cons.1 hkv with h1 | h1
    · subst h1; exact h.1
    · exact ih h.2 kv h1

theorem Value.keys_perm_of_eqvEntries {d e : Dict} (hd : (Dict.keys d).Nodup)
    (hlen : d.length = e.length) (h : Value.eqvEntries d e = true) :
    (Dict.keys d).Perm (Dict.keys e) := by
  have hsub : Dict.keys d ⊆ Dict.keys e := by
    intro k hk
    obtain ⟨y, hy, _⟩ := Value.eqvEntries_spec h _ (Dict.get_mem hk)
    exact Dict.mem_keys (Dict.get?_mem hy)
  exact (List.subperm_of_subset hd hsub).perm_of_length_le (by simp [Dict.keys, hlen])

theorem Encode_eq_of_eqv : ∀ (v w : Value), Value.keysUnique v = true →
    Value.eqv v w = true → Encode v = Encode w := by
  intro v
  induction v using Value.induct with
  | hint n => intro w _ h; cases w <;> simp [Value.eqv] at h; rw [h]
  | huint n => intro w _ h; cases w <;> simp [Value.eqv] at h; rw [h]
  | hstr s => intro w _ h; cases w <;> simp [Value.eqv] at h; rw [h]
  | hnil => intro w _ h; cases w <;> simp [Value.eqv] at h; rfl
  | hforeign t => intro w _ h; cases w <;> simp [Value.eqv] at h; rfl
  | hlist xs ih =>
    intro w hu h
    cases w <;> simp only [Value.eqv, Bool.false_eq_true] at h
    rename_i ys
    simp only [Value.keysUnique] at hu
    simp only [Encode, writeByType]
    congr 2
    induction xs generalizing ys with
    | nil => cases ys <;> simp [Value.eqvList] at h; rfl
    | cons x xs ihx =>
      cases ys with
      | nil => simp [Value.eqvList] at h
      | cons y ys =>
        simp only [Value.eqvList, Bool.and_eq_true] at h
        simp only [Value.keysUniqueList, Bool.and_eq_true] at hu
        simp only [writeItems]
        have h1 := ih x (List.mem_cons_self _ _) y hu.1 h.1
        simp only [Encode] at h1
        rw [h1, ihx (fun z hz => ih z (List.mem_cons_of_mem _ hz)) hu.2 ys h.2]
  | hdict d ih =>
    intro w hu h
    cases w <;> simp only [Value.eqv, Bool.false_eq_true] at h
    rename_i e
    simp only [Bool.and_eq_true, decide_eq_true_eq] at h
    simp only [Value.keysUnique, Bool.and_eq_true, decide_eq_true_eq] at hu
    rw [Encode_dict, Encode_dict,
      sortKeys_eq_of_perm (Value.keys_perm_of_eqvEntries hu.1 h.1 h.2)]
    congr 2
    apply flatMap_congr_mem
    intro k hk
    have hkd : k ∈ Dict.keys d :=
      (Value.keys_perm_of_eqvEntries hu.1 h.1 h.2).mem_iff.2 (mem_sortKeys.1 hk)
    have hmem := Dict.get_mem hkd
    obtain ⟨y, hy, hyv⟩ := Value.eqvEntries_spec h.2 _ hmem
    have hge : Dict.get e k = y := by rw [Dict.get_eq_getD, hy]; rfl
    rw [hge, ih _ hmem y (Value.keysUniqueEntries_spec hu.2 _ hmem) hyv]

/-- C2: two dictionaries whose entry sequences are permutations of each other
(the keys distinct) are encoded to the same bytes; and so are any two values
that differ only in the order of the entries of their maps, at any nesting
depth (`Value.eqv`), the keys of every map being distinct. -/
theorem C2_canonical_determinism (d1 d2 : Dict) (v w : Value)
    (hperm : d1.Perm d2) (hd : (Dict.keys d1).Nodup)
    (hu : Value.keysUnique v = true) (hvw : Value.eqv v w = true) :
    Encode (.dict d1) = Encode (.dict d2) ∧ Encode v = Encode w :=
  ⟨Encode_dict_perm hperm hd, Encode_eq_of_eqv v w hu hvw⟩

/-- C2 at `{a: 1, b: 2}` and `{b: 2, a: 1}`, and at `{k: {x: 1, y: [2]}, j: 3}`
and `{j: 3, k: {y: [2], x: 1}}`. -/
theorem C2_canonical_determinism_witness :
    Encode (.dict [([97], .int 1), ([98], .int 2)]) =
      Encode (.dict [([98], .int 2), ([97], .int 1)]) ∧
    Encode (.dict [([107], .dict [([120], .int 1), ([121], .list [.int 2])]), ([106], .int 3)]) =
      Encode (.dict [([106], .int 3), ([107], .dict [([121], .list [.int 2]), ([120], .int 1)])]) :=
  C2_canonical_determinism [([97], .int 1), ([98], .int 2)] [([98], .int 2), ([97], .int 1)]
    (.dict [([107], .dict [([120], .int 1), ([121], .list [.int 2])]), ([106], .int 3)])
    (.dict [([106], .int 3), ([107], .dict [([121], .list [.int 2]), ([120], .int 1)])])
    (List.Perm.swap _ _ _) (by decide) (by decide) (by decide)

/-! ## Signed first, unsigned as the fallback -/

theorem ParseUint_some {s : Bytes} {u : Nat} (h : ParseUint s = some u) :
    s ≠ [] ∧ s.all isDigit = true ∧ u = digitsValue s ∧ u < 2 ^ 64 := by
  simp only [ParseUint] at h
  split at h
  · cases h
  · rename_i h1
    split at h
    · rename_i h2
      split at h
      · rename_i h3
        cases h
        exact ⟨h1, h2, rfl, h3⟩
      · cases h
    · cases h

theorem ParseUint_high {s : Bytes} {u : Nat} (hi : ParseInt s = none)
    (hu : ParseUint s = some u) : 2 ^ 63 ≤ u := by
  obtain ⟨h1, h2, h3, _⟩ := ParseUint_some hu
  rw [ParseInt_digits s h1 h2] at hi
  by_cases h : digitsValue s < 2 ^ 63
  · rw [if_pos h] at hi; cases hi
  · omega

theorem readIntUntil_unsignedHigh {delim : Nat} {input rest : Bytes} {v : Value}
    (h : readIntUntil delim input = .ok v rest) : Value.unsignedHigh v = true := by
  simp only [readIntUntil] at h
  cases hs : ReadSlice delim input with
  | oof => simp [hs] at h
  | panicked => simp [hs] at h
  | err e => simp [hs] at h
  | ok line r =>
    simp only [hs] at h
    cases hi : ParseInt line.dropLast with
    | some n => simp only [hi] at h; cases h; rfl
    | none =>
      simp only [hi] at h
      cases hu : ParseUint line.dropLast with
      | some u =>
        simp only [hu] at h; cases h
        simp only [Value.unsignedHigh, decide_eq_true_eq]
        exact ParseUint_high hi hu
      | none => simp only [hu] at h; cases h; rfl

theorem Value.unsignedHighList_append (xs : List Value) (x : Value)
    (h1 : Value.unsignedHighList xs = true) (h2 : Value.unsignedHigh x = true) :
    Value.unsignedHighList (xs ++ [x]) = true := by
  induction xs with
  | nil => simp [Value.unsignedHighList, h2]
  | cons y ys ih =>
    simp only [Value.unsignedHighList, Bool.and_eq_true, List.cons_append] at h1 ⊢
    exact ⟨h1.1, ih h1.2⟩

theorem Value.unsignedHighEntries_set (d : Dict) (k : Bytes) (x : Value)
    (h1 : Value.unsignedHighEntries d = true) (h2 : Value.unsignedHigh x = true) :
    Value.unsignedHighEntries (Dict.set d k x) = true := by
  induction d with
  | nil => simp [Dict.set, Value.unsignedHighEntries, h2]
  | cons kv rest ih =>
    obtain ⟨k0, v0⟩ := kv
    simp only [Value.unsignedHighEntries, Bool.and_eq_true] at h1
    simp only [Dict.set]
    split
    · simp only [Value.unsignedHighEntries, Bool.and_eq_true]; exact ⟨h2, h1.2⟩
    · simp only [Value.unsignedHighEntries, Bool.and_eq_true]; exact ⟨h1.1, ih h1.2⟩

theorem read_unsignedHigh (fuel : Nat) :
    (∀ b input v rest, readByType fuel b input = .ok v rest → Value.unsignedHigh v = true) ∧
    (∀ acc input v rest, Value.unsignedHighList acc = true →
      readListLoop fuel acc input = .ok v rest → Value.unsignedHighList v = true) ∧
    (∀ acc input v rest, Value.unsignedHighEntries acc = true →
      readDictionaryLoop fuel acc input = .ok v rest → Value.unsignedHighEntries v = true) := by
  induction fuel with
  | zero => simp [readByType, readListLoop, readDictionaryLoop]
  | succ f ih =>
    obtain ⟨ih1, ih2, ih3⟩ := ih
    refine ⟨?_, ?_, ?_⟩
    · intro b input v rest h
      simp only [readByType] at h
      split at h
      · exact readIntUntil_unsignedHigh h
      · split at h
        · cases hl : readListLoop f [] input with
          | ok l r =>
            rw [hl] at h; cases h
            exact ih2 [] _ _ _ rfl hl
          | err e => rw [hl] at h; cases h
          | oof => rw [hl] at h; cases h
          | panicked => rw [hl] at h; cases h
        · split at h
          · cases hl : readDictionaryLoop f [] input with
            | ok l r =>
              rw [hl] at h; cases h
              exact ih3 [] _ _ _ rfl hl
            | err e => rw [hl] at h; cases h
            | oof => rw [hl] at h; cases h
            | panicked => rw [hl] at h; cases h
          · cases hl : readString (b :: input) with
            | ok l r => rw [hl] at h; cases h; rfl
            | err e => rw [hl] at h; cases h
            | oof => rw [hl] at h; cases h
            | panicked => rw [hl] at h; cases h
    · intro acc input v rest hacc h
      simp only [readListLoop] at h
      cases input with
      | nil => simp [ReadByte] at h
      | cons ch r =>
        simp only [ReadByte] at h
        split at h
        · cases h; exact hacc
        · cases hb : readByType f ch r with
          | ok item r2 =>
            simp only [hb] at h
            exact ih2 _ _ _ _ (Value.unsignedHighList_append _ _ hacc (ih1 _ _ _ _ hb)) h
          | err e => simp [hb] at h
          | oof => simp [hb] at h
          | panicked => simp [hb] at h
    · intro acc input v rest hacc h
      simp only [readDictionaryLoop] at h
      cases hs : readString input with
      | oof => simp [hs] at h
      | panicked => simp [hs] at h
      | err e => simp [hs] at h
      | ok key r1 =>
        simp only [hs] at h
        cases r1 with
        | nil => simp [ReadByte] at h
        | cons ch r2 =>
          simp only [ReadByte] at h
          cases hb : readByType f ch r2 with
          | oof => simp [hb] at h
          | panicked => simp [hb] at h
          | err e => simp [hb] at h
          | ok item r3 =>
            have h3 := Value.unsignedHighEntries_set acc key item hacc (ih1 _ _ _ _ hb)
            simp only [hb] at h
            cases r3 with
            | nil => simp at h
            | cons nb r4 =>
              simp only at h
              split at h
              · cases h; exact h3
              · exact ih3 _ _ _ _ h3 h

theorem Decode_unsignedHigh {input rest : Bytes} {d : Dict} (h : Decode input = .ok d rest) :
    Value.unsignedHigh (.dict d) = true := by
  cases input with
  | nil => simp [Decode, ReadByte] at h; rw [h.1]; rfl
  | cons b r =>
    rw [Decode_cons] at h
    split at h
    · cases h
    · exact (read_unsignedHigh _).2.2 [] _ _ _ rfl h

theorem readByType_int (fuel : Nat) (input : Bytes) :
    readByType (fuel + 1) 105 input = readIntUntil 101 input := by
  simp only [readByType, if_true, readInt]

theorem Decode_single {key rest2 : Bytes} {ch : Nat} {item : Value} (hkey : key.length ≤ maxAlloc)
    (h : ∀ fuel, readByType (fuel + 1) ch rest2 = .ok item [101]) :
    Decode (100 :: (writeString key ++ ch :: rest2)) = .ok [(key, item)] [] := by
  rw [Decode_cons]
  simp only [ne_eq, not_true_eq_false, if_false]
  obtain ⟨f, hf⟩ : ∃ f, 2 * ((writeString key ++ ch :: rest2).length + 1) = f + 1 + 1 :=
    ⟨2 * (writeString key ++ ch :: rest2).length, by omega⟩
  rw [hf, readDictionaryLoop_last [] (readString_writeString key (ch :: rest2) hkey) (h f)]
  rfl

/-- C6: for every `n` within `-2^63 … 2^63 - 1` the decimal digits of `n` between
`i` and `e` are read, in value position, as the signed integer `n`, and for
every `m` within `2^63 … 2^64 - 1` as the unsigned integer `m` (by `readByType`
behind the lookahead `i`, and by `Decode` as the value of a key); every
unsigned integer in a dictionary `Decode` returns is at least `2^63`; and
`d1:ki9223372036854775807ee` and `d1:ki18446744073709551615ee` are decoded to
the signed and the unsigned integer and encoded back to the same bytes. -/
theorem C6_integer_range_and_fallback (n : Int) (m : Nat) (key rest input rest2 : Bytes)
    (d : Dict) (fuel : Nat)
    (hn1 : -2 ^ 63 ≤ n) (hn2 : n ≤ 2 ^ 63 - 1) (hm1 : 2 ^ 63 ≤ m) (hm2 : m ≤ 2 ^ 64 - 1)
    (hkey : key.length ≤ maxAlloc) (hdec : Decode input = .ok d rest2) :
    readByType (fuel + 1) 105 (FormatInt n ++ 101 :: rest) = .ok (.int n) rest ∧
    readByType (fuel + 1) 105 (FormatUint m ++ 101 :: rest) = .ok (.uint m) rest ∧
    Decode (100 :: (writeString key ++ 105 :: (FormatInt n ++ [101, 101]))) =
      .ok [(key, .int n)] [] ∧
    Decode (100 :: (writeString key ++ 105 :: (FormatUint m ++ [101, 101]))) =
      .ok [(key, .uint m)] [] ∧
    Value.unsignedHigh (.dict d) = true ∧
    (Decode [100, 49, 58, 107, 105, 57, 50, 50, 51, 51, 55, 50, 48, 51, 54, 56, 53, 52, 55, 55,
        53, 56, 48, 55, 101, 101] = .ok [([107], .int 9223372036854775807)] [] ∧
      Encode (.dict [([107], .int 9223372036854775807)]) =
        [100, 49, 58, 107, 105, 57, 50, 50, 51, 51, 55, 50, 48, 51, 54, 56, 53, 52, 55, 55,
          53, 56, 48, 55, 101, 101]) ∧
    (Decode [100, 49, 58, 107, 105, 49, 56, 52, 52, 54, 55, 52, 52, 48, 55, 51, 55, 48, 57, 53,
        53, 49, 54, 49, 53, 101, 101] = .ok [([107], .uint 18446744073709551615)] [] ∧
      Encode (.dict [([107], .uint 18446744073709551615)]) =
        [100, 49, 58, 107, 105, 49, 56, 52, 52, 54, 55, 52, 52, 48, 55, 51, 55, 48, 57, 53,
          53, 49, 54, 49, 53, 101, 101]) := by
  have hi : ∀ f r, readByType (f + 1) 105 (FormatInt n ++ 101 :: r) = .ok (.int n) r := by
    intro f r
    rw [readByType_int, readIntUntil_FormatInt 101 n r (by decide) (by decide) hn1 (by omega)]
  have hu : ∀ f r, readByType (f + 1) 105 (FormatUint m ++ 101 :: r) = .ok (.uint m) r := by
    intro f r
    rw [readByType_int, readIntUntil_FormatUint 101 m r (by decide) hm1 (by omega)]
  exact ⟨hi fuel rest, hu fuel rest, Decode_single hkey (fun f => hi f [101]),
    Decode_single hkey (fun f => hu f [101]), Decode_unsignedHigh hdec, ⟨rfl, rfl⟩, ⟨rfl, rfl⟩⟩

/-- C6 at `n = -5`, `m = 2^63`, the key `k`, and the input `d1:kli9223372036854775808eee`
for the decoded dictionary. -/
theorem C6_integer_range_and_fallback_witness :
    readByType (0 + 1) 105 (FormatInt (-5) ++ 101 :: [120]) = .ok (.int (-5)) [120] ∧
    readByType (0 + 1) 105 (FormatUint 9223372036854775808 ++ 101 :: [120]) =
      .ok (.uint 9223372036854775808) [120] ∧
    Decode (100 :: (writeString [107] ++ 105 :: (FormatInt (-5) ++ [101, 101]))) =
      .ok [([107], .int (-5))] [] ∧
    Decode (100 :: (writeString [107] ++ 105 :: (FormatUint 9223372036854775808 ++ [101, 101]))) =
      .ok [([107], .uint 9223372036854775808)] [] ∧
    Value.unsignedHigh (.dict [([107], .list [.uint 9223372036854775808])]) = true ∧
    (Decode [100, 49, 58, 107, 105, 57, 50, 50, 51, 51, 55, 50, 48, 51, 54, 56, 53, 52, 55, 55,
        53, 56, 48, 55, 101, 101] = .ok [([107], .int 9223372036854775807)] [] ∧
      Encode (.dict [([107], .int 9223372036854775807)]) =
        [100, 49, 58, 107, 105, 57, 50, 50, 51, 51, 55, 50, 48, 51, 54, 56, 53, 52, 55, 55,
          53, 56, 48, 55, 101, 101]) ∧
    (Decode [100, 49, 58, 107, 105, 49, 56, 52, 52, 54, 55, 52, 52, 48, 55, 51, 55, 48, 57, 53,
        53, 49, 54, 49, 53, 101, 101] = .ok [([107], .uint 18446744073709551615)] [] ∧
      Encode (.dict [([107], .uint 18446744073709551615)]) =
        [100, 49, 58, 107, 105, 49, 56, 52, 52, 54, 55, 52, 52, 48, 55, 51, 55, 48, 57, 53,
          53, 49, 54, 49, 53, 101, 101]) :=
  C6_integer_range_and_fallback (-5) 9223372036854775808 [107] [120]
    [100, 49, 58, 107, 108, 105, 57, 50, 50, 51, 51, 55, 50, 48, 51, 54, 56, 53, 52, 55, 55,
      53, 56, 48, 56, 101, 101, 101] []
    [([107], .list [.uint 9223372036854775808])] 0
    (by decide) (by decide) (by decide) (by decide) (by decide) rfl

/-! ## Bytes behind the input -/

theorem ReadSlice_extend (delim : Nat) (p s : Bytes)
    (h : (ReadSlice delim p).isEndOfInput = false) :
    ReadSlice delim (p ++ s) = (ReadSlice delim p).extend s := by
  cases hr : ReadSlice delim p with
  | oof => exact absurd hr (ReadSlice_ne_oof _ _)
  | panicked => exact absurd hr (ReadSlice_ne_panicked _ _)
  | ok line r =>
    obtain ⟨pre, h1, h2, h3, h4⟩ := ReadSlice_ok hr
    have : p ++ s = pre ++ delim :: (r ++ s) := by rw [h2]; simp
    rw [this, ReadSlice_found delim pre (r ++ s) h3 h4, h1]
    rfl
  | err e =>
    rw [hr] at h
    simp only [ReadSlice] at hr
    split at hr
    · cases hr
    · rename_i hi
      split at hr
      · cases hr; simp [Res.isEndOfInput, DecodeError.isEndOfInput] at h
      · rename_i hlen
        cases hr
        have h1 : (p ++ s).take defaultBufSize = p.take defaultBufSize := by
          rw [List.take_append_eq_append_take]
          have : defaultBufSize - p.length = 0 := by omega
          simp [this]
        have h3 : ¬ (p ++ s).length < defaultBufSize := by simp; omega
        simp only [ReadSlice, h1, hi, h3, if_false]
        rfl

theorem ReadFull_extend (n : Nat) (p s : Bytes) (h : (ReadFull n p).isEndOfInput = false) :
    ReadFull n (p ++ s) = (ReadFull n p).extend s := by
  simp only [ReadFull] at h ⊢
  by_cases hn : n ≤ p.length
  · have h2 : n ≤ (p ++ s).length := by simp; omega
    simp only [hn, h2, if_true, Res.extend]
    rw [List.take_append_of_le_length hn, List.drop_append_of_le_length hn]
  · simp only [hn, if_false] at h
    split at h <;> simp [Res.isEndOfInput, DecodeError.isEndOfInput] at h

theorem readIntUntil_extend (delim : Nat) (p s : Bytes)
    (h : (readIntUntil delim p).isEndOfInput = false) :
    readIntUntil delim (p ++ s) = (readIntUntil delim p).extend s := by
  simp only [readIntUntil] at h ⊢
  cases hr : ReadSlice delim p with
  | oof => exact absurd hr (ReadSlice_ne_oof _ _)
  | panicked => exact absurd hr (ReadSlice_ne_panicked _ _)
  | err e =>
    rw [hr] at h
    rw [ReadSlice_extend delim p s (by rw [hr]; exact h), hr]
    rfl
  | ok line r =>
    rw [ReadSlice_extend delim p s (by rw [hr]; rfl), hr]
    simp only [Res.extend]
    cases ParseInt line.dropLast with
    | some n => rfl
    | none => cases ParseUint line.dropLast <;> rfl

theorem readString_extend (p s : Bytes) (h : (readString p).isEndOfInput = false) :
    readString (p ++ s) = (readString p).extend s := by
  simp only [readString] at h ⊢
  cases hr : readIntUntil 58 p with
  | oof => exact absurd hr (readIntUntil_ne_oof _ _)
  | panicked => exact absurd hr (readIntUntil_ne_panicked _ _)
  | err e =>
    rw [hr] at h
    rw [readIntUntil_extend 58 p s (by rw [hr]; exact h), hr]
    rfl
  | ok len r =>
    rw [hr] at h
    rw [readIntUntil_extend 58 p s (by rw [hr]; rfl), hr]
    simp only [Res.extend]
    cases len with
    | int n =>
      simp only at h ⊢
      split
      · rfl
      · rename_i hn
        simp only [hn, if_false] at h
        split
        · rfl
        · rename_i hm
          simp only [hm, if_false] at h
          exact ReadFull_extend _ r s h
    | _ => rfl

theorem Res.isEndOfInput_map {α β : Type} (f : α → β) (r : Res α) :
    (r.map f).isEndOfInput = r.isEndOfInput := by
  cases r <;> rfl

theorem Res.extend_map {α β : Type} (f : α → β) (r : Res α) (s : Bytes) :
    (r.map f).extend s = (r.extend s).map f := by
  cases r <;> rfl

theorem read_extend (s : Bytes) (fuel : Nat) :
    (∀ b p, (readByType fuel b p).isEndOfInput = false →
      readByType fuel b (p ++ s) = (readByType fuel b p).extend s) ∧
    (∀ acc p, (readListLoop fuel acc p).isEndOfInput = false →
      readListLoop fuel acc (p ++ s) = (readListLoop fuel acc p).extend s) ∧
    (∀ acc p, (readDictionaryLoop fuel acc p).isEndOfInput = false →
      readDictionaryLoop fuel acc (p ++ s) = (readDictionaryLoop fuel acc p).extend s) := by
  induction fuel with
  | zero => simp [readByType, readListLoop, readDictionaryLoop, Res.extend]
  | succ f ih =>
    obtain ⟨ih1, ih2, ih3⟩ := ih
    refine ⟨?_, ?_, ?_⟩
    · intro b p h
      simp only [readByType] at h ⊢
      by_cases h1 : b = 105
      · simp only [h1, if_true] at h ⊢
        exact readIntUntil_extend 101 p s h
      · simp only [h1, if_false] at h ⊢
        by_cases h2 : b = 108
        · simp only [h2, if_true] at h ⊢
          rw [Res.isEndOfInput_map] at h
          rw [ih2 _ _ h, Res.extend_map]
        · simp only [h2, if_false] at h ⊢
          by_cases h3 : b = 100
          · simp only [h3, if_true] at h ⊢
            rw [Res.isEndOfInput_map] at h
            rw [ih3 _ _ h, Res.extend_map]
          · simp only [h3, if_false] at h ⊢
            rw [Res.isEndOfInput_map] at h
            rw [← List.cons_append, readString_extend _ s h, Res.extend_map]
    · intro acc p h
      simp only [readListLoop] at h ⊢
      cases p with
      | nil => simp [ReadByte, Res.isEndOfInput, DecodeError.isEndOfInput] at h
      | cons ch r =>
        simp only [ReadByte, List.cons_append] at h ⊢
        by_cases h1 : ch = 101
        · simp only [h1, if_true, Res.extend]
        · simp only [h1, if_false] at h ⊢
          cases hb : readByType f ch r with
          | ok item r2 =>
            simp only [hb] at h
            rw [ih1 _ _ (by rw [hb]; rfl), hb]
            simp only [Res.extend]
            exact ih2 _ _ h
          | err e =>
            simp only [hb] at h
            rw [ih1 _ _ (by rw [hb]; exact h), hb]
            rfl
          | oof =>
            rw [ih1 _ _ (by rw [hb]; rfl), hb]
            rfl
          | panicked =>
            rw [ih1 _ _ (by rw [hb]; rfl), hb]
            rfl
    · intro acc p h
      simp only [readDictionaryLoop] at h ⊢
      cases hs : readString p with
      | oof => exact absurd hs (readString_ne_oof _)
      | panicked =>
        rw [readString_extend p s (by rw [hs]; rfl), hs]
        rfl
      | err e =>
        simp only [hs] at h
        rw [readString_extend p s (by rw [hs]; exact h), hs]
        rfl
      | ok key r1 =>
        simp only [hs] at h
        rw [readString_extend p s (by rw [hs]; rfl), hs]
        simp only [Res.extend]
        cases r1 with
        | nil => simp [ReadByte, Res.isEndOfInput, DecodeError.isEndOfInput] at h
        | cons ch r2 =>
          simp only [ReadByte, List.cons_append] at h ⊢
          cases hb : readByType f ch r2 with
          | oof =>
            rw [ih1 _ _ (by rw [hb]; rfl), hb]
            rfl
          | panicked =>
            rw [ih1 _ _ (by rw [hb]; rfl), hb]
            rfl
          | err e =>
            simp only [hb] at h
            rw [ih1 _ _ (by rw [hb]; exact h), hb]
            rfl
          | ok item r3 =>
            simp only [hb] at h
            rw [ih1 _ _ (by rw [hb]; rfl), hb]
            simp only [Res.extend]
            cases r3 with
            | nil => simp [Res.isEndOfInput, DecodeError.isEndOfInput] at h
            | cons nb r4 =>
              simp only [List.cons_append] at h ⊢
              by_cases h1 : nb = 101
              · simp only [h1, if_true]
              · simp only [h1, if_false] at h ⊢
                have := ih3 _ _ h
                simp only [List.cons_append] at this
                exact this

theorem Decode_extend (p s : Bytes) (hp : p ≠ []) (h : (Decode p).isEndOfInput = false) :
    Decode (p ++ s) = (Decode p).extend s := by
  cases p with
  | nil => exact absurd rfl hp
  | cons b r =>
    have hne := Decode_ne_oof (b :: r)
    rw [List.cons_append, Decode_cons]
    rw [Decode_cons] at h hne ⊢
    by_cases hb : b ≠ 100
    · rw [if_pos hb, if_pos hb]; rfl
    · rw [if_neg hb] at h hne
      rw [if_neg hb, if_neg hb]
      have h1 := (read_extend s _).2.2 _ _ h
      rw [← h1]
      apply readDictionaryLoop_fuel_le (by simp only [List.length_append]; omega)
      rw [h1]
      intro hc
      cases hd : readDictionaryLoop (2 * (r.length + 1)) [] r with
      | oof => exact hne hd
      | panicked => simp [hd, Res.extend] at hc
      | ok v rest => simp [hd, Res.extend] at hc
      | err e => simp [hd, Res.extend] at hc

/-! ## A read stops behind what was written -/

theorem split_at_delim {d : Nat} : ∀ {pre pre2 a b : Bytes}, pre ++ d :: a = pre2 ++ d :: b →
    d ∉ pre → d ∉ pre2 → pre = pre2 ∧ a = b := by
  intro pre
  induction pre with
  | nil =>
    intro pre2 a b h h1 h2
    cases pre2 with
    | nil => simp at h; exact ⟨rfl, h⟩
    | cons x xs =>
      simp at h
      exact absurd (List.mem_cons.2 (Or.inl h.1)) h2
  | cons y ys ih =>
    intro pre2 a b h h1 h2
    cases pre2 with
    | nil =>
      simp at h
      exact absurd (List.mem_cons.2 (Or.inl h.1.symm)) h1
    | cons x xs =>
      simp only [List.cons_append, List.cons.injEq] at h
      obtain ⟨e1, e2⟩ := ih h.2 (fun hm => h1 (List.mem_cons_of_mem _ hm))
        (fun hm => h2 (List.mem_cons_of_mem _ hm))
      exact ⟨by rw [h.1, e1], e2⟩

theorem ReadSlice_exact {delim : Nat} {pre rest line r : Bytes} (hpre : delim ∉ pre)
    (h : ReadSlice delim (pre ++ delim :: rest) = .ok line r) : r = rest := by
  obtain ⟨pre2, _, h2, h3, _⟩ := ReadSlice_ok h
  exact (split_at_delim h2 hpre h3).2.symm

theorem readIntUntil_exact {delim : Nat} {pre rest r : Bytes} {v : Value} (hpre : delim ∉ pre)
    (h : readIntUntil delim (pre ++ delim :: rest) = .ok v r) : r = rest := by
  simp only [readIntUntil] at h
  cases hs : ReadSlice delim (pre ++ delim :: rest) with
  | oof => simp [hs] at h
  | panicked => simp [hs] at h
  | err e => simp [hs] at h
  | ok line r2 =>
    have := ReadSlice_exact hpre hs
    simp only [hs] at h
    split at h
    · cases h; exact this
    · split at h <;> (cases h; exact this)

theorem readString_writeString_exact {s R k r1 : Bytes}
    (h : readString (writeString s ++ R) = .ok k r1) : k = s ∧ r1 = R := by
  by_cases hlen : s.length ≤ maxAlloc
  · rw [readString_writeString s R hlen] at h
    cases h; exact ⟨rfl, rfl⟩
  · simp only [writeString, Itoa, List.append_assoc, List.cons_append] at h
    by_cases h63 : (s.length : Int) ≤ 2 ^ 63 - 1
    · rw [readString_FormatInt_panicked (s.length : Int) (s ++ R) (by omega) h63] at h
      cases h
    · obtain ⟨e, he⟩ := readString_FormatInt_err (s.length : Int) (s ++ R)
        (Or.inr (by omega))
      rw [he] at h; cases h

theorem FormatUint_head (n : Nat) : ∃ c t, FormatUint n = c :: t ∧ isDigit c = true := by
  cases h : FormatUint n with
  | nil => exact absurd h (FormatUint_ne_nil n)
  | cons c t => exact ⟨c, t, rfl, FormatUint_digits n c (by rw [h]; exact List.mem_cons_self _ _)⟩

theorem writeString_head (s : Bytes) : ∃ c t, writeString s = c :: t ∧ isDigit c = true := by
  obtain ⟨c, t, h1, h2⟩ := FormatUint_head s.length
  exact ⟨c, t ++ 58 :: s, by simp [writeString, Itoa, FormatInt_ofNat, h1], h2⟩

theorem writeByType_head {v : Value} {c : Nat} {t : Bytes} (h : writeByType v = c :: t) :
    c = 105 ∨ c = 108 ∨ c = 100 ∨ isDigit c = true := by
  cases v with
  | int n => simp [writeByType, writeInt] at h; exact Or.inl h.1.symm
  | uint n => simp [writeByType, writeUInt] at h; exact Or.inl h.1.symm
  | str s =>
    obtain ⟨c2, t2, h1, h2⟩ := writeString_head s
    simp only [writeByType, h1, List.cons.injEq] at h
    rw [← h.1]; exact Or.inr (Or.inr (Or.inr h2))
  | list xs => simp [writeByType] at h; exact Or.inr (Or.inl h.1.symm)
  | dict d => simp [writeByType] at h; exact Or.inr (Or.inr (Or.inl h.1.symm))
  | nil => simp [writeByType] at h
  | foreign t => simp [writeByType] at h

theorem writeByType_head_ne {v : Value} {c : Nat} {t : Bytes} (h : writeByType v = c :: t) :
    c ≠ 101 := by
  rcases writeByType_head h with h | h | h | h
  · omega
  · omega
  · omega
  · simp [isDigit] at h; omega

theorem writeItems_cases (xs : List Value) :
    writeItems xs = [] ∨
    ∃ (x : Value) (c : Nat) (t : Bytes) (ys : List Value), x ∈ xs ∧ (∀ y ∈ ys, y ∈ xs) ∧
      writeByType x = c :: t ∧ writeItems xs = c :: (t ++ writeItems ys) := by
  induction xs with
  | nil => exact Or.inl rfl
  | cons x xs ih =>
    cases hx : writeByType x with
    | nil =>
      rcases ih with h | ⟨x2, c, t, ys, h1, h2, h3, h4⟩
      · exact Or.inl (by simp [writeItems, hx, h])
      · exact Or.inr ⟨x2, c, t, ys, List.mem_cons_of_mem _ h1,
          fun y hy => List.mem_cons_of_mem _ (h2 y hy), h3, by simp [writeItems, hx, h4]⟩
    | cons c t =>
      exact Or.inr ⟨x, c, t, xs, List.mem_cons_self _ _,
        fun y hy => List.mem_cons_of_mem _ hy, hx, by simp [writeItems, hx]⟩

theorem readString_not_string {x : Value} {c : Nat} {t R : Bytes} (hx : writeByType x = c :: t)
    (hs : ∀ s, x ≠ .str s) : ∃ e, readString (c :: (t ++ R)) = .err e := by
  have hc : c = 105 ∨ c = 108 ∨ c = 100 := by
    cases x with
    | int n => simp [writeByType, writeInt] at hx; exact Or.inl hx.1.symm
    | uint n => simp [writeByType, writeUInt] at hx; exact Or.inl hx.1.symm
    | str s => exact absurd rfl (hs s)
    | list xs => simp [writeByType] at hx; exact Or.inr (Or.inl hx.1.symm)
    | dict d => simp [writeByType] at hx; exact Or.inr (Or.inr hx.1.symm)
    | nil => simp [writeByType] at hx
    | foreign t => simp [writeByType] at hx
  apply readString_bad_head
  · simp [isDigit]; omega
  · omega
  · omega

theorem readListLoop_exact (fuel : Nat) : ∀ (xs : List Value), (∀ x ∈ xs, ReadsExactly x) →
    ∀ (acc : List Value) (rest : Bytes) (l : List Value) (r : Bytes),
      readListLoop fuel acc (writeItems xs ++ 101 :: rest) = .ok l r → r = rest := by
  induction fuel with
  | zero => intro xs _ acc rest l r h; simp [readListLoop] at h
  | succ f ih =>
    intro xs hxs acc rest l r h
    rcases writeItems_cases xs with h0 | ⟨x, c, t, ys, h1, h2, h3, h4⟩
    · rw [h0, List.nil_append, readListLoop_end] at h
      cases h; rfl
    · rw [h4, List.cons_append, List.append_assoc] at h
      have hc := writeByType_head_ne h3
      cases hb : readByType f c (t ++ (writeItems ys ++ 101 :: rest)) with
      | ok item r2 =>
        rw [readListLoop_item acc hc hb] at h
        have := hxs x h1 c t h3 f _ item r2 hb
        rw [this] at h
        exact ih ys (fun y hy => hxs y (h2 y hy)) _ _ _ _ h
      | err e => rw [readListLoop_err_item acc hc hb] at h; cases h
      | oof => simp [readListLoop, ReadByte, hc, hb] at h
      | panicked => simp [readListLoop, ReadByte, hc, hb] at h

theorem readDictionaryLoop_exact (fuel : Nat) : ∀ (xs : List Value),
    (∀ x ∈ xs, ReadsExactly x) →
    ∀ (acc : Dict) (rest : Bytes) (l : Dict) (r : Bytes),
      readDictionaryLoop fuel acc (writeItems xs ++ 101 :: rest) = .ok l r → r = rest := by
  induction fuel with
  | zero => intro xs _ acc rest l r h; simp [readDictionaryLoop] at h
  | succ f ih =>
    intro xs hxs acc rest l r h
    rcases writeItems_cases xs with h0 | ⟨x, c, t, ys, h1, h2, h3, h4⟩
    · rw [h0, List.nil_append] at h
      obtain ⟨e, he⟩ := readString_bad_head 101 rest (by decide) (by decide) (by decide)
      rw [readDictionaryLoop_err_key f acc he] at h; cases h
    · rw [h4, List.cons_append, List.append_assoc] at h
      by_cases hstr : ∃ s, x = .str s
      · obtain ⟨s, hs⟩ := hstr
        subst hs
        have hw : c :: (t ++ (writeItems ys ++ 101 :: rest)) =
            writeString s ++ (writeItems ys ++ 101 :: rest) := by
          simp only [writeByType] at h3
          rw [h3]; rfl
        cases hk : readString (c :: (t ++ (writeItems ys ++ 101 :: rest))) with
        | oof => exact absurd hk (readString_ne_oof _)
        | panicked => simp [readDictionaryLoop, hk] at h
        | err e => rw [readDictionaryLoop_err_key f acc hk] at h; cases h
        | ok key r1 =>
          have hk2 := hk
          rw [hw] at hk2
          obtain ⟨_, hr1⟩ := readString_writeString_exact hk2
          subst hr1
          rcases writeItems_cases ys with h0 | ⟨x2, c2, t2, zs, g1, g2, g3, g4⟩
          · have hk3 : readString (c :: (t ++ (writeItems ys ++ 101 :: rest))) =
                .ok key (101 :: rest) := by rw [hk, h0]; rfl
            cases f with
            | zero => simp [readDictionaryLoop, hk3, ReadByte, readByType] at h
            | succ f2 =>
              obtain ⟨e, he⟩ := readString_bad_head 101 rest (by decide) (by decide) (by decide)
              have hv : readByType (f2 + 1) 101 rest = .err e := by
                rw [readByType_string f2 rest (by decide) (by decide) (by decide), he]; rfl
              rw [readDictionaryLoop_err_value acc hk3 hv] at h; cases h
          · have hk3 : readString (c :: (t ++ (writeItems ys ++ 101 :: rest))) =
                .ok key (c2 :: (t2 ++ (writeItems zs ++ 101 :: rest))) := by
              rw [hk, g4, List.cons_append, List.append_assoc]
            cases hb : readByType f c2 (t2 ++ (writeItems zs ++ 101 :: rest)) with
            | oof => simp [readDictionaryLoop, hk3, ReadByte, hb] at h
            | panicked => simp [readDictionaryLoop, hk3, ReadByte, hb] at h
            | err e => rw [readDictionaryLoop_err_value acc hk3 hb] at h; cases h
            | ok item r3 =>
              have hr3 := hxs x2 (h2 x2 g1) c2 t2 g3 f _ item r3 hb
              subst hr3
              rcases writeItems_cases zs with h0 | ⟨x3, c3, t3, ws, k1, k2, k3, k4⟩
              · have hb3 : readByType f c2 (t2 ++ (writeItems zs ++ 101 :: rest)) =
                    .ok item (101 :: rest) := by rw [hb, h0]; rfl
                rw [readDictionaryLoop_last acc hk3 hb3] at h
                cases h; rfl
              · have hzs : writeItems zs ++ 101 :: rest
                    = c3 :: (t3 ++ (writeItems ws ++ 101 :: rest)) := by
                  rw [k4, List.cons_append, List.append_assoc]
                have hb3 : readByType f c2 (t2 ++ (writeItems zs ++ 101 :: rest)) =
                    .ok item (c3 :: (t3 ++ (writeItems ws ++ 101 :: rest))) := by rw [hb, hzs]
                rw [readDictionaryLoop_more acc hk3 hb3 (writeByType_head_ne k3), ← hzs] at h
                exact ih zs (fun y hy => hxs y (h2 y (g2 y hy))) _ _ _ _ h
      · obtain ⟨e, he⟩ := readString_not_string (R := writeItems ys ++ 101 :: rest) h3
          (fun s hs => hstr ⟨s, hs⟩)
        rw [readDictionaryLoop_err_key f acc he] at h; cases h

/-! ## The bytes written, first byte first -/

theorem writeByType_list_eq (xs : List Value) : writeByType (.list xs) = writeList xs := rfl

theorem writeByType_dict_eq (d : Dict) : writeByType (.dict d) = writeDict d := rfl

theorem writeByType_int (n : Int) : writeByType (.int n) = 105 :: (FormatInt n ++ [101]) := rfl

theorem writeByType_uint (n : Nat) : writeByType (.uint n) = 105 :: (FormatUint n ++ [101]) := rfl

theorem writeByType_list (xs : List Value) :
    writeByType (.list xs) = 108 :: (writeItems xs ++ [101]) := rfl

theorem writeItems_cons (x : Value) (xs : List Value) :
    writeItems (x :: xs) = writeByType x ++ writeItems xs := rfl

theorem writeEntries_cons (k : Bytes) (ks : List Bytes) (vals : List (Bytes × Bytes)) :
    writeEntries (k :: ks) vals = writeString k ++ lookupBytes vals k ++ writeEntries ks vals :=
  rfl

theorem Res.map_eq_ok {α β : Type} {f : α → β} {r : Res α} {item : β} {rest : Bytes}
    (h : r.map f = .ok item rest) : ∃ v, r = .ok v rest ∧ item = f v := by
  cases r with
  | ok v r2 => simp only [Res.map] at h; cases h; exact ⟨v, rfl, rfl⟩
  | err e => cases h
  | oof => cases h
  | panicked => cases h

theorem writeItems_append (xs ys : List Value) :
    writeItems (xs ++ ys) = writeItems xs ++ writeItems ys := by
  induction xs with
  | nil => rfl
  | cons x xs ih => rw [List.cons_append, writeItems_cons, writeItems_cons, ih, List.append_assoc]

theorem writeEntries_eq_writeItems (ks : List Bytes) (d : Dict) :
    writeEntries ks (writeValues d) =
      writeItems (ks.flatMap (fun k => [Value.str k, Dict.get d k])) := by
  induction ks with
  | nil => rfl
  | cons k ks ih =>
    rw [writeEntries_cons, List.flatMap_cons, writeItems_append, ih, lookupBytes_writeValues,
      writeItems_cons, writeItems_cons]
    simp only [writeByType, writeItems, List.append_nil, List.append_assoc]

theorem writeByType_dict (d : Dict) :
    writeByType (.dict d) =
      100 :: (writeItems ((sortKeys (Dict.keys d)).flatMap
        (fun k => [Value.str k, Dict.get d k])) ++ [101]) := by
  rw [← writeEntries_eq_writeItems]; rfl

theorem Dict.get_nil_or_mem (d : Dict) (k : Bytes) :
    Dict.get d k = .nil ∨ (k, Dict.get d k) ∈ d := by
  by_cases h : k ∈ Dict.keys d
  · exact Or.inr (Dict.get_mem h)
  · rw [Dict.get_eq_getD, Dict.get?_eq_none.2 h]
    exact Or.inl rfl

theorem ReadsExactly_str (s : Bytes) : ReadsExactly (.str s) := by
  intro c t h fuel rest item r hr
  obtain ⟨c2, t2, h1, h2⟩ := writeString_head s
  simp only [writeByType, h1, List.cons.injEq] at h
  obtain ⟨hc, ht⟩ := h
  subst hc ht
  cases fuel with
  | zero => simp [readByType] at hr
  | succ f =>
    rw [readByType_digit f _ h2] at hr
    obtain ⟨v, hv, _⟩ := Res.map_eq_ok hr
    rw [← List.cons_append, ← h1] at hv
    exact (readString_writeString_exact hv).2

theorem ReadsExactly_all : ∀ v : Value, ReadsExactly v := by
  intro v
  induction v using Value.induct with
  | hint n =>
    intro c t h fuel rest item r hr
    simp only [writeByType_int, List.cons.injEq] at h
    obtain ⟨hc, ht⟩ := h
    subst hc ht
    cases fuel with
    | zero => simp [readByType] at hr
    | succ f =>
      rw [readByType_int, List.append_assoc] at hr
      exact readIntUntil_exact (FormatInt_no_delim n 101 (by decide) (by decide)) hr
  | huint n =>
    intro c t h fuel rest item r hr
    simp only [writeByType_uint, List.cons.injEq] at h
    obtain ⟨hc, ht⟩ := h
    subst hc ht
    cases fuel with
    | zero => simp [readByType] at hr
    | succ f =>
      rw [readByType_int, List.append_assoc] at hr
      refine readIntUntil_exact ?_ hr
      intro hm
      have := FormatUint_digits n 101 hm
      simp [isDigit] at this
  | hstr s => exact ReadsExactly_str s
  | hnil => intro c t h; simp [writeByType] at h
  | hforeign tag => intro c t h; simp [writeByType] at h
  | hlist xs ih =>
    intro c t h fuel rest item r hr
    simp only [writeByType_list, List.cons.injEq] at h
    obtain ⟨hc, ht⟩ := h
    subst hc ht
    cases fuel with
    | zero => simp [readByType] at hr
    | succ f =>
      simp only [readByType, if_true, List.append_assoc] at hr
      simp only [show ¬ ((108 : Nat) = 105) by decide, if_false] at hr
      obtain ⟨l, hl, _⟩ := Res.map_eq_ok hr
      exact readListLoop_exact f xs ih [] rest l r hl
  | hdict d ih =>
    intro c t h fuel rest item r hr
    simp only [writeByType_dict, List.cons.injEq] at h
    obtain ⟨hc, ht⟩ := h
    subst hc ht
    cases fuel with
    | zero => simp [readByType] at hr
    | succ f =>
      simp only [readByType, if_true, List.append_assoc] at hr
      simp only [show ¬ ((100 : Nat) = 105) by decide, show ¬ ((100 : Nat) = 108) by decide,
        if_false] at hr
      obtain ⟨l, hl, _⟩ := Res.map_eq_ok hr
      refine readDictionaryLoop_exact f _ ?_ [] rest l r hl
      intro x hx
      simp only [List.mem_flatMap, List.mem_cons, List.mem_singleton, List.not_mem_nil,
        or_false] at hx
      obtain ⟨k, _, hk⟩ := hx
      rcases hk with hk | hk
      · rw [hk]; exact ReadsExactly_str k
      · rcases Dict.get_nil_or_mem d k with hn | hmem
        · rw [hk, hn]; intro c t h; simp [writeByType] at h
        · rw [hk]; exact ih _ hmem

theorem Decode_Encode_exact {d t : Dict} {r : Bytes}
    (h : Decode (Encode (.dict d)) = .ok t r) : r = [] := by
  rw [Encode, writeByType_dict, Decode_cons] at h
  simp only [ne_eq, not_true_eq_false, if_false] at h
  exact readDictionaryLoop_exact _ _ (fun x _ => ReadsExactly_all x) [] [] t r h

/-- C7: for every dictionary `d` for which `Decode(Encode(d))` succeeds, `Decode`
fails with an end-of-input error (`io.EOF` or `io.ErrUnexpectedEOF`) on every
non-empty proper part `p` of `Encode(d)` that starts it, `s` being the bytes
cut off; and `Decode` of `d3:foo` fails with `io.EOF`. -/
theorem C7_truncation_is_an_error (d : Dict) (p s : Bytes)
    (hok : (Decode (Encode (.dict d))).isOk = true)
    (hsplit : Encode (.dict d) = p ++ s) (hp : p ≠ []) (hs : s ≠ []) :
    (Decode p).isEndOfInput = true ∧
    Decode [100, 51, 58, 102, 111, 111] = .err .eof := by
  refine ⟨?_, rfl⟩
  by_contra hne
  have hne2 : (Decode p).isEndOfInput = false := by
    cases hb : (Decode p).isEndOfInput with
    | true => exact absurd hb hne
    | false => rfl
  have hext := Decode_extend p s hp hne2
  rw [← hsplit] at hext
  cases hd : Decode (Encode (.dict d)) with
  | oof => rw [hd] at hok; cases hok
  | panicked => rw [hd] at hok; cases hok
  | err e => rw [hd] at hok; cases hok
  | ok t r =>
    have hr := Decode_Encode_exact hd
    subst hr
    rw [hd] at hext
    cases hq : Decode p with
    | oof => rw [hq] at hext; cases hext
    | panicked => rw [hq] at hext; cases hext
    | err e => rw [hq] at hext; cases hext
    | ok t2 r2 =>
      rw [hq] at hext
      simp only [Res.extend, Res.ok.injEq] at hext
      have : r2 ++ s = [] := hext.2.symm
      simp at this
      exact hs this.2

/-- C7 at `{a: "xy"}`, written `d1:a2:xye`, cut behind `d1:a2:x`. -/
theorem C7_truncation_is_an_error_witness :
    (Decode [100, 49, 58, 97, 50, 58, 120]).isEndOfInput = true ∧
    Decode [100, 51, 58, 102, 111, 111] = .err .eof :=
  C7_truncation_is_an_error [([97], .str [120, 121])] [100, 49, 58, 97, 50, 58, 120] [121, 101]
    rfl rfl (by decide) (by decide)

/-! ## Reading back what was written -/

theorem Dict.set_new (d : Dict) (k : Bytes) (v : Value) (h : k ∉ Dict.keys d) :
    Dict.set d k v = d ++ [(k, v)] := by
  induction d with
  | nil => rfl
  | cons kv rest ih =>
    obtain ⟨k0, v0⟩ := kv
    simp only [Dict.keys, List.map_cons, List.mem_cons, not_or] at h
    have hne : k0 ≠ k := fun e => h.1 e.symm
    simp only [Dict.set, hne, if_false, List.cons_append]
    rw [ih h.2]

theorem Dict.keys_append (d e : Dict) : Dict.keys (d ++ e) = Dict.keys d ++ Dict.keys e := by
  simp [Dict.keys]

theorem writeString_length (s : Bytes) : 2 ≤ (writeString s).length := by
  obtain ⟨c, t, h, _⟩ := writeString_head s
  have : writeString s = Itoa (s.length : Int) ++ 58 :: s := rfl
  have h2 : Itoa (s.length : Int) ≠ [] := by
    rw [Itoa, FormatInt_ofNat]; exact FormatUint_ne_nil _
  rw [this]
  cases hI : Itoa (s.length : Int) with
  | nil => exact absurd hI h2
  | cons a b => simp only [List.cons_append, List.length_cons, List.length_append]; omega

theorem readListLoop_back : ∀ (xs : List Value), (∀ x ∈ xs, ReadsBack x) →
    ∀ (acc : List Value) (rest : Bytes) (fuel : Nat),
      2 * (writeItems xs ++ 101 :: rest).length + 1 ≤ fuel →
      readListLoop fuel acc (writeItems xs ++ 101 :: rest) =
        .ok (acc ++ Value.canonList xs) rest := by
  intro xs
  induction xs with
  | nil =>
    intro _ acc rest fuel hf
    obtain ⟨f, rfl⟩ : ∃ f, fuel = f + 1 := ⟨fuel - 1, by omega⟩
    show readListLoop (f + 1) acc (101 :: rest) = _
    rw [readListLoop_end]
    simp [Value.canonList]
  | cons x xs ih =>
    intro hxs acc rest fuel hf
    obtain ⟨c, t, hw, hr⟩ := hxs x (List.mem_cons_self _ _)
    obtain ⟨f, rfl⟩ : ∃ f, fuel = f + 1 := ⟨fuel - 1, by omega⟩
    have hin : writeItems (x :: xs) ++ 101 :: rest = c :: (t ++ (writeItems xs ++ 101 :: rest)) := by
      rw [writeItems_cons, hw]
      simp only [List.cons_append, List.append_assoc]
    rw [hin] at hf ⊢
    simp only [List.length_cons, List.length_append] at hf
    have hb := hr (writeItems xs ++ 101 :: rest) f
      (by simp only [List.length_cons, List.length_append]; omega)
    rw [readListLoop_item acc (writeByType_head_ne hw) hb,
      ih (fun y hy => hxs y (List.mem_cons_of_mem _ hy)) _ rest f
        (by simp only [List.length_cons, List.length_append]; omega)]
    simp [Value.canonList]

theorem readDictionaryLoop_back (d : Dict) : ∀ (ks : List Bytes), ks ≠ [] →
    (∀ k ∈ ks, k.length ≤ maxAlloc ∧ ReadsBack (Dict.get d k)) → ks.Nodup →
    ∀ (acc : Dict) (rest : Bytes) (fuel : Nat), (∀ k ∈ ks, k ∉ Dict.keys acc) →
      2 * (ks.flatMap (fun k => writeString k ++ writeByType (Dict.get d k)) ++
        101 :: rest).length + 1 ≤ fuel →
      readDictionaryLoop fuel acc
        (ks.flatMap (fun k => writeString k ++ writeByType (Dict.get d k)) ++ 101 :: rest) =
        .ok (acc ++ ks.map (fun k => (k, Value.canon (Dict.get d k)))) rest := by
  intro ks
  induction ks with
  | nil => intro h; exact absurd rfl h
  | cons k ks ih =>
    intro _ hks hnd acc rest fuel hacc hf
    obtain ⟨hklen, c, t, hw, hr⟩ := hks k (List.mem_cons_self _ _)
    obtain ⟨f, rfl⟩ : ∃ f, fuel = f + 1 := ⟨fuel - 1, by omega⟩
    have hin : (k :: ks).flatMap (fun k => writeString k ++ writeByType (Dict.get d k)) ++
        101 :: rest = writeString k ++ (c :: (t ++
          (ks.flatMap (fun k => writeString k ++ writeByType (Dict.get d k)) ++ 101 :: rest))) := by
      rw [List.flatMap_cons, hw]
      simp only [List.append_assoc, List.cons_append]
    rw [hin] at hf ⊢
    have h2 := writeString_length k
    simp only [List.length_cons, List.length_append] at hf
    have hkey := readString_writeString k (c :: (t ++
      (ks.flatMap (fun k => writeString k ++ writeByType (Dict.get d k)) ++ 101 :: rest))) hklen
    have hb := hr (ks.flatMap (fun k => writeString k ++ writeByType (Dict.get d k)) ++
      101 :: rest) f (by simp only [List.length_cons, List.length_append]; omega)
    have hset := Dict.set_new acc k (Value.canon (Dict.get d k)) (hacc k (List.mem_cons_self _ _))
    cases ks with
    | nil =>
      simp only [List.flatMap_nil, List.nil_append] at hb hkey ⊢
      rw [readDictionaryLoop_last acc hkey hb, hset]
      rfl
    | cons k2 ks2 =>
      obtain ⟨c2, t2, hw2, hd2⟩ := writeString_head k2
      have hR : (k2 :: ks2).flatMap (fun k => writeString k ++ writeByType (Dict.get d k)) ++
          101 :: rest = c2 :: (t2 ++ (writeByType (Dict.get d k2) ++
            (ks2.flatMap (fun k => writeString k ++ writeByType (Dict.get d k)) ++
              101 :: rest))) := by
        rw [List.flatMap_cons, hw2]
        simp only [List.append_assoc, List.cons_append]
      have hc2 : c2 ≠ 101 := by simp [isDigit] at hd2; omega
      have hb2 : readByType f c (t ++ ((k2 :: ks2).flatMap
          (fun k => writeString k ++ writeByType (Dict.get d k)) ++ 101 :: rest)) =
          .ok (Value.canon (Dict.get d k)) (c2 :: (t2 ++ (writeByType (Dict.get d k2) ++
            (ks2.flatMap (fun k => writeString k ++ writeByType (Dict.get d k)) ++
              101 :: rest)))) := by rw [hb, hR]
      rw [readDictionaryLoop_more acc hkey hb2 hc2, ← hR, hset]
      have hnd2 := List.nodup_cons.1 hnd
      rw [ih (by simp) (fun x hx => hks x (List.mem_cons_of_mem _ hx)) hnd2.2
        (acc ++ [(k, Value.canon (Dict.get d k))]) rest f ?_ ?_]
      · simp
      · intro x hx
        rw [Dict.keys_append]
        simp only [Dict.keys, List.map_cons, List.map_nil, List.mem_append, List.mem_singleton,
          not_or]
        refine ⟨hacc x (List.mem_cons_of_mem _ hx), ?_⟩
        intro e
        exact hnd2.1 (e ▸ hx)
      · simp only [List.length_cons, List.length_append] at hf ⊢
        omega

theorem Value.plainList_spec {xs : List Value} (h : Value.plainList xs = true) :
    ∀ x ∈ xs, Value.plain x = true := by
  induction xs with
  | nil => intro x hx; cases hx
  | cons y ys ih =>
    simp only [Value.plainList, Bool.and_eq_true] at h
    intro x hx
    rcases List.mem_cons.1 hx with h1 | h1
    · rw [h1]; exact h.1
    · exact ih h.2 x h1

theorem Value.plainEntries_spec {d : Dict} (h : Value.plainEntries d = true) :
    ∀ kv ∈ d, kv.1.length ≤ maxAlloc ∧ Value.plain kv.2 = true := by
  induction d with
  | nil => intro kv hkv; cases hkv
  | cons kv0 rest ih =>
    obtain ⟨k0, v0⟩ := kv0
    simp only [Value.plainEntries, Bool.and_eq_true, decide_eq_true_eq] at h
    intro kv hkv
    rcases List.mem_cons.1 hkv with h1 | h1
    · rw [h1]; exact ⟨h.1.1, h.1.2⟩
    · exact ih h.2 kv h1

theorem Dict.get_canonEntries (d : Dict) (k : Bytes) :
    Dict.get (Value.canonEntries d) k = Value.canon (Dict.get d k) := by
  induction d with
  | nil => rfl
  | cons kv rest ih =>
    obtain ⟨k0, v0⟩ := kv
    simp only [Value.canonEntries, Dict.get]
    split
    · rfl
    · exact ih

theorem Value.canon_dict (d : Dict) :
    Value.canon (.dict d) =
      .dict ((sortKeys (Dict.keys d)).map (fun k => (k, Value.canon (Dict.get d k)))) := by
  simp only [Value.canon, Dict.get_canonEntries]

theorem sortKeys_ne_nil {ks : List Bytes} (h : ks ≠ []) : sortKeys ks ≠ [] := by
  intro e
  have := (sortKeys_perm ks).length_eq
  rw [e] at this
  exact h (List.length_eq_zero.1 this.symm)

theorem readDictionaryLoop_plain (d : Dict) (hne : d ≠ []) (hnd : (Dict.keys d).Nodup)
    (hd : ∀ kv ∈ d, kv.1.length ≤ maxAlloc ∧ ReadsBack kv.2) (rest : Bytes) (fuel : Nat)
    (hf : 2 * ((sortKeys (Dict.keys d)).flatMap
      (fun k => writeString k ++ writeByType (Dict.get d k)) ++ 101 :: rest).length + 1 ≤ fuel) :
    readDictionaryLoop fuel []
      ((sortKeys (Dict.keys d)).flatMap (fun k => writeString k ++ writeByType (Dict.get d k)) ++
        101 :: rest) =
      .ok ((sortKeys (Dict.keys d)).map (fun k => (k, Value.canon (Dict.get d k)))) rest := by
  have hk : Dict.keys d ≠ [] := by
    cases d with
    | nil => exact absurd rfl hne
    | cons a b => simp [Dict.keys]
  have := readDictionaryLoop_back d (sortKeys (Dict.keys d)) (sortKeys_ne_nil hk)
    (fun k hk => hd (k, Dict.get d k) (Dict.get_mem (mem_sortKeys.1 hk)))
    (sortKeys_nodup hnd) [] rest fuel (fun k _ => by simp [Dict.keys]) hf
  rw [this]; rfl

theorem plain_ReadsBack : ∀ v : Value, Value.plain v = true → ReadsBack v := by
  intro v
  induction v using Value.induct with
  | hint n =>
    intro h
    simp only [Value.plain, Bool.and_eq_true, decide_eq_true_eq] at h
    refine ⟨105, FormatInt n ++ [101], writeByType_int n, ?_⟩
    intro rest fuel hf
    obtain ⟨f, rfl⟩ : ∃ f, fuel = f + 1 := ⟨fuel - 1, by omega⟩
    rw [readByType_int, List.append_assoc]
    exact readIntUntil_FormatInt 101 n rest (by decide) (by decide) h.1 h.2
  | huint n =>
    intro h
    simp only [Value.plain, Bool.and_eq_true, decide_eq_true_eq] at h
    refine ⟨105, FormatUint n ++ [101], writeByType_uint n, ?_⟩
    intro rest fuel hf
    obtain ⟨f, rfl⟩ : ∃ f, fuel = f + 1 := ⟨fuel - 1, by omega⟩
    rw [readByType_int, List.append_assoc]
    exact readIntUntil_FormatUint 101 n rest (by decide) h.1 h.2
  | hstr s =>
    intro h
    simp only [Value.plain, decide_eq_true_eq] at h
    obtain ⟨c, t, hw, hc⟩ := writeString_head s
    refine ⟨c, t, hw, ?_⟩
    intro rest fuel hf
    obtain ⟨f, rfl⟩ : ∃ f, fuel = f + 1 := ⟨fuel - 1, by omega⟩
    rw [readByType_digit f _ hc, ← List.cons_append, ← hw, readString_writeString s rest h]
    rfl
  | hnil => intro h; cases h
  | hforeign tag => intro h; cases h
  | hlist xs ih =>
    intro h
    simp only [Value.plain] at h
    refine ⟨108, writeItems xs ++ [101], writeByType_list xs, ?_⟩
    intro rest fuel hf
    obtain ⟨f, rfl⟩ : ∃ f, fuel = f + 1 := ⟨fuel - 1, by omega⟩
    simp only [readByType, show ¬ ((108 : Nat) = 105) by decide, if_false, if_true,
      List.append_assoc, List.singleton_append]
    rw [readListLoop_back xs (fun x hx => ih x hx (Value.plainList_spec h x hx)) [] rest f
      (by simp only [List.append_assoc, List.singleton_append] at hf; omega)]
    rfl
  | hdict d ih =>
    intro h
    simp only [Value.plain, Bool.and_eq_true, decide_eq_true_eq, Bool.not_eq_true',
      List.isEmpty_eq_false] at h
    obtain ⟨⟨hne, hnd⟩, hpl⟩ := h
    refine ⟨100, (sortKeys (Dict.keys d)).flatMap
      (fun k => writeString k ++ writeByType (Dict.get d k)) ++ [101], ?_, ?_⟩
    · exact Encode_dict d
    · intro rest fuel hf
      obtain ⟨f, rfl⟩ : ∃ f, fuel = f + 1 := ⟨fuel - 1, by omega⟩
      simp only [readByType, show ¬ ((100 : Nat) = 105) by decide,
        show ¬ ((100 : Nat) = 108) by decide, if_false, if_true,
        List.append_assoc, List.singleton_append]
      rw [readDictionaryLoop_plain d hne hnd
        (fun kv hkv => ⟨(Value.plainEntries_spec hpl kv hkv).1,
          ih kv hkv (Value.plainEntries_spec hpl kv hkv).2⟩) rest f
        (by simp only [List.append_assoc, List.singleton_append] at hf; omega),
        Value.canon_dict]
      rfl

theorem Decode_Encode_plain (d : Dict) (h : Value.plain (.dict d) = true) :
    Decode (Encode (.dict d)) =
      .ok ((sortKeys (Dict.keys d)).map (fun k => (k, Value.canon (Dict.get d k)))) [] := by
  have h2 := h
  simp only [Value.plain, Bool.and_eq_true, decide_eq_true_eq, Bool.not_eq_true',
    List.isEmpty_eq_false] at h2
  obtain ⟨⟨hne, hnd⟩, hpl⟩ := h2
  rw [Encode_dict, Decode_cons]
  simp only [ne_eq, not_true_eq_false, if_false, List.singleton_append, Encode]
  exact readDictionaryLoop_plain d hne hnd
    (fun kv hkv => ⟨(Value.plainEntries_spec hpl kv hkv).1,
      plain_ReadsBack kv.2 (Value.plainEntries_spec hpl kv hkv).2⟩) [] _ (by omega)

/-! ## The decoded value equals the encoded one up to the order of the entries -/

theorem Value.eqvEntries_of_forall {d e : Dict}
    (h : ∀ kv ∈ d, ∃ y, Dict.get? e kv.1 = some y ∧ Value.eqv kv.2 y = true) :
    Value.eqvEntries d e = true := by
  induction d with
  | nil => rfl
  | cons kv0 rest ih =>
    obtain ⟨k0, v0⟩ := kv0
    obtain ⟨y, hy, hyv⟩ := h (k0, v0) (List.mem_cons_self _ _)
    simp only [Value.eqvEntries, Bool.and_eq_true]
    simp only at hy hyv
    rw [hy]
    exact ⟨hyv, ih (fun kv hkv => h kv (List.mem_cons_of_mem _ hkv))⟩

theorem Dict.get?_map_keys (f : Bytes → Value) : ∀ (ks : List Bytes) (k : Bytes), k ∈ ks →
    Dict.get? (ks.map (fun k => (k, f k))) k = some (f k) := by
  intro ks
  induction ks with
  | nil => intro k hk; cases hk
  | cons k0 ks ih =>
    intro k hk
    simp only [List.map_cons, Dict.get?]
    split
    · rename_i e; rw [e]
    · rename_i hne
      rcases List.mem_cons.1 hk with h1 | h1
      · exact absurd h1.symm hne
      · exact ih k h1

theorem Dict.get_of_mem {d : Dict} {k : Bytes} {v : Value} (hd : (Dict.keys d).Nodup)
    (h : (k, v) ∈ d) : Dict.get d k = v := by
  rw [Dict.get_eq_getD, Dict.get?_of_mem hd h]; rfl

theorem Value.eqvList_canon (xs : List Value)
    (h : ∀ x ∈ xs, Value.eqv x (Value.canon x) = true) :
    Value.eqvList xs (Value.canonList xs) = true := by
  induction xs with
  | nil => rfl
  | cons x xs ih =>
    simp only [Value.canonList, Value.eqvList, Bool.and_eq_true]
    exact ⟨h x (List.mem_cons_self _ _), ih (fun y hy => h y (List.mem_cons_of_mem _ hy))⟩

theorem Value.keysUniqueList_spec {xs : List Value} (h : Value.keysUniqueList xs = true) :
    ∀ x ∈ xs, Value.keysUnique x = true := by
  induction xs with
  | nil => intro x hx; cases hx
  | cons y ys ih =>
    simp only [Value.keysUniqueList, Bool.and_eq_true] at h
    intro x hx
    rcases List.mem_cons.1 hx with h1 | h1
    · rw [h1]; exact h.1
    · exact ih h.2 x h1

theorem Value.eqv_canon : ∀ v : Value, Value.keysUnique v = true →
    Value.eqv v (Value.canon v) = true := by
  intro v
  induction v using Value.induct with
  | hint n => intro _; simp [Value.canon, Value.eqv]
  | huint n => intro _; simp [Value.canon, Value.eqv]
  | hstr s => intro _; simp [Value.canon, Value.eqv]
  | hnil => intro _; rfl
  | hforeign tag => intro _; simp [Value.canon, Value.eqv]
  | hlist xs ih =>
    intro h
    simp only [Value.keysUnique] at h
    simp only [Value.canon, Value.eqv]
    exact Value.eqvList_canon xs (fun x hx => ih x hx (Value.keysUniqueList_spec h x hx))
  | hdict d ih =>
    intro h
    simp only [Value.keysUnique, Bool.and_eq_true, decide_eq_true_eq] at h
    rw [Value.canon_dict]
    simp only [Value.eqv, Bool.and_eq_true, decide_eq_true_eq, List.length_map]
    refine ⟨?_, ?_⟩
    · have := (sortKeys_perm (Dict.keys d)).length_eq
      simp only [Dict.keys, List.length_map] at this
      exact this.symm
    · apply Value.eqvEntries_of_forall
      intro kv hkv
      obtain ⟨k, x⟩ := kv
      refine ⟨Value.canon x, ?_, ih _ hkv (Value.keysUniqueEntries_spec h.2 _ hkv)⟩
      have hk : k ∈ sortKeys (Dict.keys d) := mem_sortKeys.2 (Dict.mem_keys hkv)
      rw [Dict.get?_map_keys (fun k => Value.canon (Dict.get d k)) _ k hk,
        Dict.get_of_mem h.1 hkv]

theorem Value.plain_keysUnique : ∀ v : Value, Value.plain v = true →
    Value.keysUnique v = true := by
  intro v
  induction v using Value.induct with
  | hint n => intro _; rfl
  | huint n => intro _; rfl
  | hstr s => intro _; rfl
  | hnil => intro _; rfl
  | hforeign tag => intro _; rfl
  | hlist xs ih =>
    intro h
    simp only [Value.plain] at h
    simp only [Value.keysUnique]
    have hx := Value.plainList_spec h
    clear h
    induction xs with
    | nil => rfl
    | cons x xs ihx =>
      simp only [Value.keysUniqueList, Bool.and_eq_true]
      exact ⟨ih x (List.mem_cons_self _ _) (hx x (List.mem_cons_self _ _)),
        ihx (fun y hy => ih y (List.mem_cons_of_mem _ hy))
          (fun y hy => hx y (List.mem_cons_of_mem _ hy))⟩
  | hdict d ih =>
    intro h
    simp only [Value.plain, Bool.and_eq_true, decide_eq_true_eq] at h
    simp only [Value.keysUnique, Bool.and_eq_true, decide_eq_true_eq]
    refine ⟨h.1.2, ?_⟩
    have hx := Value.plainEntries_spec h.2
    clear h
    induction d with
    | nil => rfl
    | cons kv rest ihd =>
      obtain ⟨k, x⟩ := kv
      simp only [Value.keysUniqueEntries, Bool.and_eq_true]
      exact ⟨ih _ (List.mem_cons_self _ _) (hx _ (List.mem_cons_self _ _)).2,
        ihd (fun y hy => ih y (List.mem_cons_of_mem _ hy))
          (fun y hy => hx y (List.mem_cons_of_mem _ hy))⟩

theorem Decode_Encode_eqv (d : Dict) (h : Value.plain (.dict d) = true) :
    ∃ t, Decode (Encode (.dict d)) = .ok t [] ∧ Value.eqv (.dict d) (.dict t) = true := by
  refine ⟨_, Decode_Encode_plain d h, ?_⟩
  rw [← Value.canon_dict]
  exact Value.eqv_canon _ (Value.plain_keysUnique _ h)

/-- C1, the claim as stated fails: the one-entry dictionary that holds the empty
dictionary is encoded to `d1:kdee`, which `Decode` rejects; and the one that
holds the unsigned integer 5 is decoded to the one that holds the signed
integer 5, another variant. -/
theorem C1_counterexample_empty_dictionary_and_unsigned :
    Decode (Encode (.dict [([107], .dict [])])) = .err .eof ∧
    Decode (Encode (.dict [([107], .uint 5)])) = .ok [([107], .int 5)] [] ∧
    Value.eqv (.dict [([107], .uint 5)]) (.dict [([107], .int 5)]) = false :=
  ⟨rfl, rfl, rfl⟩

/-- C1, amended: for every value `v` that is plain (built from the four variants
only, every integer within `-2^63 … 2^63 - 1` signed and every unsigned integer
within `2^63 … 2^64 - 1`, no dictionary at any depth empty, keys distinct,
strings and keys of at most `maxAlloc` bytes) and every key `key` of at most
`maxAlloc` bytes, `Decode(Encode({key: v}))` returns no error, reads the whole
encoding and gives a dictionary equal to `{key: v}` up to the order of dictionary
entries. -/
theorem C1_round_trip (v : Value) (key : Bytes) (hv : Value.plain v = true)
    (hkey : key.length ≤ maxAlloc) :
    ∃ t, Decode (Encode (.dict [(key, v)])) = .ok t [] ∧
      Value.eqv (.dict [(key, v)]) (.dict t) = true := by
  apply Decode_Encode_eqv
  simp only [Value.plain, Value.plainEntries, Dict.keys, List.map_cons, List.map_nil,
    List.nodup_cons, List.not_mem_nil, not_false_eq_true, List.nodup_nil, and_self,
    decide_True, Bool.and_true, Bool.true_and, hv, decide_eq_true_eq, hkey,
    List.isEmpty_cons, Bool.not_false]

/-- C1, amended, at the value `[-7, "xy", {b: 2^63, a: []}]` under the key `k`. -/
theorem C1_round_trip_witness :
    ∃ t, Decode (Encode (.dict [([107], .list [.int (-7), .str [120, 121],
        .dict [([98], .uint 9223372036854775808), ([97], .list [])]])])) = .ok t [] ∧
      Value.eqv (.dict [([107], .list [.int (-7), .str [120, 121],
        .dict [([98], .uint 9223372036854775808), ([97], .list [])]])]) (.dict t) = true :=
  C1_round_trip (.list [.int (-7), .str [120, 121],
    .dict [([98], .uint 9223372036854775808), ([97], .list [])]]) [107] (by decide) (by decide)

/-! ## The top level -/

theorem sortKeys_singleton (k : Bytes) : sortKeys [k] = [k] := rfl

/-- C11: for every key `k` and every string `s`, of any bytes whatever (each of
at most `maxAlloc` bytes, as every Go string is), `Decode(Encode({k: s}))`
returns no error, reads the whole encoding and gives the one-entry dictionary
that maps exactly `k` to exactly `s`. -/
theorem C11_binary_safety (k s : Bytes) (hk : k.length ≤ maxAlloc)
    (hs : s.length ≤ maxAlloc) :
    Decode (Encode (.dict [(k, .str s)])) = .ok [(k, .str s)] [] := by
  have hp : Value.plain (.dict [(k, .str s)]) = true := by
    simp only [Value.plain, Value.plainEntries, Dict.keys, List.map_cons, List.map_nil,
      List.nodup_cons, List.not_mem_nil, not_false_eq_true, List.nodup_nil, and_self,
      decide_True, Bool.and_true, Bool.true_and, decide_eq_true_eq, hk, hs,
      List.isEmpty_cons, Bool.not_false]
  rw [Decode_Encode_plain _ hp]
  simp [Dict.keys, sortKeys_singleton, Dict.get, Value.canon]

/-- C11 at the key `00 3a` and the string `00 ff 3a 65 64 6c 69`. -/
theorem C11_binary_safety_witness :
    Decode (Encode (.dict [([0, 58], .str [0, 255, 58, 101, 100, 108, 105])])) =
      .ok [([0, 58], .str [0, 255, 58, 101, 100, 108, 105])] [] :=
  C11_binary_safety [0, 58] [0, 255, 58, 101, 100, 108, 105] (by decide) (by decide)

/-- C12: `Decode` of the empty input returns no error and the empty
dictionary. -/
theorem C12_empty_input : Decode [] = .ok [] [] := rfl

/-- C13: for every non-empty input whose first byte is not `d`, `Decode` returns
the error "bencode data must begin with a dictionary" and no dictionary; so it
does on `i1e`, `le` and `3:foo`. -/
theorem C13_invalid_root (b : Nat) (rest : Bytes) (hb : b ≠ 100) :
    Decode (b :: rest) = .err .notDictionary ∧
    Decode [105, 49, 101] = .err .notDictionary ∧
    Decode [108, 101] = .err .notDictionary ∧
    Decode [51, 58, 102, 111, 111] = .err .notDictionary := by
  refine ⟨?_, rfl, rfl, rfl⟩
  rw [Decode_cons, if_pos hb]

/-- C13 at the input `x1e`. -/
theorem C13_invalid_root_witness :
    Decode (120 :: [49, 101]) = .err .notDictionary ∧
    Decode [105, 49, 101] = .err .notDictionary ∧
    Decode [108, 101] = .err .notDictionary ∧
    Decode [51, 58, 102, 111, 111] = .err .notDictionary :=
  C13_invalid_root 120 [49, 101] (by decide)

/-- C19: for every dictionary `d` that is plain (not empty, no empty dictionary
at any depth, the four variants only, every integer within `-2^63 … 2^63 - 1`
signed and every unsigned one within `2^63 … 2^64 - 1`; keys distinct, strings
and keys of at most `maxAlloc` bytes) `Decode(Encode(d))` returns no error, reads
the whole encoding and gives a dictionary equal to `d`, lists compared
element-wise in order and dictionaries as maps from key to value. -/
theorem C19_restricted_round_trip (d : Dict) (hd : Value.plain (.dict d) = true) :
    ∃ t, Decode (Encode (.dict d)) = .ok t [] ∧ Value.eqv (.dict d) (.dict t) = true :=
  Decode_Encode_eqv d hd

/-- C19 at `{b: [1, "x"], a: {c: 2^63}}`. -/
theorem C19_restricted_round_trip_witness :
    ∃ t, Decode (Encode (.dict [([98], .list [.int 1, .str [120]]),
        ([97], .dict [([99], .uint 9223372036854775808)])])) = .ok t [] ∧
      Value.eqv (.dict [([98], .list [.int 1, .str [120]]),
        ([97], .dict [([99], .uint 9223372036854775808)])]) (.dict t) = true :=
  C19_restricted_round_trip [([98], .list [.int 1, .str [120]]),
    ([97], .dict [([99], .uint 9223372036854775808)])] (by decide)

/-- C20: for every non-empty input `x` on which `Decode` succeeds with the
dictionary `t`, leaving the bytes `r` unread, and for every `y`, `Decode` of `x`
followed by `y` succeeds with the same `t` and leaves `r` and `y` unread. -/
theorem C20_trailing_bytes_ignored (x y r : Bytes) (t : Dict) (hx : x ≠ [])
    (h : Decode x = .ok t r) : Decode (x ++ y) = .ok t (r ++ y) := by
  rw [Decode_extend x y hx (by rw [h]; rfl), h]
  rfl

/-- C20 at `d1:ai1ee` followed by `xyz`. -/
theorem C20_trailing_bytes_ignored_witness :
    Decode ([100, 49, 58, 97, 105, 49, 101, 101] ++ [120, 121, 122]) =
      .ok [([97], .int 1)] ([] ++ [120, 121, 122]) :=
  C20_trailing_bytes_ignored [100, 49, 58, 97, 105, 49, 101, 101] [120, 121, 122] []
    [([97], .int 1)] (by decide) rfl

/-! ## The canonical form of an integer -/

theorem formatLoop_no_leading_zero (fuel : Nat) : ∀ (n : Nat), n < fuel → 0 < n →
    (formatLoop fuel n []).head? ≠ some 48 := by
  induction fuel with
  | zero => intro n h; omega
  | succ f ih =>
    intro n h h0
    simp only [formatLoop]
    split
    · simp only [List.head?_cons, ne_eq, Option.some.injEq]; omega
    · rw [formatLoop_acc]
      have := ih (n / 10) (by omega) (by omega)
      cases hF : formatLoop f (n / 10) [] with
      | nil => 
        cases f with
        | zero => omega
        | succ f2 => exact absurd hF (formatLoop_ne_nil f2 _)
      | cons c t =>
        rw [hF] at this
        simpa using this

theorem FormatUint_zero : FormatUint 0 = [48] := rfl

theorem FormatUint_no_leading_zero (n : Nat) (h : (FormatUint n).head? = some 48) :
    FormatUint n = [48] := by
  by_cases h0 : n = 0
  · rw [h0]; rfl
  · exact absurd h (formatLoop_no_leading_zero _ n (Nat.lt_succ_self n) (by omega))

/-- C14: `Encode` of a signed integer `n` is `i`, a `-` exactly when `n < 0`, the
decimal digits of the magnitude of `n` without leading zeros, and `e`; `Encode`
of an unsigned integer `m` is `i`, the decimal digits of `m` without leading
zeros and without sign, and `e`; zero is written `i0e`.  A run of digits is
without leading zeros when it starts with `0` only if it is `0`. -/
theorem C14_integer_canonical_form (n : Int) (m : Nat) :
    (∃ ds : Bytes, Encode (.int n) = 105 :: ((if n < 0 then [45] else []) ++ ds ++ [101]) ∧
      ds ≠ [] ∧ ds.all isDigit = true ∧ digitsValue ds = n.natAbs ∧
      (ds.head? = some 48 → ds = [48])) ∧
    (∃ ds : Bytes, Encode (.uint m) = 105 :: (ds ++ [101]) ∧
      ds ≠ [] ∧ ds.all isDigit = true ∧ digitsValue ds = m ∧
      (ds.head? = some 48 → ds = [48])) ∧
    Encode (.int 0) = [105, 48, 101] ∧ Encode (.uint 0) = [105, 48, 101] := by
  refine ⟨⟨FormatUint n.natAbs, ?_, FormatUint_ne_nil _, FormatUint_all _,
    digitsValue_FormatUint _, FormatUint_no_leading_zero _⟩,
    ⟨FormatUint m, writeByType_uint m, FormatUint_ne_nil _, FormatUint_all _,
      digitsValue_FormatUint _, FormatUint_no_leading_zero _⟩, rfl, rfl⟩
  rw [Encode, writeByType_int, FormatInt]
  split <;> simp

/-! ## Values outside the four variants -/

theorem writeByType_outside {v : Value} (h : Value.outside v = true) : writeByType v = [] := by
  cases v <;> simp [Value.outside] at h <;> rfl

/-- C16: for every value `v` outside the four variants `Encode` returns the empty
byte sequence; as an element of a list `v` adds no byte to the encoding of the
list; and in the encoding of a dictionary every key is followed by the encoding
of its value, which is empty when the value is outside the four variants. -/
theorem C16_inert_encoding (v : Value) (xs ys : List Value) (d : Dict)
    (hv : Value.outside v = true) :
    Encode v = [] ∧
    Encode (.list (xs ++ v :: ys)) = Encode (.list (xs ++ ys)) ∧
    Encode (.dict d) =
      100 :: ((sortKeys (Dict.keys d)).flatMap
        (fun k => writeString k ++
          (if Value.outside (Dict.get d k) = true then [] else Encode (Dict.get d k))) ++
        [101]) := by
  refine ⟨writeByType_outside hv, ?_, ?_⟩
  · simp only [Encode, writeByType_list, writeItems_append, writeItems_cons,
      writeByType_outside hv, List.nil_append]
  · rw [Encode_dict]
    congr 2
    apply flatMap_congr_mem
    intro k _
    split
    · rename_i ho
      rw [Encode, writeByType_outside ho]
    · rfl

/-- C16 at the nil value, in the list `[1, nil, 2]` and in the dictionary
`{a: nil, b: 1}`, which is written `d1:a1:bi1ee`. -/
theorem C16_inert_encoding_witness :
    Encode .nil = [] ∧
    Encode (.list ([.int 1] ++ .nil :: [.int 2])) = Encode (.list ([.int 1] ++ [.int 2])) ∧
    Encode (.dict [([97], .nil), ([98], .int 1)]) =
      100 :: ((sortKeys (Dict.keys [([97], .nil), ([98], .int 1)])).flatMap
        (fun k => writeString k ++
          (if Value.outside (Dict.get [([97], .nil), ([98], .int 1)] k) = true then []
            else Encode (Dict.get [([97], .nil), ([98], .int 1)] k))) ++
        [101]) :=
  C16_inert_encoding .nil [.int 1] [.int 2] [([97], .nil), ([98], .int 1)] rfl

/-! ## What is left unread is the end of the input -/

theorem readIntUntil_suffix {delim : Nat} {input : Bytes} {v : Value} {rest : Bytes}
    (h : readIntUntil delim input = .ok v rest) : ∃ c, input = c ++ rest := by
  simp only [readIntUntil] at h
  cases hs : ReadSlice delim input with
  | oof => simp [hs] at h
  | panicked => simp [hs] at h
  | err e => simp [hs] at h
  | ok line r =>
    obtain ⟨pre, _, h2, _, _⟩ := ReadSlice_ok hs
    have hr : ∃ c, input = c ++ r := ⟨pre ++ [delim], by rw [h2]; simp⟩
    simp only [hs] at h
    split at h
    · cases h; exact hr
    · split at h <;> (cases h; exact hr)

theorem readString_suffix {input s rest : Bytes}
    (h : readString input = .ok s rest) : ∃ c, input = c ++ rest := by
  simp only [readString] at h
  cases hs : readIntUntil 58 input with
  | oof => simp [hs] at h
  | panicked => simp [hs] at h
  | err e => simp [hs] at h
  | ok len r =>
    obtain ⟨c, hc⟩ := readIntUntil_suffix hs
    simp only [hs] at h
    cases len with
    | int n =>
      simp only at h
      split at h
      · cases h
      · split at h
        · cases h
        · simp only [ReadFull] at h
          split at h
          · cases h
            exact ⟨c ++ r.take n.toNat, by rw [hc, List.append_assoc, List.take_append_drop]⟩
          · split at h <;> cases h
    | _ => cases h

theorem read_suffix (fuel : Nat) :
    (∀ b input v rest, readByType fuel b input = .ok v rest → ∃ c, b :: input = c ++ rest) ∧
    (∀ acc input v rest, readListLoop fuel acc input = .ok v rest → ∃ c, input = c ++ rest) ∧
    (∀ acc input v rest, readDictionaryLoop fuel acc input = .ok v rest →
      ∃ c, input = c ++ rest) := by
  induction fuel with
  | zero => simp [readByType, readListLoop, readDictionaryLoop]
  | succ f ih =>
    obtain ⟨ih1, ih2, ih3⟩ := ih
    refine ⟨?_, ?_, ?_⟩
    · intro b input v rest h
      simp only [readByType] at h
      split at h
      · obtain ⟨c, hc⟩ := readIntUntil_suffix h
        exact ⟨b :: c, by rw [hc]; rfl⟩
      · split at h
        · obtain ⟨l, hl, _⟩ := Res.map_eq_ok h
          obtain ⟨c, hc⟩ := ih2 _ _ _ _ hl
          exact ⟨b :: c, by rw [hc]; rfl⟩
        · split at h
          · obtain ⟨l, hl, _⟩ := Res.map_eq_ok h
            obtain ⟨c, hc⟩ := ih3 _ _ _ _ hl
            exact ⟨b :: c, by rw [hc]; rfl⟩
          · obtain ⟨l, hl, _⟩ := Res.map_eq_ok h
            exact readString_suffix hl
    · intro acc input v rest h
      simp only [readListLoop] at h
      cases input with
      | nil => simp [ReadByte] at h
      | cons ch r =>
        simp only [ReadByte] at h
        split at h
        · cases h; exact ⟨[ch], rfl⟩
        · cases hb : readByType f ch r with
          | ok item r2 =>
            simp only [hb] at h
            obtain ⟨c1, hc1⟩ := ih1 _ _ _ _ hb
            obtain ⟨c2, hc2⟩ := ih2 _ _ _ _ h
            exact ⟨c1 ++ c2, by rw [hc1, hc2, List.append_assoc]⟩
          | err e => simp [hb] at h
          | oof => simp [hb] at h
          | panicked => simp [hb] at h
    · intro acc input v rest h
      simp only [readDictionaryLoop] at h
      cases hs : readString input with
      | oof => simp [hs] at h
      | panicked => simp [hs] at h
      | err e => simp [hs] at h
      | ok key r1 =>
        obtain ⟨c0, hc0⟩ := readString_suffix hs
        simp only [hs] at h
        cases r1 with
        | nil => simp [ReadByte] at h
        | cons ch r2 =>
          simp only [ReadByte] at h
          cases hb : readByType f ch r2 with
          | oof => simp [hb] at h
          | panicked => simp [hb] at h
          | err e => simp [hb] at h
          | ok item r3 =>
            obtain ⟨c1, hc1⟩ := ih1 _ _ _ _ hb
            simp only [hb] at h
            cases r3 with
            | nil => simp at h
            | cons nb r4 =>
              simp only at h
              split at h
              · cases h
                exact ⟨c0 ++ c1 ++ [nb], by rw [hc0, hc1]; simp⟩
              · obtain ⟨c2, hc2⟩ := ih3 _ _ _ _ h
                exact ⟨c0 ++ c1 ++ c2, by rw [hc0, hc1, hc2]; simp⟩

/-! ## The keys of a dictionary are strings -/

theorem Dict.keys_set (d : Dict) (k : Bytes) (v : Value) :
    Dict.keys (Dict.set d k v) = if k ∈ Dict.keys d then Dict.keys d else Dict.keys d ++ [k] := by
  induction d with
  | nil => simp [Dict.set, Dict.keys]
  | cons kv rest ih =>
    obtain ⟨k0, v0⟩ := kv
    simp only [Dict.set]
    by_cases h : k0 = k
    · simp [Dict.keys, h]
    · have h2 : ¬ k = k0 := fun e => h e.symm
      simp only [h, if_false]
      simp only [Dict.keys, List.map_cons, List.mem_cons, h2, false_or, List.cons_append] at ih ⊢
      rw [ih]
      split <;> rfl

theorem Dict.mem_keys_set {d : Dict} {k x : Bytes} {v : Value}
    (h : x ∈ Dict.keys (Dict.set d k v)) : x ∈ Dict.keys d ∨ x = k := by
  rw [Dict.keys_set] at h
  split at h
  · exact Or.inl h
  · rcases List.mem_append.1 h with h1 | h1
    · exact Or.inl h1
    · exact Or.inr (List.mem_singleton.1 h1)

theorem readDictionaryLoop_keys (fuel : Nat) : ∀ (acc : Dict) (input : Bytes) (d : Dict)
    (rest : Bytes), readDictionaryLoop fuel acc input = .ok d rest →
    ∀ k ∈ Dict.keys d, k ∈ Dict.keys acc ∨
      ∃ (before token r : Bytes), input = before ++ token ∧ readString token = .ok k r := by
  induction fuel with
  | zero => intro acc input d rest h; simp [readDictionaryLoop] at h
  | succ f ih =>
    intro acc input d rest h k hk
    simp only [readDictionaryLoop] at h
    cases hs : readString input with
    | oof => simp [hs] at h
    | panicked => simp [hs] at h
    | err e => simp [hs] at h
    | ok key r1 =>
      obtain ⟨c0, hc0⟩ := readString_suffix hs
      simp only [hs] at h
      cases r1 with
      | nil => simp [ReadByte] at h
      | cons ch r2 =>
        simp only [ReadByte] at h
        cases hb : readByType f ch r2 with
        | oof => simp [hb] at h
        | panicked => simp [hb] at h
        | err e => simp [hb] at h
        | ok item r3 =>
          obtain ⟨c1, hc1⟩ := (read_suffix f).1 _ _ _ _ hb
          simp only [hb] at h
          cases r3 with
          | nil => simp at h
          | cons nb r4 =>
            simp only at h
            have hfirst : ∀ x, x ∈ Dict.keys (Dict.set acc key item) → x ∈ Dict.keys acc ∨
                ∃ (before token r : Bytes), input = before ++ token ∧
                  readString token = .ok x r := by
              intro x hx
              rcases Dict.mem_keys_set hx with h1 | h1
              · exact Or.inl h1
              · exact Or.inr ⟨[], input, ch :: r2, rfl, by rw [h1]; exact hs⟩
            split at h
            · cases h; exact hfirst k hk
            · rcases ih _ _ _ _ h k hk with h1 | ⟨before, token, r, h2, h3⟩
              · exact hfirst k h1
              · exact Or.inr ⟨c0 ++ c1 ++ before, token, r,
                  by rw [hc0, hc1, h2]; simp, h3⟩

theorem readDictionaryLoop_bad_key (b : Nat) (hb : b = 105 ∨ b = 108 ∨ b = 100) (fuel : Nat)
    (acc : Dict) (rest : Bytes) : ∃ e, readDictionaryLoop (fuel + 1) acc (b :: rest) = .err e := by
  obtain ⟨e, he⟩ := readString_bad_head b rest (by rcases hb with h | h | h <;> rw [h] <;> decide)
    (by omega) (by omega)
  exact ⟨e, readDictionaryLoop_err_key fuel acc he⟩

/-! ## Leading zeros -/

theorem digitsValue_append (a b : Bytes) :
    digitsValue (a ++ b) = b.foldl (fun acc c => 10 * acc + (c - 48)) (digitsValue a) := by
  simp [digitsValue, List.foldl_append]

theorem digitsValue_zeros (z : Nat) : digitsValue (List.replicate z 48) = 0 := by
  induction z with
  | zero => rfl
  | succ z ih =>
    rw [List.replicate_succ', digitsValue_snoc, ih]

theorem digitsValue_leading_zeros (z : Nat) (ds : Bytes) :
    digitsValue (List.replicate z 48 ++ ds) = digitsValue ds := by
  rw [digitsValue_append, digitsValue_zeros]; rfl

theorem all_isDigit_leading_zeros (z : Nat) (ds : Bytes) (h : ds.all isDigit = true) :
    (List.replicate z 48 ++ ds).all isDigit = true := by
  rw [List.all_append, h, Bool.and_true, List.all_eq_true]
  intro c hc
  rw [(List.mem_replicate.1 hc).2]; rfl

theorem ParseUint_digits (s : Bytes) (hne : s ≠ []) (hall : s.all isDigit = true) :
    ParseUint s = if digitsValue s < 2 ^ 64 then some (digitsValue s) else none := by
  simp only [ParseUint, hne, hall, if_true, if_false]

theorem not_mem_of_all_isDigit {s : Bytes} {delim : Nat} (hall : s.all isDigit = true)
    (hd : isDigit delim = false) : delim ∉ s := by
  intro hm
  rw [List.all_eq_true] at hall
  rw [hall delim hm] at hd; cases hd

theorem readIntUntil_leading_zeros (delim z : Nat) (ds rest : Bytes) (hne : ds ≠ [])
    (hall : ds.all isDigit = true) (hd : isDigit delim = false)
    (hfit : z + ds.length < defaultBufSize) :
    readIntUntil delim (List.replicate z 48 ++ ds ++ delim :: rest) =
      readIntUntil delim (ds ++ delim :: rest) := by
  have hall2 := all_isDigit_leading_zeros z ds hall
  have hne2 : List.replicate z 48 ++ ds ≠ [] := by simp [hne]
  rw [readIntUntil_found delim _ rest (not_mem_of_all_isDigit hall2 hd)
      (by simp only [List.length_append, List.length_replicate]; exact hfit),
    readIntUntil_found delim _ rest (not_mem_of_all_isDigit hall hd) (by omega),
    ParseInt_digits _ hne2 hall2, ParseInt_digits _ hne hall,
    ParseUint_digits _ hne2 hall2, ParseUint_digits _ hne hall, digitsValue_leading_zeros]

theorem readIntUntil_too_long (delim z : Nat) (x : Bytes) (hd : delim ≠ 48)
    (hz : defaultBufSize ≤ z) :
    readIntUntil delim (List.replicate z 48 ++ x) = .err .bufferFull := by
  have hm : delim ∉ List.replicate z 48 := fun h => hd (List.mem_replicate.1 h).2
  simp only [readIntUntil, ReadSlice_full delim _ x hm (by simp only [List.length_replicate]; exact hz)]

theorem Decode_too_many_zeros :
    Decode (100 :: 49 :: 58 :: 107 :: 105 :: (List.replicate 4096 48 ++ [55, 101, 101])) =
      .err .bufferFull := by
  rw [Decode_cons]
  simp only [ne_eq, not_true_eq_false, if_false]
  have hk : readString (49 :: 58 :: 107 :: 105 :: (List.replicate 4096 48 ++ [55, 101, 101])) =
      .ok [107] (105 :: (List.replicate 4096 48 ++ [55, 101, 101])) :=
    readString_writeString [107] (105 :: (List.replicate 4096 48 ++ [55, 101, 101])) (by decide)
  obtain ⟨f, hf⟩ : ∃ f, 2 * ((49 :: 58 :: 107 :: 105 ::
      (List.replicate 4096 48 ++ [55, 101, 101])).length + 1) = f + 1 + 1 :=
    ⟨2 * (49 :: 58 :: 107 :: 105 :: (List.replicate 4096 48 ++ [55, 101, 101])).length,
      by omega⟩
  rw [hf]
  have hv : readByType (f + 1) 105 (List.replicate 4096 48 ++ [55, 101, 101]) =
      .err .bufferFull := by
    rw [readByType_int, readIntUntil_too_long 101 4096 _ (by decide) (by decide)]
  exact readDictionaryLoop_err_value [] hk hv

/-- C18, the claim as stated fails: behind 4096 leading zeros the digit `7` is
not read any more, neither as an integer (`i0…07e`) nor as a length
(`0…07:abcdefg`); both reads end in `bufio.ErrBufferFull`, and so does `Decode` of
`d1:ki0…07ee`, while `i7e` is read as the integer 7, `7:abcdefg` as the string
`abcdefg`, and `d1:ki7ee` is decoded to `{k: 7}`. -/
theorem C18_counterexample_buffer_full :
    readByType 1 105 (List.replicate 4096 48 ++ [55, 101]) = .err .bufferFull ∧
    readByType 1 105 [55, 101] = .ok (.int 7) [] ∧
    readString (List.replicate 4096 48 ++ [55, 58, 97, 98, 99, 100, 101, 102, 103]) =
      .err .bufferFull ∧
    readString [55, 58, 97, 98, 99, 100, 101, 102, 103] =
      .ok [97, 98, 99, 100, 101, 102, 103] [] ∧
    Decode (100 :: 49 :: 58 :: 107 :: 105 :: (List.replicate 4096 48 ++ [55, 101, 101])) =
      .err .bufferFull ∧
    Decode [100, 49, 58, 107, 105, 55, 101, 101] = .ok [([107], .int 7)] [] := by
  refine ⟨?_, rfl, ?_, rfl, Decode_too_many_zeros, rfl⟩
  · rw [readByType_int, readIntUntil_too_long 101 4096 _ (by decide) (by decide)]
  · simp only [readString,
      readIntUntil_too_long 58 4096 _ (by decide) (by decide)]

/-- C18, amended: putting `z` bytes `0` in front of a non-empty run of digits `ds`
changes neither whether the read succeeds nor what it returns, for the integer
between `i` and `e` and for the length in front of `:`, as long as zeros and
digits together are fewer than 4096 bytes; `d1:ki007ee` is decoded to `{k: 7}`
and `d1:k007:abcdefge` to `{k: "abcdefg"}`. -/
theorem C18_leading_zeros (z : Nat) (ds rest : Bytes) (fuel : Nat) (hne : ds ≠ [])
    (hall : ds.all isDigit = true) (hfit : z + ds.length < 4096) :
    readByType (fuel + 1) 105 (List.replicate z 48 ++ ds ++ 101 :: rest) =
      readByType (fuel + 1) 105 (ds ++ 101 :: rest) ∧
    readString (List.replicate z 48 ++ ds ++ 58 :: rest) = readString (ds ++ 58 :: rest) ∧
    Decode [100, 49, 58, 107, 105, 48, 48, 55, 101, 101] = .ok [([107], .int 7)] [] ∧
    Decode [100, 49, 58, 107, 48, 48, 55, 58, 97, 98, 99, 100, 101, 102, 103, 101] =
      .ok [([107], .str [97, 98, 99, 100, 101, 102, 103])] [] := by
  refine ⟨?_, ?_, rfl, rfl⟩
  · rw [readByType_int, readByType_int,
      readIntUntil_leading_zeros 101 z ds rest hne hall (by decide) hfit]
  · simp only [readString, readIntUntil_leading_zeros 58 z ds rest hne hall (by decide) hfit]

/-- C18, amended, at two zeros in front of `7`. -/
theorem C18_leading_zeros_witness :
    readByType (0 + 1) 105 (List.replicate 2 48 ++ [55] ++
        101 :: [97, 98, 99, 100, 101, 102, 103]) =
      readByType (0 + 1) 105 ([55] ++ 101 :: [97, 98, 99, 100, 101, 102, 103]) ∧
    readString (List.replicate 2 48 ++ [55] ++ 58 :: [97, 98, 99, 100, 101, 102, 103]) =
      readString ([55] ++ 58 :: [97, 98, 99, 100, 101, 102, 103]) ∧
    Decode [100, 49, 58, 107, 105, 48, 48, 55, 101, 101] = .ok [([107], .int 7)] [] ∧
    Decode [100, 49, 58, 107, 48, 48, 55, 58, 97, 98, 99, 100, 101, 102, 103, 101] =
      .ok [([107], .str [97, 98, 99, 100, 101, 102, 103])] [] :=
  C18_leading_zeros 2 [55] [97, 98, 99, 100, 101, 102, 103] 0 (by decide) (by decide)
    (by decide)

/-! ## A key that stands twice in a dictionary -/

theorem Dict.assign_append (d : Dict) (es : List (Bytes × Value)) (k : Bytes) (v : Value) :
    Dict.assign d (es ++ [(k, v)]) = Dict.set (Dict.assign d es) k v := by
  simp [Dict.assign, List.foldl_append]

theorem Dict.assign_cons (d : Dict) (es : List (Bytes × Value)) (k : Bytes) (v : Value) :
    Dict.assign d ((k, v) :: es) = Dict.assign (Dict.set d k v) es := rfl

theorem readDictionaryLoop_assign (start : Dict) (fuel : Nat) :
    ∀ (es : List (Bytes × Value)) (input : Bytes),
      readDictionaryLoop fuel (Dict.assign start es) input =
        (readEntriesLoop fuel es input).map (Dict.assign start) := by
  induction fuel with
  | zero => intro es input; rfl
  | succ f ih =>
    intro es input
    simp only [readDictionaryLoop, readEntriesLoop]
    cases readString input with
    | oof => rfl
    | panicked => rfl
    | err e => rfl
    | ok key r1 =>
      cases r1 with
      | nil => rfl
      | cons ch r2 =>
        simp only [ReadByte]
        cases readByType f ch r2 with
        | oof => rfl
        | panicked => rfl
        | err e => rfl
        | ok item r3 =>
          cases r3 with
          | nil => rfl
          | cons nb r4 =>
            simp only
            by_cases h1 : nb = 101
            · simp only [h1, if_true, Res.map, Dict.assign_append]
            · simp only [h1, if_false]
              rw [← Dict.assign_append, ih]

theorem Dict.get?_set_self (d : Dict) (k : Bytes) (v : Value) :
    Dict.get? (Dict.set d k v) k = some v := by
  induction d with
  | nil => simp [Dict.set, Dict.get?]
  | cons kv rest ih =>
    obtain ⟨k0, v0⟩ := kv
    simp only [Dict.set]
    split
    · simp [Dict.get?]
    · rename_i h
      simp only [Dict.get?, h, if_false]
      exact ih

theorem Dict.get?_set_ne (d : Dict) (k x : Bytes) (v : Value) (hx : x ≠ k) :
    Dict.get? (Dict.set d k v) x = Dict.get? d x := by
  induction d with
  | nil => simp [Dict.set, Dict.get?, Ne.symm hx]
  | cons kv rest ih =>
    obtain ⟨k0, v0⟩ := kv
    simp only [Dict.set]
    split
    · rename_i h
      have : ¬ k0 = x := fun e => hx (e.symm.trans h)
      simp [Dict.get?, this, Ne.symm hx]
    · simp only [Dict.get?]
      split
      · rfl
      · exact ih

theorem Dict.get?_assign_not_mem (post : List (Bytes × Value)) : ∀ (d : Dict) (k : Bytes),
    k ∉ Dict.keys post → Dict.get? (Dict.assign d post) k = Dict.get? d k := by
  induction post with
  | nil => intro d k _; rfl
  | cons kv rest ih =>
    intro d k hk
    obtain ⟨k0, v0⟩ := kv
    simp only [Dict.keys, List.map_cons, List.mem_cons, not_or] at hk
    rw [Dict.assign_cons, ih _ _ hk.2, Dict.get?_set_ne _ _ _ _ hk.1]

theorem Dict.get?_assign_last (d : Dict) (front post : List (Bytes × Value)) (k : Bytes)
    (v : Value) (hk : k ∉ Dict.keys post) :
    Dict.get? (Dict.assign d (front ++ (k, v) :: post)) k = some v := by
  have : Dict.assign d (front ++ (k, v) :: post) =
      Dict.assign (Dict.set (Dict.assign d front) k v) post := by
    simp [Dict.assign, List.foldl_append]
  rw [this, Dict.get?_assign_not_mem post _ _ hk, Dict.get?_set_self]

theorem Dict.keys_set_nodup (d : Dict) (k : Bytes) (v : Value) (h : (Dict.keys d).Nodup) :
    (Dict.keys (Dict.set d k v)).Nodup := by
  rw [Dict.keys_set]
  split
  · exact h
  · rename_i hk
    rw [List.nodup_append]
    refine ⟨h, List.nodup_singleton k, ?_⟩
    intro a ha hb
    rw [List.mem_singleton.1 hb] at ha
    exact hk ha

theorem Value.keysUniqueEntries_set (d : Dict) (k : Bytes) (x : Value)
    (h1 : Value.keysUniqueEntries d = true) (h2 : Value.keysUnique x = true) :
    Value.keysUniqueEntries (Dict.set d k x) = true := by
  induction d with
  | nil => simp [Dict.set, Value.keysUniqueEntries, h2]
  | cons kv rest ih =>
    obtain ⟨k0, v0⟩ := kv
    simp only [Value.keysUniqueEntries, Bool.and_eq_true] at h1
    simp only [Dict.set]
    split
    · simp only [Value.keysUniqueEntries, Bool.and_eq_true]; exact ⟨h2, h1.2⟩
    · simp only [Value.keysUniqueEntries, Bool.and_eq_true]; exact ⟨h1.1, ih h1.2⟩

theorem Value.keysUniqueList_append (xs : List Value) (x : Value)
    (h1 : Value.keysUniqueList xs = true) (h2 : Value.keysUnique x = true) :
    Value.keysUniqueList (xs ++ [x]) = true := by
  induction xs with
  | nil => simp [Value.keysUniqueList, h2]
  | cons y ys ih =>
    simp only [Value.keysUniqueList, Bool.and_eq_true, List.cons_append] at h1 ⊢
    exact ⟨h1.1, ih h1.2⟩

theorem readIntUntil_keysUnique {delim : Nat} {input rest : Bytes} {v : Value}
    (h : readIntUntil delim input = .ok v rest) : Value.keysUnique v = true := by
  simp only [readIntUntil] at h
  cases hs : ReadSlice delim input with
  | oof => simp [hs] at h
  | panicked => simp [hs] at h
  | err e => simp [hs] at h
  | ok line r =>
    simp only [hs] at h
    split at h
    · cases h; rfl
    · split at h <;> (cases h; rfl)

theorem read_keysUnique (fuel : Nat) :
    (∀ b input v rest, readByType fuel b input = .ok v rest → Value.keysUnique v = true) ∧
    (∀ acc input v rest, Value.keysUniqueList acc = true →
      readListLoop fuel acc input = .ok v rest → Value.keysUniqueList v = true) ∧
    (∀ acc input v rest, (Dict.keys acc).Nodup → Value.keysUniqueEntries acc = true →
      readDictionaryLoop fuel acc input = .ok v rest →
      (Dict.keys v).Nodup ∧ Value.keysUniqueEntries v = true) := by
  induction fuel with
  | zero => simp [readByType, readListLoop, readDictionaryLoop]
  | succ f ih =>
    obtain ⟨ih1, ih2, ih3⟩ := ih
    refine ⟨?_, ?_, ?_⟩
    · intro b input v rest h
      simp only [readByType] at h
      split at h
      · exact readIntUntil_keysUnique h
      · split at h
        · obtain ⟨l, hl, hv⟩ := Res.map_eq_ok h
          rw [hv]
          exact ih2 [] _ _ _ rfl hl
        · split at h
          · obtain ⟨l, hl, hv⟩ := Res.map_eq_ok h
            rw [hv]
            have := ih3 [] _ _ _ List.nodup_nil rfl hl
            simp only [Value.keysUnique, Bool.and_eq_true, decide_eq_true_eq]
            exact this
          · obtain ⟨l, hl, hv⟩ := Res.map_eq_ok h
            rw [hv]; rfl
    · intro acc input v rest hacc h
      simp only [readListLoop] at h
      cases input with
      | nil => simp [ReadByte] at h
      | cons ch r =>
        simp only [ReadByte] at h
        split at h
        · cases h; exact hacc
        · cases hb : readByType f ch r with
          | ok item r2 =>
            simp only [hb] at h
            exact ih2 _ _ _ _ (Value.keysUniqueList_append _ _ hacc (ih1 _ _ _ _ hb)) h
          | err e => simp [hb] at h
          | oof => simp [hb] at h
          | panicked => simp [hb] at h
    · intro acc input v rest hnd hacc h
      simp only [readDictionaryLoop] at h
      cases hs : readString input with
      | oof => simp [hs] at h
      | panicked => simp [hs] at h
      | err e => simp [hs] at h
      | ok key r1 =>
        simp only [hs] at h
        cases r1 with
        | nil => simp [ReadByte] at h
        | cons ch r2 =>
          simp only [ReadByte] at h
          cases hb : readByType f ch r2 with
          | oof => simp [hb] at h
          | panicked => simp [hb] at h
          | err e => simp [hb] at h
          | ok item r3 =>
            have h3 := Value.keysUniqueEntries_set acc key item hacc (ih1 _ _ _ _ hb)
            have h4 := Dict.keys_set_nodup acc key item hnd
            simp only [hb] at h
            cases r3 with
            | nil => simp at h
            | cons nb r4 =>
              simp only at h
              split at h
              · cases h; exact ⟨h4, h3⟩
              · exact ih3 _ _ _ _ h4 h3 h

/-- C17: when the loop of `readDictionary`, started from the empty map (as
`Decode` starts it behind the opening `d`, and `readByType` for a dictionary
inside), returns the dictionary `d`, then `d` and every dictionary inside it
have one entry for each of their keys; the entries the loop has read, in the
order of the input, are a list `es`; `d` is what assigning them one after the
other gives; and for each key `k` the dictionary holds the value of the last
entry of `es` with the key `k`.  `d1:ai1e1:ai2ee` is decoded to `{a: 2}`. -/
theorem C17_last_write_wins (fuel : Nat) (input rest : Bytes) (d : Dict)
    (h : readDictionaryLoop fuel [] input = .ok d rest) :
    (Dict.keys d).Nodup ∧ Value.keysUnique (.dict d) = true ∧
    (∃ es : List (Bytes × Value), readEntriesLoop fuel [] input = .ok es rest ∧
      d = Dict.assign [] es ∧
      ∀ (front : List (Bytes × Value)) (k : Bytes) (v : Value) (post : List (Bytes × Value)),
        es = front ++ (k, v) :: post → k ∉ Dict.keys post → Dict.get? d k = some v) ∧
    Decode [100, 49, 58, 97, 105, 49, 101, 49, 58, 97, 105, 50, 101, 101] =
      .ok [([97], .int 2)] [] := by
  have hu := (read_keysUnique fuel).2.2 [] _ _ _ List.nodup_nil rfl h
  refine ⟨hu.1, ?_, ?_, rfl⟩
  · simp only [Value.keysUnique, Bool.and_eq_true, decide_eq_true_eq]
    exact hu
  · have ha := readDictionaryLoop_assign [] fuel [] input
    rw [show Dict.assign [] [] = ([] : Dict) from rfl, h] at ha
    obtain ⟨es, hes, hd⟩ := Res.map_eq_ok ha.symm
    refine ⟨es, hes, hd, ?_⟩
    intro front k v post he hk
    rw [hd, he]
    exact Dict.get?_assign_last [] front post k v hk

/-- C17 at the bytes `1:ai1e1:bi5e1:ai2ee` behind the opening `d`. -/
theorem C17_last_write_wins_witness :
    (Dict.keys [([97], .int 2), ([98], .int 5)]).Nodup ∧
    Value.keysUnique (.dict [([97], .int 2), ([98], .int 5)]) = true ∧
    (∃ es : List (Bytes × Value),
      readEntriesLoop 40 []
        [49, 58, 97, 105, 49, 101, 49, 58, 98, 105, 53, 101, 49, 58, 97, 105, 50, 101, 101] =
          .ok es [] ∧
      [([97], .int 2), ([98], .int 5)] = Dict.assign [] es ∧
      ∀ (front : List (Bytes × Value)) (k : Bytes) (v : Value) (post : List (Bytes × Value)),
        es = front ++ (k, v) :: post → k ∉ Dict.keys post →
          Dict.get? [([97], .int 2), ([98], .int 5)] k = some v) ∧
    Decode [100, 49, 58, 97, 105, 49, 101, 49, 58, 97, 105, 50, 101, 101] =
      .ok [([97], .int 2)] [] :=
  C17_last_write_wins 40
    [49, 58, 97, 105, 49, 101, 49, 58, 98, 105, 53, 101, 49, 58, 97, 105, 50, 101, 101] []
    [([97], .int 2), ([98], .int 5)] rfl

/-! ## A failure anywhere is the failure of the decode -/

/-- Forgetting the value after mapping it is forgetting the value. -/
theorem Res.map_map_unit {α β : Type} (f : α → β) (r : Res α) :
    (r.map f).map (fun _ => ()) = r.map (fun _ => ()) := by
  cases r <;> rfl

/-- A call that makes a call which does not return a value returns what that call
returns: the error, or the panic, is passed on unchanged. -/
theorem Calls_run {c c2 : Call} (h : Calls c c2) (hf : (Call.run c2).isOk = false) :
    Call.run c = Call.run c2 := by
  cases h with
  | value_list fuel input =>
    simp only [Call.run, readByType, show ¬ ((108 : Nat) = 105) by decide, if_false, if_true,
      Res.map_map_unit]
  | value_dict fuel input =>
    simp only [Call.run, readByType, show ¬ ((100 : Nat) = 105) by decide,
      show ¬ ((100 : Nat) = 108) by decide, if_false, if_true, Res.map_map_unit]
  | list_item fuel list ch rest hch =>
    simp only [Call.run] at hf ⊢
    cases hb : readByType fuel ch rest with
    | ok item r2 => rw [hb] at hf; cases hf
    | err e => rw [readListLoop_err_item list hch hb]; rfl
    | oof => simp only [readListLoop, ReadByte, hch, if_false, hb]; rfl
    | panicked => simp only [readListLoop, ReadByte, hch, if_false, hb]; rfl
  | list_next fuel list ch rest item rest2 hch hb =>
    simp only [Call.run, readListLoop_item list hch hb]
  | dict_value fuel dict input key ch rest2 hk =>
    simp only [Call.run] at hf ⊢
    cases hb : readByType fuel ch rest2 with
    | ok item r2 => rw [hb] at hf; cases hf
    | err e => rw [readDictionaryLoop_err_value dict hk hb]; rfl
    | oof => simp only [readDictionaryLoop, hk, ReadByte, hb]; rfl
    | panicked => simp only [readDictionaryLoop, hk, ReadByte, hb]; rfl
  | dict_next fuel dict input key ch rest2 item nextByte rest4 hk hb hnb =>
    simp only [Call.run, readDictionaryLoop_more dict hk hb hnb]

/-- The same along any chain of calls. -/
theorem Reaches_run {c c2 : Call} (h : Reaches c c2) (hf : (Call.run c2).isOk = false) :
    Call.run c = Call.run c2 := by
  induction h with
  | here c => rfl
  | next hc _ ih => rw [← ih hf, Calls_run hc (by rw [ih hf]; exact hf)]

/-- A result that is an error once its value is forgotten is that error. -/
theorem Res.map_unit_err {α : Type} {r : Res α} {e : DecodeError}
    (h : r.map (fun _ => ()) = .err e) : r = .err e := by
  cases r with
  | ok v rest => cases h
  | err e2 => simp only [Res.map, Res.err.injEq] at h; rw [h]
  | oof => cases h
  | panicked => cases h

/-- The result of `Decode` on `d` followed by `input` is the result of the call it
makes of the loop of `readDictionary`. -/
theorem Decode_run (input : Bytes) :
    (Decode (100 :: input)).map (fun _ => ()) = Call.run (Decode.call input) := by
  rw [Decode_cons]
  simp only [ne_eq, not_true_eq_false, if_false]
  rfl

/-- When a call made in the course of a decode returns an error, `Decode` returns an
error. -/
theorem Decode_err_of_reaches {input : Bytes} {c : Call} (h : Reaches (Decode.call input) c)
    (hc : Call.run c = .oof ∨ ∃ e, Call.run c = .err e) :
    ∃ e, Decode (100 :: input) = .err e := by
  have hf : (Call.run c).isOk = false := by
    rcases hc with h1 | ⟨e, h1⟩ <;> rw [h1] <;> rfl
  have hrun := (Decode_run input).trans (Reaches_run h hf)
  rcases hc with h1 | ⟨e, h1⟩
  · rw [h1] at hrun
    have hne := Decode_ne_oof (100 :: input)
    cases hd : Decode (100 :: input) with
    | oof => exact absurd hd hne
    | ok v rest => rw [hd] at hrun; cases hrun
    | err e => rw [hd] at hrun; cases hrun
    | panicked => rw [hd] at hrun; cases hrun
  · rw [h1] at hrun
    exact ⟨e, Res.map_unit_err hrun⟩

/-- The call `readByType(b)` returns an error when `b` is not `i`, `l`, `d`, a digit or
a sign. -/
theorem readByType_bad (b : Nat) (hi : b ≠ 105) (hl : b ≠ 108) (hd : b ≠ 100)
    (hdig : isDigit b = false) (hp : b ≠ 43) (hm : b ≠ 45) (fuel : Nat) (rest : Bytes) :
    ∃ e, readByType (fuel + 1) b rest = .err e := by
  obtain ⟨e, he⟩ := readString_bad_head b rest hdig hp hm
  exact ⟨e, by rw [readByType_string fuel rest hi hl hd, he]; rfl⟩

/-- C9, amended: for every lookahead byte `b` that is not `i`, `l`, `d`, an ASCII
digit, `+` or `-`, and for every remaining input `rest`, `readByType(b)` returns
an error, and `Decode` fails whenever such a byte stands where a value is
expected: whenever the decode of `d` followed by `input` comes to call
`readByType(b)`, as the value of a key or as an item of a list, at any depth, and
in particular when `b` stands behind the first key. -/
theorem C9_unexpected_token (b : Nat) (hi : b ≠ 105) (hl : b ≠ 108) (hd : b ≠ 100)
    (hdig : isDigit b = false) (hp : b ≠ 43) (hm : b ≠ 45) (fuel : Nat) (rest : Bytes)
    (key : Bytes) (hkey : key.length ≤ maxAlloc) :
    (∃ e, readByType (fuel + 1) b rest = .err e) ∧
    (∀ (input : Bytes) (f : Nat), Reaches (Decode.call input) (Call.value f b rest) →
      ∃ e, Decode (100 :: input) = .err e) ∧
    (∃ e, Decode (100 :: (writeString key ++ b :: rest)) = .err e) := by
  have hb := readByType_bad b hi hl hd hdig hp hm
  refine ⟨hb fuel rest, ?_, ?_⟩
  · intro input f hreach
    apply Decode_err_of_reaches hreach
    cases f with
    | zero => exact Or.inl rfl
    | succ f2 =>
      obtain ⟨e, he⟩ := hb f2 rest
      exact Or.inr ⟨e, by simp only [Call.run, he]; rfl⟩
  · rw [Decode_cons]
    simp only [ne_eq, not_true_eq_false, if_false]
    obtain ⟨f2, hf⟩ : ∃ f2, 2 * ((writeString key ++ b :: rest).length + 1) = f2 + 1 + 1 :=
      ⟨2 * (writeString key ++ b :: rest).length, by omega⟩
    rw [hf]
    obtain ⟨e, he⟩ := hb f2 rest
    exact ⟨e, readDictionaryLoop_err_value [] (readString_writeString key (b :: rest) hkey) he⟩

/-- C9, amended, at the byte `?` as an item of the list in `d1:kl?ee` and
behind the key `k` in `d1:k?ee`. -/
theorem C9_unexpected_token_witness :
    (∃ e, readByType (0 + 1) 63 [101, 101] = .err e) ∧
    (∃ e, Decode (100 :: [49, 58, 107, 108, 63, 101, 101]) = .err e) ∧
    (∃ e, Decode (100 :: (writeString [107] ++ 63 :: [101, 101])) = .err e) :=
  ⟨(C9_unexpected_token 63 (by decide) (by decide) (by decide) (by decide) (by decide)
      (by decide) 0 [101, 101] [107] (by decide)).1,
   (C9_unexpected_token 63 (by decide) (by decide) (by decide) (by decide) (by decide)
      (by decide) 0 [101, 101] [107] (by decide)).2.1 [49, 58, 107, 108, 63, 101, 101] 13
      (Reaches.next (Calls.dict_value 15 [] [49, 58, 107, 108, 63, 101, 101] [107] 108
          [63, 101, 101] rfl)
        (Reaches.next (Calls.value_list 14 [63, 101, 101])
          (Reaches.next (Calls.list_item 13 [] 63 [101, 101] (by decide))
            (Reaches.here _)))),
   (C9_unexpected_token 63 (by decide) (by decide) (by decide) (by decide) (by decide)
      (by decide) 0 [101, 101] [107] (by decide)).2.2⟩

/-- C15: when the byte at a key position is `i`, `l` or `d`, the loop of
`readDictionary` fails there (whatever the map read so far and the bytes that
follow), and `Decode` fails whenever such a byte stands where a key is expected:
whenever the decode of `d` followed by `whole` comes to read a key at that byte,
in the top-level dictionary or in a nested one, at the first entry or at a later
one; in particular at the first key of the top-level dictionary, at the key behind
a first entry `key: n`, and at the first key of a dictionary that is the value of
`key`. Every key of a dictionary the loop returns, started from the empty map, was
read by `readString` at some place of the input. -/
theorem C15_keys_are_byte_strings (b : Nat) (hb : b = 105 ∨ b = 108 ∨ b = 100) (fuel : Nat)
    (acc : Dict) (rest key : Bytes) (n : Int) (input rest2 : Bytes) (d : Dict) (k : Bytes)
    (hkey : key.length ≤ maxAlloc) (hn1 : -2 ^ 63 ≤ n) (hn2 : n < 2 ^ 63)
    (hd : readDictionaryLoop fuel [] input = .ok d rest2) (hk : k ∈ Dict.keys d) :
    (∃ e, readDictionaryLoop (fuel + 1) acc (b :: rest) = .err e) ∧
    (∀ (whole : Bytes) (f : Nat), Reaches (Decode.call whole) (Call.dict f acc (b :: rest)) →
      ∃ e, Decode (100 :: whole) = .err e) ∧
    (∃ e, Decode (100 :: b :: rest) = .err e) ∧
    (∃ e, Decode (100 :: (writeString key ++ 105 :: (FormatInt n ++ 101 :: b :: rest))) =
      .err e) ∧
    (∃ e, Decode (100 :: (writeString key ++ 100 :: b :: rest)) = .err e) ∧
    (∃ (before token r : Bytes), input = before ++ token ∧ readString token = .ok k r) := by
  refine ⟨readDictionaryLoop_bad_key b hb fuel acc rest, ?_, ?_, ?_, ?_, ?_⟩
  · intro whole f hreach
    apply Decode_err_of_reaches hreach
    cases f with
    | zero => exact Or.inl rfl
    | succ f2 =>
      obtain ⟨e, he⟩ := readDictionaryLoop_bad_key b hb f2 acc rest
      exact Or.inr ⟨e, by simp only [Call.run, he]; rfl⟩
  · rw [Decode_cons]
    simp only [ne_eq, not_true_eq_false, if_false]
    obtain ⟨f, hf⟩ : ∃ f, 2 * ((b :: rest).length + 1) = f + 1 := ⟨_, rfl⟩
    rw [hf]
    exact readDictionaryLoop_bad_key b hb f [] rest
  · rw [Decode_cons]
    simp only [ne_eq, not_true_eq_false, if_false]
    obtain ⟨f, hf⟩ : ∃ f, 2 * ((writeString key ++
        105 :: (FormatInt n ++ 101 :: b :: rest)).length + 1) = f + 1 + 1 + 1 :=
      ⟨2 * (writeString key ++ 105 :: (FormatInt n ++ 101 :: b :: rest)).length - 1, by
        simp only [List.length_append, List.length_cons]; omega⟩
    rw [hf]
    have hv : readByType (f + 1 + 1) 105 (FormatInt n ++ 101 :: b :: rest) =
        .ok (.int n) (b :: rest) := by
      rw [readByType_int, readIntUntil_FormatInt 101 n _ (by decide) (by decide) hn1 hn2]
    rw [readDictionaryLoop_more [] (readString_writeString key _ hkey) hv (by omega)]
    exact readDictionaryLoop_bad_key b hb (f + 1) _ rest
  · rw [Decode_cons]
    simp only [ne_eq, not_true_eq_false, if_false]
    obtain ⟨f, hf⟩ : ∃ f, 2 * ((writeString key ++ 100 :: b :: rest).length + 1) =
        f + 1 + 1 + 1 :=
      ⟨2 * (writeString key ++ 100 :: b :: rest).length - 1, by
        simp only [List.length_append, List.length_cons]; omega⟩
    rw [hf]
    obtain ⟨e, he⟩ := readDictionaryLoop_bad_key b hb f [] rest
    have hv : readByType (f + 1 + 1) 100 (b :: rest) = .err e := by
      simp only [readByType, show ¬ ((100 : Nat) = 105) by decide,
        show ¬ ((100 : Nat) = 108) by decide, if_false, if_true, he]
      rfl
    exact ⟨e, readDictionaryLoop_err_value [] (readString_writeString key _ hkey) hv⟩
  · rcases readDictionaryLoop_keys fuel [] input d rest2 hd k hk with h | h
    · simp [Dict.keys] at h
    · exact h

/-- C15 at the byte `i` in the place of the first key of the dictionary under
`b` in `d1:ai1e1:bdi1eee`, behind the key `k` and the integer 7, and for the key
`ab` of the dictionary read from `2:abi7ee`. -/
theorem C15_keys_are_byte_strings_witness :
    (∃ e, readDictionaryLoop (6 + 1) [] (105 :: [49, 101, 101, 101]) = .err e) ∧
    (∃ e, Decode (100 :: [49, 58, 97, 105, 49, 101, 49, 58, 98, 100, 105, 49, 101, 101,
      101]) = .err e) ∧
    (∃ e, Decode (100 :: 105 :: [49, 101, 101, 101]) = .err e) ∧
    (∃ e, Decode (100 :: (writeString [107] ++
      105 :: (FormatInt 7 ++ 101 :: 105 :: [49, 101, 101, 101]))) = .err e) ∧
    (∃ e, Decode (100 :: (writeString [107] ++ 100 :: 105 :: [49, 101, 101, 101])) = .err e) ∧
    (∃ (before token r : Bytes), [50, 58, 97, 98, 105, 55, 101, 101] = before ++ token ∧
      readString token = .ok [97, 98] r) :=
  ⟨(C15_keys_are_byte_strings 105 (Or.inl rfl) 6 [] [49, 101, 101, 101] [107] 7
      [50, 58, 97, 98, 105, 55, 101, 101] [] [([97, 98], .int 7)] [97, 98]
      (by decide) (by decide) (by decide) rfl (by decide)).1,
   (C15_keys_are_byte_strings 105 (Or.inl rfl) 6 [] [49, 101, 101, 101] [107] 7
      [50, 58, 97, 98, 105, 55, 101, 101] [] [([97, 98], .int 7)] [97, 98]
      (by decide) (by decide) (by decide) rfl (by decide)).2.1
      [49, 58, 97, 105, 49, 101, 49, 58, 98, 100, 105, 49, 101, 101, 101] 29
      (Reaches.next (Calls.dict_next 31 []
          [49, 58, 97, 105, 49, 101, 49, 58, 98, 100, 105, 49, 101, 101, 101] [97] 105
          [49, 101, 49, 58, 98, 100, 105, 49, 101, 101, 101] (.int 1) 49
          [58, 98, 100, 105, 49, 101, 101, 101] rfl rfl (by decide))
        (Reaches.next (Calls.dict_value 30 (Dict.set [] [97] (.int 1))
            [49, 58, 98, 100, 105, 49, 101, 101, 101] [98] 100 [105, 49, 101, 101, 101] rfl)
          (Reaches.next (Calls.value_dict 29 [105, 49, 101, 101, 101])
            (Reaches.here _)))),
   (C15_keys_are_byte_strings 105 (Or.inl rfl) 6 [] [49, 101, 101, 101] [107] 7
      [50, 58, 97, 98, 105, 55, 101, 101] [] [([97, 98], .int 7)] [97, 98]
      (by decide) (by decide) (by decide) rfl (by decide)).2.2⟩

/-! ## The value beside an error is dropped -/

/-- The pair `readIntUntil` returns is the result of `readIntUntil`. -/
theorem toRes_readIntUntil (untilByte : Nat) (input : Bytes) :
    (Pair.readIntUntil untilByte input).toRes = readIntUntil untilByte input := by
  simp only [Pair.readIntUntil, readIntUntil]
  cases ReadSlice untilByte input with
  | ok res rest =>
    simp only
    cases ParseInt res.dropLast with
    | some v => rfl
    | none => cases ParseUint res.dropLast <;> rfl
  | err e => rfl
  | oof => rfl
  | panicked => rfl

/-- The pair `readString` returns is the result of `readString`. -/
theorem toRes_readString (input : Bytes) :
    (Pair.readString input).toRes = readString input := by
  have h := toRes_readIntUntil 58 input
  simp only [Pair.readString, readString]
  cases hp : Pair.readIntUntil 58 input with
  | ok len rest =>
    rw [hp] at h
    rw [← h]
    simp only [Ret.toRes]
    cases len with
    | int n =>
      simp only
      by_cases h1 : n < 0
      · simp only [h1, if_true, Ret.toRes]
      · by_cases h2 : maxAlloc < n.toNat
        · simp only [h1, h2, if_false, if_true, Ret.toRes]
        · simp only [h1, h2, if_false]
          cases ReadFull n.toNat rest <;> rfl
    | uint n => rfl
    | str s => rfl
    | list xs => rfl
    | dict d => rfl
    | nil => rfl
    | foreign t => rfl
  | err v e => rw [hp] at h; rw [← h]; rfl
  | oof => rw [hp] at h; rw [← h]; rfl
  | panicked => rw [hp] at h; rw [← h]; rfl

/-- Making the item of a pair and dropping the value beside the error is mapping
the result. -/
theorem Ret.item_toRes {α : Type} (f : α → Value) (zero : α) (r : Ret α) :
    (r.item f zero).toRes = r.toRes.map f := by
  cases r <;> rfl

/-- The pairs the recursive readers return are the results of the readers. -/
theorem toRes_read (fuel : Nat) :
    (∀ b input, (Pair.readByType fuel b input).toRes = readByType fuel b input) ∧
    (∀ list input, (Pair.readListLoop fuel list input).toRes = readListLoop fuel list input) ∧
    (∀ dict input,
      (Pair.readDictionaryLoop fuel dict input).toRes = readDictionaryLoop fuel dict input) := by
  induction fuel with
  | zero => exact ⟨fun _ _ => rfl, fun _ _ => rfl, fun _ _ => rfl⟩
  | succ fuel ih =>
    obtain ⟨ih1, ih2, ih3⟩ := ih
    refine ⟨?_, ?_, ?_⟩
    · intro b input
      simp only [Pair.readByType, readByType]
      split
      · exact toRes_readIntUntil 101 input
      · split
        · rw [Ret.item_toRes, ih2]
        · split
          · rw [Ret.item_toRes, ih3]
          · rw [Ret.item_toRes, toRes_readString]
    · intro list input
      simp only [Pair.readListLoop, readListLoop]
      cases ReadByte input with
      | ok ch rest =>
        simp only
        split
        · rfl
        · have h := ih1 ch rest
          cases hp : Pair.readByType fuel ch rest with
          | ok item rest2 => rw [hp] at h; rw [← h]; exact ih2 _ _
          | err v e => rw [hp] at h; rw [← h]; rfl
          | oof => rw [hp] at h; rw [← h]; rfl
          | panicked => rw [hp] at h; rw [← h]; rfl
      | err e => rfl
      | oof => rfl
      | panicked => rfl
    · intro dict input
      simp only [Pair.readDictionaryLoop, readDictionaryLoop]
      have hs := toRes_readString input
      cases hps : Pair.readString input with
      | ok key rest =>
        rw [hps] at hs; rw [← hs]
        simp only [Ret.toRes]
        cases ReadByte rest with
        | ok ch rest2 =>
          simp only
          have h := ih1 ch rest2
          cases hp : Pair.readByType fuel ch rest2 with
          | ok item rest3 =>
            rw [hp] at h; rw [← h]
            simp only [Ret.toRes]
            cases ReadByte rest3 with
            | ok nextByte rest4 =>
              simp only
              by_cases h101 : nextByte = 101
              · simp only [h101, if_true, Ret.toRes]
              · simp only [h101, if_false]
                exact ih3 _ _
            | err e => rfl
            | oof => rfl
            | panicked => rfl
          | err v e => rw [hp] at h; rw [← h]; rfl
          | oof => rw [hp] at h; rw [← h]; rfl
          | panicked => rw [hp] at h; rw [← h]; rfl
        | err e => rfl
        | oof => rfl
        | panicked => rfl
      | err v e => rw [hps] at hs; rw [← hs]; rfl
      | oof => rw [hps] at hs; rw [← hs]; rfl
      | panicked => rw [hps] at hs; rw [← hs]; rfl

/-- The pair `Decode` returns is the result of `Decode`. -/
theorem toRes_Decode (input : Bytes) : (Pair.Decode input).toRes = Decode input := by
  simp only [Pair.Decode, Decode]
  cases ReadByte input with
  | ok firstByte rest =>
    simp only
    split
    · rfl
    · exact (toRes_read _).2.2 _ _
  | err e => rfl
  | oof => rfl
  | panicked => rfl

/-- Beside an error the loop of `readDictionary` returns `nil`. -/
theorem readDictionaryLoop_nil_beside_err (fuel : Nat) (dict : Dict) (input : Bytes)
    (v : Option Dict) (e : DecodeError)
    (h : Pair.readDictionaryLoop fuel dict input = .err v e) : v = none := by
  induction fuel generalizing dict input with
  | zero => simp [Pair.readDictionaryLoop] at h
  | succ fuel ih =>
    simp only [Pair.readDictionaryLoop] at h
    split at h
    · split at h
      · split at h
        · split at h
          · split at h
            · cases h
            · exact ih _ _ h
          · cases h; rfl
          · cases h
          · cases h
        · cases h; rfl
        · cases h
        · cases h
      · cases h; rfl
      · cases h
      · cases h
    · cases h; rfl
    · cases h
    · cases h

/-- The pair `Decode` returns is a dictionary with a nil error, or `nil` with a
non-nil error, unless the call panics. -/
theorem Decode_pair_cases (input : Bytes) :
    (∃ d rest, Pair.Decode input = .ok d rest) ∨ (∃ e, Pair.Decode input = .err none e) ∨
    Pair.Decode input = .panicked := by
  have hres := toRes_Decode input
  have hoof := Decode_ne_oof input
  cases hd : Pair.Decode input with
  | ok d rest => exact Or.inl ⟨d, rest, rfl⟩
  | panicked => exact Or.inr (Or.inr rfl)
  | oof => rw [hd] at hres; exact absurd hres.symm hoof
  | err v e =>
    refine Or.inr (Or.inl ⟨e, ?_⟩)
    simp only [Pair.Decode] at hd
    split at hd
    · split at hd
      · cases hd; rfl
      · rw [readDictionaryLoop_nil_beside_err _ _ _ _ _ hd]
    · cases hd
/-- C10: on the input `d9223372036854775807:a` `Decode` returns neither a
dictionary nor an error: the length `2^63 - 1` in front of the first key passes
the only test of `readString`, `stringLength < 0`, and
`make([]byte, stringLength)` panics; so it does for the length `2^48 + 1`, and
for a length in front of a string in value position (`d1:k9223372036854775807:a`).
A panic apart, the pair `Decode` returns is, for every input, a dictionary with a
nil error or `nil` with a non-nil error, and its error is the one of the model
without the value beside it.  A value beside an error does occur below `Decode`:
on `3:a` `readByType` returns the string `a\0\0` beside `io.ErrUnexpectedEOF`,
and `readDictionary` returns `nil` in its place (`d1:k3:a`). -/
theorem C10_decode_panics_on_huge_length :
    Pair.Decode [100, 57, 50, 50, 51, 51, 55, 50, 48, 51, 54, 56, 53, 52, 55, 55, 53, 56, 48,
      55, 58, 97] = .panicked ∧
    Pair.Decode [100, 50, 56, 49, 52, 55, 52, 57, 55, 54, 55, 49, 48, 54, 53, 55, 58, 97] =
      .panicked ∧
    Pair.Decode [100, 49, 58, 107, 57, 50, 50, 51, 51, 55, 50, 48, 51, 54, 56, 53, 52, 55, 55,
      53, 56, 48, 55, 58, 97] = .panicked ∧
    (∀ input : Bytes, (∃ d rest, Pair.Decode input = .ok d rest) ∨
      (∃ e, Pair.Decode input = .err none e) ∨ Pair.Decode input = .panicked) ∧
    (∀ input : Bytes, (Pair.Decode input).toRes = Decode input) ∧
    Pair.readByType 1 51 [58, 97] = .err (some (.str [97, 0, 0])) .unexpectedEOF ∧
    Pair.Decode [100, 49, 58, 107, 51, 58, 97] = .err none .unexpectedEOF :=
  ⟨rfl, rfl, rfl, Decode_pair_cases, toRes_Decode, rfl, rfl⟩

/-- C8: `readString` on the decimal length `L`, a `:` and the bytes `rest`
returns an error when `L` is negative and when `L` exceeds `2^63 - 1`; for a
length above `maxAlloc` and up to `2^63 - 1` it returns nothing, whatever `rest`
is: `make([]byte, stringLength)` panics, where the claim has an error (the length
exceeds the bytes of `rest`, no input being that long).  For a length up to
`maxAlloc` it returns an error when `L` is greater than the number of bytes of
`rest`, and otherwise the first `L` bytes of `rest`, leaving the reader right
behind them. -/
theorem C8_readString_panics_beyond_maxAlloc (L : Int) (rest : Bytes) :
    (L < 0 → ∃ e, readString (FormatInt L ++ 58 :: rest) = .err e) ∧
    (2 ^ 63 - 1 < L → ∃ e, readString (FormatInt L ++ 58 :: rest) = .err e) ∧
    ((maxAlloc : Int) < L → L ≤ 2 ^ 63 - 1 →
      readString (FormatInt L ++ 58 :: rest) = .panicked) ∧
    (0 ≤ L → L ≤ (maxAlloc : Int) → (rest.length : Int) < L →
      ∃ e, readString (FormatInt L ++ 58 :: rest) = .err e) ∧
    (0 ≤ L → L ≤ (maxAlloc : Int) → L ≤ (rest.length : Int) →
      readString (FormatInt L ++ 58 :: rest) = .ok (rest.take L.toNat) (rest.drop L.toNat)) := by
  refine ⟨fun h => readString_FormatInt_err L rest (Or.inl h),
    fun h => readString_FormatInt_err L rest (Or.inr h),
    fun h0 h1 => readString_FormatInt_panicked L rest h0 h1, ?_, ?_⟩
  · intro h0 h1 h2
    rw [readString_FormatInt_ok L rest h0 h1]
    have : ¬ L.toNat ≤ rest.length := by omega
    simp only [ReadFull, this, if_false]
    split <;> exact ⟨_, rfl⟩
  · intro h0 h1 h2
    rw [readString_FormatInt_ok L rest h0 h1]
    have : L.toNat ≤ rest.length := by omega
    simp only [ReadFull, this, if_true]

/-- C8 at the lengths `-1` and `2^63` (errors), at `2^63 - 1` before the byte
`a` (the panic of `9223372036854775807:a`), at `3` before two bytes (error) and
at `3` before `abcd` (the string `abc`, the reader left before `d`). -/
theorem C8_readString_panics_beyond_maxAlloc_witness :
    (∃ e, readString (FormatInt (-1) ++ 58 :: [97]) = .err e) ∧
    (∃ e, readString (FormatInt (2 ^ 63) ++ 58 :: [97]) = .err e) ∧
    readString (FormatInt (2 ^ 63 - 1) ++ 58 :: [97]) = .panicked ∧
    (∃ e, readString (FormatInt 3 ++ 58 :: [97, 98]) = .err e) ∧
    readString (FormatInt 3 ++ 58 :: [97, 98, 99, 100]) =
      .ok (List.take (3 : Int).toNat [97, 98, 99, 100]) (List.drop (3 : Int).toNat [97, 98, 99, 100]) :=
  ⟨(C8_readString_panics_beyond_maxAlloc (-1) [97]).1 (by decide),
   (C8_readString_panics_beyond_maxAlloc (2 ^ 63) [97]).2.1 (by decide),
   (C8_readString_panics_beyond_maxAlloc (2 ^ 63 - 1) [97]).2.2.1 (by decide) (by decide),
   (C8_readString_panics_beyond_maxAlloc 3 [97, 98]).2.2.2.1 (by decide) (by decide) (by decide),
   (C8_readString_panics_beyond_maxAlloc 3 [97, 98, 99, 100]).2.2.2.2 (by decide) (by decide)
     (by decide)⟩

end Gobencode
